import Mathlib

/-!
# The 2-D Laplace FMM kernels of `kernel2.h`

A shallow embedding of `src/2d/types.h`, `src/2d/kernel2.h` and the driver `main` of
`src/2d/kernel.cxx`, and the closed forms of the kernels `P2PX`, `P2P`, `P2M`, `M2M`, `M2L`,
`L2L`, `L2P`.

Conventions of the embedding.

* `real_t` is an arbitrary linearly ordered field `K` (exact arithmetic: rounding, infinities
  and NaN are not modelled; a division by zero has the value `0`).  The definitions are
  computable and are evaluated over `ℚ` in the examples; the statements that involve `sqrt`
  and `log` are made over `ℝ`.
* `complex_t` is the structure of a real and an imaginary part over `K` with the arithmetic of
  `std::complex`.
* The libm functions `sqrt`, `log` and the complex `log` are parameters of the kernels that
  call them.
* A cell holds the bodies and the child cells that its `BODY` and `CHILD` pointers address;
  each kernel returns the cell it writes to.
* The loop counters and `P` are natural numbers (the source subtracts from them only where the
  result is non-negative).
* Reading or writing a coefficient vector past its end, and a failed `assert`, make a kernel
  return `none`.
* The driver assigns only `P`; the namespace-level `D`, `R0`, `X0` are the fields of the
  `Globals` value it is run with.
-/

namespace exafmm

/-! ## Part 1: data model and kernels -/

/-- The type `complex_t = std::complex<real_t>`, over an exact ordered field `K` standing for
`real_t` (rounding is not modelled). -/
@[ext] structure complex_t (K : Type) where
  re : K
  im : K
deriving DecidableEq

namespace complex_t
variable {K : Type} [LinearOrderedField K]

/-- Conversion `complex_t(r)` of a real scalar. -/
def ofReal (r : K) : complex_t K := ⟨r, 0⟩

instance : Zero (complex_t K) := ⟨⟨0, 0⟩⟩
instance : One (complex_t K) := ⟨⟨1, 0⟩⟩
instance : Add (complex_t K) := ⟨fun z w => ⟨z.re + w.re, z.im + w.im⟩⟩
instance : Neg (complex_t K) := ⟨fun z => ⟨-z.re, -z.im⟩⟩
instance : Sub (complex_t K) := ⟨fun z w => ⟨z.re - w.re, z.im - w.im⟩⟩
instance : Mul (complex_t K) :=
  ⟨fun z w => ⟨z.re * w.re - z.im * w.im, z.re * w.im + z.im * w.re⟩⟩
instance : NatCast (complex_t K) := ⟨fun n => ⟨n, 0⟩⟩
instance : IntCast (complex_t K) := ⟨fun n => ⟨n, 0⟩⟩
/-- Squared modulus `re^2 + im^2`. -/
def normSq (z : complex_t K) : K := z.re * z.re + z.im * z.im
instance : Inv (complex_t K) := ⟨fun z => ⟨z.re / normSq z, -z.im / normSq z⟩⟩
instance : Div (complex_t K) := ⟨fun z w => z * w⁻¹⟩

instance : Field (complex_t K) where
  add_assoc a b c := by ext <;> exact add_assoc _ _ _
  zero_add a := by ext <;> exact zero_add _
  add_zero a := by ext <;> exact add_zero _
  add_comm a b := by ext <;> exact add_comm _ _
  neg_add_cancel a := by ext <;> exact neg_add_cancel _
  sub_eq_add_neg a b := by ext <;> exact sub_eq_add_neg _ _
  nsmul := nsmulRec
  zsmul := zsmulRec
  mul_assoc a b c := by
    ext
    · show (a.re * b.re - a.im * b.im) * c.re - (a.re * b.im + a.im * b.re) * c.im
        = a.re * (b.re * c.re - b.im * c.im) - a.im * (b.re * c.im + b.im * c.re)
      ring
    · show (a.re * b.re - a.im * b.im) * c.im + (a.re * b.im + a.im * b.re) * c.re
        = a.re * (b.re * c.im + b.im * c.re) + a.im * (b.re * c.re - b.im * c.im)
      ring
  one_mul a := by
    ext
    · show 1 * a.re - 0 * a.im = a.re
      ring
    · show 1 * a.im + 0 * a.re = a.im
      ring
  mul_one a := by
    ext
    · show a.re * 1 - a.im * 0 = a.re
      ring
    · show a.re * 0 + a.im * 1 = a.im
      ring
  mul_comm a b := by
    ext
    · show a.re * b.re - a.im * b.im = b.re * a.re - b.im * a.im
      ring
    · show a.re * b.im + a.im * b.re = b.re * a.im + b.im * a.re
      ring
  left_distrib a b c := by
    ext
    · show a.re * (b.re + c.re) - a.im * (b.im + c.im)
        = (a.re * b.re - a.im * b.im) + (a.re * c.re - a.im * c.im)
      ring
    · show a.re * (b.im + c.im) + a.im * (b.re + c.re)
        = (a.re * b.im + a.im * b.re) + (a.re * c.im + a.im * c.re)
      ring
  right_distrib a b c := by
    ext
    · show (a.re + b.re) * c.re - (a.im + b.im) * c.im
        = (a.re * c.re - a.im * c.im) + (b.re * c.re - b.im * c.im)
      ring
    · show (a.re + b.re) * c.im + (a.im + b.im) * c.re
        = (a.re * c.im + a.im * c.re) + (b.re * c.im + b.im * c.re)
      ring
  zero_mul a := by
    ext
    · show 0 * a.re - 0 * a.im = 0
      ring
    · show 0 * a.im + 0 * a.re = 0
      ring
  mul_zero a := by
    ext
    · show a.re * 0 - a.im * 0 = 0
      ring
    · show a.re * 0 + a.im * 0 = 0
      ring
  natCast_zero := by
    ext
    · exact Nat.cast_zero
    · rfl
  natCast_succ n := by
    ext
    · exact Nat.cast_succ n
    · exact (add_zero (0 : K)).symm
  intCast_ofNat n := by
    ext
    · exact Int.cast_natCast n
    · rfl
  intCast_negSucc n := by
    ext
    · exact Int.cast_negSucc n
    · exact neg_zero.symm
  exists_pair_ne := ⟨0, 1, fun h => zero_ne_one (congrArg complex_t.re h)⟩
  div_eq_mul_inv _ _ := rfl
  mul_inv_cancel z hz := by
    have hn : z.re * z.re + z.im * z.im ≠ 0 := by
      intro h
      have h1 := (add_eq_zero_iff_of_nonneg (mul_self_nonneg z.re) (mul_self_nonneg z.im)).1 h
      exact hz (complex_t.ext (mul_self_eq_zero.1 h1.1) (mul_self_eq_zero.1 h1.2))
    ext
    · show z.re * (z.re / (z.re * z.re + z.im * z.im))
        - z.im * (-z.im / (z.re * z.re + z.im * z.im)) = 1
      field_simp
    · show z.re * (-z.im / (z.re * z.re + z.im * z.im))
        + z.im * (z.re / (z.re * z.re + z.im * z.im)) = 0
      field_simp
      ring
  inv_zero := by
    ext
    · show (0 : K) / (0 * 0 + 0 * 0) = 0
      simp
    · show -(0 : K) / (0 * 0 + 0 * 0) = 0
      simp
  nnqsmul := _
  nnqsmul_def := fun _ _ => rfl
  qsmul := _
  qsmul_def := fun _ _ => rfl

instance : CharZero (complex_t K) where
  cast_injective := fun m n h => by
    have h1 : ((m : complex_t K)).re = ((n : complex_t K)).re := by rw [h]
    exact Nat.cast_injective (R := K) h1

end complex_t

section kernels
variable {K : Type} [LinearOrderedField K]

namespace complex_t

/-- The mixed operator `z * r` of a complex and a real scalar: both parts are scaled. -/
def mulR (z : complex_t K) (r : K) : complex_t K := ⟨z.re * r, z.im * r⟩

/-- The mixed operator `r * z` of a real scalar and a complex. -/
def rmul (r : K) (z : complex_t K) : complex_t K := ⟨r * z.re, r * z.im⟩

/-- The mixed operator `z / r` of a complex and a real scalar. -/
def divR (z : complex_t K) (r : K) : complex_t K := ⟨z.re / r, z.im / r⟩

/-- The mixed operator `z + r` (as in `z += r`): only the real part changes. -/
def addR (z : complex_t K) (r : K) : complex_t K := ⟨z.re + r, z.im⟩

end complex_t

/-- Structure of bodies. -/
structure Body (K : Type) where
  /-- Index -/
  I : Int
  /-- Position `X[2]` -/
  X : K × K
  /-- Charge -/
  q : K
  /-- Potential -/
  p : K
  /-- Force `F[2]` -/
  F : K × K
deriving DecidableEq

/-- Structure of cells.  The spans `CHILD .. CHILD+NCHILD` and `BODY .. BODY+NBODY` are held
as the lists of cells and bodies they address, so `NCHILD` and `NBODY` are the lengths of
`CHILD` and `BODY`; the interaction lists `listM2L`, `listP2P` are read by no kernel and are
left out. -/
structure Cell (K : Type) where
  /-- Child cells -/
  CHILD : List (Cell K)
  /-- Bodies of the cell -/
  BODY : List (Body K)
  /-- Cell center `X[2]` -/
  X : K × K
  /-- Cell radius -/
  R : K
  /-- Multipole expansion coefficients -/
  M : List (complex_t K)
  /-- Local expansion coefficients -/
  L : List (complex_t K)

/-- The namespace-level variables of `kernel2.h` that the kernels read: the order of
expansions `P` (a non-negative `int`), the buffer size `D`, and the domain radius and centre
`R0`, `X0`.  The scratch vector `dX` is a local value in each kernel below. -/
structure Globals (K : Type) where
  P : Nat
  D : K
  R0 : K
  X0 : K × K

/-- L2 norm of vector X (the source returns the squared length). -/
def norm (X : K × K) : K := X.1 * X.1 + X.2 * X.2

/-- Checked read `v[i]` of a coefficient vector: `none` past the end. -/
def vget (v : List (complex_t K)) (i : Nat) : Option (complex_t K) := v[i]?

/-- Checked update `v[i] += x` of a coefficient vector: `none` past the end. -/
def vadd (v : List (complex_t K)) (i : Nat) (x : complex_t K) : Option (List (complex_t K)) :=
  if h : i < v.length then some (v.set i (v[i] + x)) else none

/-- Checked update `v[i] += r` with a real right-hand side. -/
def vaddR (v : List (complex_t K)) (i : Nat) (r : K) : Option (List (complex_t K)) :=
  if h : i < v.length then some (v.set i (complex_t.addR v[i] r)) else none

/-- The loop `for (int i = lo; i < hi; i++) body`, threading the state `s`; a failing
iteration ends the run. -/
def forLoop {σ : Type} (lo hi : Nat) (body : Nat → σ → Option σ) (s : σ) : Option σ :=
  (List.range' lo (hi - lo)).foldlM (fun s i => body i s) s

/-- Weight of smoothing function (`fmin` is `min`, `std::abs` is `|.|`).  A failed `assert`
gives `none`. -/
def weight (G : Globals K) (B : Body K) (C : Cell K) : Option K :=
  let x := min (C.R - |B.X.1 - C.X.1|) G.D
  let y := min (C.R - |B.X.2 - C.X.2|) G.D
  let x := if G.R0 - |B.X.1 - G.X0.1| < G.D then G.D else x
  let y := if G.R0 - |B.X.2 - G.X0.2| < G.D then G.D else y
  if ¬ (x ≥ -G.D) then none
  else if ¬ (y ≥ -G.D) then none
  else
    let x := x / G.D
    let y := y / G.D
    let w := (2 + 3 * x - x * x * x) / 4
    let w := w * ((2 + 3 * y - y * y * y) / 4)
    some w

/-- Contribution of one source body `Bj` to the running sums `(p, F)` of the target body
`Bi` in the inner loop of `P2PX`. -/
def P2PX_source (sqrt log : K → K) (Bi : Body K) (acc : K × K × K) (Bj : Body K) :
    K × K × K :=
  let dX : K × K := (Bi.X.1 - Bj.X.1, Bi.X.2 - Bj.X.2)
  let R2 := norm dX
  if R2 ≠ 0 then
    let invR := 1 / sqrt R2
    let logR := Bj.q * log invR
    (acc.1 + logR, acc.2.1 + dX.1 * Bj.q / R2, acc.2.2 + dX.2 * Bj.q / R2)
  else acc

/-- P2P kernel between cells Ci and Cj (unweighted variant); returns `Ci` with its bodies
updated.  `sqrt` and `log` stand for the libm functions. -/
def P2PX (sqrt log : K → K) (Ci Cj : Cell K) : Cell K :=
  { Ci with BODY := Ci.BODY.map fun Bi =>
      let pF := Cj.BODY.foldl (P2PX_source sqrt log Bi) (0, 0, 0)
      { Bi with p := Bi.p + pF.1, F := (Bi.F.1 - pF.2.1, Bi.F.2 - pF.2.2) } }

/-- Contribution of one source body `Bj` of `Cj` to the running sums `(p, F)` of the target
body `Bi` in the inner loop of `P2P`. -/
def P2P_source (sqrt log : K → K) (G : Globals K) (Cj : Cell K) (Bi : Body K)
    (acc : K × K × K) (Bj : Body K) : Option (K × K × K) := do
  let wj ← weight G Bj Cj
  let dX : K × K := (Bi.X.1 - Bj.X.1, Bi.X.2 - Bj.X.2)
  let R2 := norm dX
  if R2 ≠ 0 then
    let invR := 1 / sqrt R2
    let logR := Bj.q * log invR
    pure (acc.1 + logR * wj, acc.2.1 + dX.1 * Bj.q / R2 * wj, acc.2.2 + dX.2 * Bj.q / R2 * wj)
  else pure acc

/-- P2P kernel between cells Ci and Cj; returns `Ci` with its bodies updated. -/
def P2P (sqrt log : K → K) (G : Globals K) (Ci Cj : Cell K) : Option (Cell K) := do
  let bodies ← Ci.BODY.mapM fun Bi => do
    let wi ← weight G Bi Ci
    let pF ← Cj.BODY.foldlM (P2P_source sqrt log G Cj Bi) (0, 0, 0)
    pure { Bi with p := Bi.p + pF.1 * wi, F := (Bi.F.1 - pF.2.1 * wi, Bi.F.2 - pF.2.2 * wi) }
  pure { Ci with BODY := bodies }

/-- The body of the loop over bodies in `P2M`: one body `B` of `C` added to the
coefficients `M`. -/
def P2M_body (G : Globals K) (C : Cell K) (M : List (complex_t K)) (B : Body K) :
    Option (List (complex_t K)) := do
  let dX : K × K := (B.X.1 - C.X.1, B.X.2 - C.X.2)
  let w ← weight G B C
  let Z : complex_t K := ⟨dX.1, dX.2⟩
  let powZ : complex_t K := ⟨1, 0⟩
  let M ← vaddR M 0 (B.q * w)
  let s ← forLoop 1 G.P (fun n (s : complex_t K × List (complex_t K)) => do
    let powZ := s.1 * complex_t.divR Z (n : K)
    let M ← vadd s.2 n (complex_t.mulR (complex_t.mulR powZ B.q) w)
    pure (powZ, M)) (powZ, M)
  pure s.2

/-- P2M kernel for cell C; returns `C` with its multipole coefficients updated. -/
def P2M (G : Globals K) (C : Cell K) : Option (Cell K) := do
  let M ← C.BODY.foldlM (P2M_body G C) C.M
  pure { C with M := M }

/-- The body of the loop over child cells in `M2M`: child `Cj` of `Ci` added to the
coefficients `M` of `Ci`. -/
def M2M_child (G : Globals K) (Ci : Cell K) (M : List (complex_t K)) (Cj : Cell K) :
    Option (List (complex_t K)) :=
  let dX : K × K := (Cj.X.1 - Ci.X.1, Cj.X.2 - Ci.X.2)
  forLoop 0 G.P (fun k M => do
    let Z : complex_t K := ⟨dX.1, dX.2⟩
    let powZ : complex_t K := ⟨1, 0⟩
    let M ← vadd M k (← vget Cj.M k)
    let s ← forLoop 1 (k + 1) (fun n (s : complex_t K × List (complex_t K)) => do
      let powZ := s.1 * complex_t.divR Z (n : K)
      let M ← vadd s.2 k ((← vget Cj.M (k - n)) * powZ)
      pure (powZ, M)) (powZ, M)
    pure s.2) M

/-- M2M kernel for one parent cell Ci; returns `Ci` with its multipole coefficients
updated. -/
def M2M (G : Globals K) (Ci : Cell K) : Option (Cell K) := do
  let M ← Ci.CHILD.foldlM (M2M_child G Ci) Ci.M
  pure { Ci with M := M }

/-- State of the loop over `n` in `M2L`. -/
structure M2L_state (K : Type) where
  Cnk : K
  powZn : complex_t K
  powZnk : complex_t K
  L : List (complex_t K)

/-- M2L kernel between cells Ci and Cj; returns `Ci` with its local coefficients updated.
`clog` stands for the complex `log` of the C++ library. -/
def M2L (clog : complex_t K → complex_t K) (G : Globals K) (Ci Cj : Cell K) :
    Option (Cell K) := do
  let dX : K × K := (Ci.X.1 - Cj.X.1, Ci.X.2 - Cj.X.2)
  let Z : complex_t K := ⟨dX.1, dX.2⟩
  let powZn : complex_t K := ⟨1, 0⟩
  let powZnk : complex_t K := ⟨1, 0⟩
  let invZ : complex_t K := powZn / Z
  let L ← vadd Ci.L 0 (-(← vget Cj.M 0) * clog Z)
  let L ← vadd L 0 ((← vget Cj.M 1) * invZ)
  let powZn := invZ
  let s0 ← forLoop 2 G.P (fun k (s : complex_t K × List (complex_t K)) => do
    let powZn := s.1 * complex_t.rmul ((k - 1 : Nat) : K) invZ
    let L ← vadd s.2 0 ((← vget Cj.M k) * powZn)
    pure (powZn, L)) (powZn, L)
  let L ← vadd s0.2 1 (-(← vget Cj.M 0) * invZ)
  let powZn := invZ
  let s1 ← forLoop 1 G.P (fun k (s : complex_t K × List (complex_t K)) => do
    let powZn := s.1 * complex_t.rmul ((k : Nat) : K) invZ
    let L ← vadd s.2 1 (-(← vget Cj.M k) * powZn)
    pure (powZn, L)) (powZn, L)
  let Cnk : K := -1
  let s ← forLoop 2 G.P (fun n (s : M2L_state K) => do
    let Cnk := s.Cnk * -1
    let powZnk := s.powZnk * invZ
    let powZn := complex_t.rmul Cnk powZnk
    let t ← forLoop 0 G.P (fun k (t : complex_t K × List (complex_t K)) => do
      let powZn := t.1 * complex_t.rmul ((n + k - 1 : Nat) : K) invZ
      let L ← vadd t.2 n ((← vget Cj.M k) * powZn)
      pure (powZn, L)) (powZn, s.L)
    let powZnk := complex_t.mulR powZnk ((n - 1 : Nat) : K)
    pure ⟨Cnk, t.1, powZnk, t.2⟩) ⟨Cnk, s1.1, powZnk, s1.2⟩
  pure { Ci with L := s.L }

/-- The body of the loop over child cells in `L2L`: the coefficients of child `Ci` of `Cj`
are updated. -/
def L2L_child (G : Globals K) (Cj Ci : Cell K) : Option (Cell K) := do
  let dX : K × K := (Ci.X.1 - Cj.X.1, Ci.X.2 - Cj.X.2)
  let Z : complex_t K := ⟨dX.1, dX.2⟩
  let L ← forLoop 0 G.P (fun l L => do
    let powZ : complex_t K := ⟨1, 0⟩
    let L ← vadd L l (← vget Cj.L l)
    let s ← forLoop 1 (G.P - l) (fun k (s : complex_t K × List (complex_t K)) => do
      let powZ := s.1 * complex_t.divR Z (k : K)
      let L ← vadd s.2 l ((← vget Cj.L (l + k)) * powZ)
      pure (powZ, L)) (powZ, L)
    pure s.2) Ci.L
  pure { Ci with L := L }

/-- L2L kernel for one parent cell Cj; returns `Cj` with its child cells updated. -/
def L2L (G : Globals K) (Cj : Cell K) : Option (Cell K) := do
  let children ← Cj.CHILD.mapM (L2L_child G Cj)
  pure { Cj with CHILD := children }

/-- State of the loop over coefficients in `L2P`. -/
structure L2P_state (K : Type) where
  powZ : complex_t K
  p : K
  F : K × K

/-- The body of the loop over bodies in `L2P`: body `B` of `C` updated. -/
def L2P_body (G : Globals K) (C : Cell K) (B : Body K) : Option (Body K) := do
  let w ← weight G B C
  let dX : K × K := (B.X.1 - C.X.1, B.X.2 - C.X.2)
  let Z : complex_t K := ⟨dX.1, dX.2⟩
  let powZ : complex_t K := ⟨1, 0⟩
  let p := B.p + (← vget C.L 0).re * w
  let F0 := B.F.1 + (← vget C.L 1).re * w
  let F1 := B.F.2 - (← vget C.L 1).im * w
  let s ← forLoop 1 G.P (fun n (s : L2P_state K) => do
    let powZ := s.powZ * complex_t.divR Z (n : K)
    let p := s.p + ((← vget C.L n) * powZ).re * w
    if n < G.P - 1 then
      let F0 := s.F.1 + ((← vget C.L (n + 1)) * powZ).re * w
      let F1 := s.F.2 - ((← vget C.L (n + 1)) * powZ).im * w
      pure ⟨powZ, p, (F0, F1)⟩
    else
      pure ⟨powZ, p, s.F⟩) ⟨powZ, p, (F0, F1)⟩
  pure { B with p := s.p, F := s.F }

/-- L2P kernel for cell C; returns `C` with its bodies updated. -/
def L2P (G : Globals K) (C : Cell K) : Option (Cell K) := do
  let bodies ← C.BODY.mapM (L2P_body G C)
  pure { C with BODY := bodies }

/-- The vector `v1` is `v` with `d j` added at every index `j`. -/
def Upd (v v1 : List (complex_t K)) (d : ℕ → complex_t K) : Prop :=
  v1.length = v.length ∧ ∀ j, j < v.length → v1.getD j 0 = v.getD j 0 + d j

/-- The four accumulators of the block `// Verify results` of `main`. -/
structure verify_state (K : Type) where
  pDif : K
  pNrm : K
  FDif : K
  FNrm : K

/-- The block `// Verify results` of `main` in `kernel.cxx`: `bodies` holds the result of the
expansion kernels, `bodies2` the result of `P2PX`; the value is the pair of numbers printed as
`Rel. L2 Error (p)` and `Rel. L2 Error (F)`.  A read past the end of `bodies2` gives
`none`. -/
def main_verify (sqrt : K → K) (bodies bodies2 : List (Body K)) : Option (K × K) := do
  let s ← forLoop 0 bodies.length (fun b (s : verify_state K) => do
    let B ← bodies[b]?
    let B2 ← bodies2[b]?
    pure ⟨s.pDif + (B.p - B2.p) * (B.p - B2.p),
      s.pNrm + B.p * B.p,
      s.FDif + ((B.F.1 - B2.F.1) * (B.F.1 - B2.F.1) + (B.F.2 - B2.F.2) * (B.F.2 - B2.F.2)),
      s.FNrm + (B.F.1 * B.F.1 + B.F.2 * B.F.2)⟩) ⟨0, 0, 0, 0⟩
  pure (sqrt (s.pDif / s.pNrm), sqrt (s.FDif / s.FNrm))

/-- The driver `main` of `kernel.cxx`.  `main` assigns only `P` (from `argv[1]`, here `G.P`);
the buffer size and the domain are the namespace-level `D`, `R0`, `X0` as `main` finds them,
here the other fields of `G`.  Both target cells address the one element of `bodies`, so the
body is threaded through `L2P(CI)`, `L2P(CI2)` and `P2P(CI2,CJ2)`; `bodies2` is the copy with
potential and force reset that `P2PX(CI,CJ)` updates.  The value is the pair of printed
errors; `sqrt`, `log`, `clog` stand for the library functions. -/
def main (sqrt log : K → K) (clog : complex_t K → complex_t K) (G : Globals K) :
    Option (K × K) := do
  -- P2M
  let jbodies : List (Body K) := [⟨0, (13 / 2, 0), 1, 0, (0, 0)⟩]
  let CJ ← P2M G ⟨[], jbodies, (8, 0), 2, List.replicate G.P 0, []⟩
  let CJ2 ← P2M G ⟨[], jbodies, (4, 0), 2, List.replicate G.P 0, []⟩
  -- M2L
  let CI : Cell K := ⟨[], [], (-8, 0), 2, [], List.replicate G.P 0⟩
  let CI2 : Cell K := ⟨[], [], (-4, 0), 2, [], List.replicate G.P 0⟩
  let CI ← M2L clog G CI CJ
  let CI ← M2L clog G CI CJ2
  let CI2 ← M2L clog G CI2 CJ
  -- L2P
  let bodies : List (Body K) := [⟨0, (-13 / 2, 0), 1, 0, (0, 0)⟩]
  let CI ← L2P G { CI with BODY := bodies }
  let CI2 ← L2P G { CI2 with BODY := CI.BODY }
  let CI2 ← P2P sqrt log G CI2 CJ2
  let bodies := CI2.BODY
  -- P2P
  let bodies2 := bodies.map fun B => { B with p := 0, F := (0, 0) }
  let CI := P2PX sqrt log { CI with BODY := bodies2 } CJ
  let bodies2 := CI.BODY
  -- Verify results
  main_verify sqrt bodies bodies2

/-- Auxiliary closed form (no function of the source): the far-field potential series that
`P2M`, `M2L` and `L2P` evaluate together at order `P`, for a unit multipole at offset `a` from
the source centre, a target at offset `b` from the target centre, and `Z` the target centre
minus the source centre. -/
def far_potential_series (clog : complex_t K → complex_t K) (P : ℕ) (Z a b : complex_t K) :
    complex_t K :=
  -clog Z + ∑ n in Finset.range P, ∑ k in Finset.range P,
    (if n + k = 0 then 0 else
      (-1) ^ n * ((n + k - 1).factorial : complex_t K) * (b ^ n / (n.factorial : complex_t K))
        * (a ^ k / (k.factorial : complex_t K)) * Z⁻¹ ^ (n + k))

/-- Auxiliary closed form (no function of the source): the far-field series behind the force
of `L2P`, the derivative of `far_potential_series` in `b` truncated as `L2P` truncates it. -/
def far_force_series (P : ℕ) (Z a b : complex_t K) : complex_t K :=
  ∑ m in Finset.range (P - 1), ∑ k in Finset.range P,
    (-1) ^ (m + 1) * ((m + k).factorial : complex_t K) * (b ^ m / (m.factorial : complex_t K))
      * (a ^ k / (k.factorial : complex_t K)) * Z⁻¹ ^ (m + 1 + k)

end kernels

/-- The complex number of Mathlib with the same real and imaginary part. -/
def toComplex (z : complex_t ℝ) : ℂ := ⟨z.re, z.im⟩

/-- Example globals: order 3, buffer size 1, domain of radius 16 about the origin. -/
def exG : Globals ℚ := ⟨3, 1, 16, (0, 0)⟩

/-- The source body `jbodies[0]` of `kernel.cxx`. -/
def exBj : Body ℚ := ⟨0, (13/2, 0), 1, 0, (0, 0)⟩

/-- The target body `bodies[0]` of `kernel.cxx`. -/
def exBi : Body ℚ := ⟨0, (-13/2, 0), 1, 0, (0, 0)⟩

/-- The cell `CJ` of `kernel.cxx` (centre `(8,0)`, radius 2) with arrays of length 3. -/
def exCJ : Cell ℚ := ⟨[], [exBj], (8, 0), 2, [0, 0, 0], [0, 0, 0]⟩

/-- The cell `CJ2` of `kernel.cxx` (centre `(4,0)`, radius 2) with arrays of length 3. -/
def exCJ2 : Cell ℚ := ⟨[], [exBj], (4, 0), 2, [0, 0, 0], [0, 0, 0]⟩

/-- The cell `CI` of `kernel.cxx` (centre `(-8,0)`, radius 2) with a sample local array. -/
def exCI : Cell ℚ := ⟨[], [exBi], (-8, 0), 2, [0, 0, 0], [⟨1, 0⟩, ⟨0, 1⟩, ⟨2, 0⟩]⟩

/-- A sample multipole array on the cell `CJ`. -/
def exCJm : Cell ℚ := ⟨[], [exBj], (8, 0), 2, [⟨1, 0⟩, ⟨0, 1⟩, ⟨2, 0⟩], [0, 0, 0]⟩

/-- A parent cell over two children carrying sample multipole arrays. -/
def exCP : Cell ℚ :=
  ⟨[exCJm, exCJ2], [], (6, 0), 4, [0, 0, 0], [⟨1, 0⟩, ⟨0, 1⟩, ⟨2, 0⟩]⟩
/-- A parent cell with a sample local array over one child. -/
def exCP2 : Cell ℚ :=
  ⟨[⟨[], [], (7, 1), 1, [0, 0, 0], [⟨1, 0⟩, 0, 0]⟩], [], (6, 0), 4, [0, 0, 0],
    [⟨1, 0⟩, ⟨0, 1⟩, ⟨2, 0⟩]⟩
/-- Example globals with buffer size 1/4. -/
def exG4 : Globals ℚ := ⟨3, 1/4, 16, (0, 0)⟩
/-- A cell of radius 1 about `(7,0)` holding the source body. -/
def exCB : Cell ℚ := ⟨[], [exBj], (7, 0), 1, [0, 0, 0], [0, 0, 0]⟩
/-- A parent cell with a sample local array over one child with a zero local array. -/
def exCP3 : Cell ℚ :=
  ⟨[⟨[], [], (8, 2), 2, [0, 0, 0], [0, 0, 0]⟩], [], (6, 0), 4, [0, 0, 0],
    [⟨1, 0⟩, ⟨0, 1⟩, ⟨2, 0⟩]⟩

/-! ## Part 2: auxiliary lemmas -/

section lemmas
variable {K : Type} [LinearOrderedField K]
open complex_t

namespace complex_t

@[simp] theorem zero_re : (0 : complex_t K).re = 0 := rfl
@[simp] theorem zero_im : (0 : complex_t K).im = 0 := rfl
@[simp] theorem one_re : (1 : complex_t K).re = 1 := rfl
@[simp] theorem one_im : (1 : complex_t K).im = 0 := rfl
@[simp] theorem add_re (z w : complex_t K) : (z + w).re = z.re + w.re := rfl
@[simp] theorem add_im (z w : complex_t K) : (z + w).im = z.im + w.im := rfl
@[simp] theorem neg_re (z : complex_t K) : (-z).re = -z.re := rfl
@[simp] theorem neg_im (z : complex_t K) : (-z).im = -z.im := rfl
@[simp] theorem sub_re (z w : complex_t K) : (z - w).re = z.re - w.re := rfl
@[simp] theorem sub_im (z w : complex_t K) : (z - w).im = z.im - w.im := rfl
@[simp] theorem mul_re (z w : complex_t K) : (z * w).re = z.re * w.re - z.im * w.im := rfl
@[simp] theorem mul_im (z w : complex_t K) : (z * w).im = z.re * w.im + z.im * w.re := rfl
@[simp] theorem natCast_re (n : ℕ) : (n : complex_t K).re = n := rfl
@[simp] theorem natCast_im (n : ℕ) : (n : complex_t K).im = 0 := rfl
@[simp] theorem ofReal_re (r : K) : (ofReal r).re = r := rfl
@[simp] theorem ofReal_im (r : K) : (ofReal r).im = 0 := rfl
@[simp] theorem inv_re (z : complex_t K) : (z⁻¹).re = z.re / normSq z := rfl
@[simp] theorem inv_im (z : complex_t K) : (z⁻¹).im = -z.im / normSq z := rfl

theorem mk_one_zero : (⟨1, 0⟩ : complex_t K) = 1 := rfl

theorem ofReal_natCast (n : ℕ) : ofReal (n : K) = (n : complex_t K) := rfl

theorem ofReal_one : ofReal (1 : K) = 1 := rfl

theorem ofReal_zero : ofReal (0 : K) = 0 := rfl

theorem ofReal_neg (r : K) : ofReal (-r) = -ofReal r := by
  ext <;> simp

theorem ofReal_add (r s : K) : ofReal (r + s) = ofReal r + ofReal s := by
  ext <;> simp

theorem ofReal_mul (r s : K) : ofReal (r * s) = ofReal r * ofReal s := by
  ext <;> simp

theorem ofReal_inv (r : K) : ofReal (r⁻¹) = (ofReal r)⁻¹ := by
  ext
  · simp only [ofReal_re, inv_re, normSq, mul_zero, add_zero]
    by_cases h : r = 0
    · simp [h]
    · field_simp
  · simp [normSq]

theorem mulR_eq (z : complex_t K) (r : K) : mulR z r = z * ofReal r := by
  ext <;> simp [mulR]

theorem rmul_eq (r : K) (z : complex_t K) : rmul r z = ofReal r * z := by
  ext <;> simp [rmul]

theorem addR_eq (z : complex_t K) (r : K) : addR z r = z + ofReal r := by
  ext <;> simp [addR]

theorem divR_eq (z : complex_t K) (r : K) : divR z r = z / ofReal r := by
  rw [div_eq_mul_inv, ← ofReal_inv]
  ext <;> simp [divR, div_eq_mul_inv]

/-- The recurrence `powZ *= Z / real_t(n)` keeps `powZ = Z^n / n!`. -/
theorem pow_div_factorial_succ (Z : complex_t K) (m : ℕ) :
    Z ^ m / (m.factorial : complex_t K) * divR Z ((m + 1 : ℕ) : K)
      = Z ^ (m + 1) / ((m + 1).factorial : complex_t K) := by
  rw [divR_eq, ofReal_natCast, Nat.factorial_succ, pow_succ]
  push_cast
  rw [div_mul_div_comm, mul_comm ((m : complex_t K) + 1)]

end complex_t

/-! ### Checked vector access -/

theorem vget_of_lt {v : List (complex_t K)} {i : ℕ} (h : i < v.length) :
    vget v i = some (v.getD i 0) := by
  simp [vget, List.getD_eq_getElem?_getD, List.getElem?_eq_getElem h]

theorem Upd.rfl_zero (v : List (complex_t K)) : Upd v v (fun _ => 0) :=
  ⟨rfl, fun j _ => by simp⟩

theorem Upd.congr {v v1 : List (complex_t K)} {d e : ℕ → complex_t K} (h : Upd v v1 d)
    (hde : ∀ j, j < v.length → d j = e j) : Upd v v1 e :=
  ⟨h.1, fun j hj => by rw [h.2 j hj, hde j hj]⟩

theorem Upd.trans {v v1 v2 : List (complex_t K)} {d e : ℕ → complex_t K} (h1 : Upd v v1 d)
    (h2 : Upd v1 v2 e) : Upd v v2 (fun j => d j + e j) :=
  ⟨h2.1.trans h1.1, fun j hj => by rw [h2.2 j (h1.1 ▸ hj), h1.2 j hj, add_assoc]⟩

theorem getD_set_add (v : List (complex_t K)) (i j : ℕ) (x : complex_t K) (hi : i < v.length) :
    (v.set i (v[i] + x)).getD j 0 = v.getD j 0 + (if j = i then x else 0) := by
  simp only [List.getD_eq_getElem?_getD, List.getElem?_set]
  by_cases hji : j = i
  · subst hji
    simp [hi, List.getElem?_eq_getElem hi]
  · have : ¬ i = j := fun h => hji h.symm
    simp [hji, this]

theorem vadd_of_lt {v : List (complex_t K)} {i : ℕ} (x : complex_t K) (h : i < v.length) :
    ∃ v1, vadd v i x = some v1 ∧ Upd v v1 (fun j => if j = i then x else 0) := by
  refine ⟨v.set i (v[i] + x), by simp [vadd, h], by simp, fun j _ => getD_set_add v i j x h⟩

theorem vaddR_of_lt {v : List (complex_t K)} {i : ℕ} (r : K) (h : i < v.length) :
    ∃ v1, vaddR v i r = some v1 ∧
      Upd v v1 (fun j => if j = i then complex_t.ofReal r else 0) := by
  refine ⟨v.set i (v[i] + complex_t.ofReal r), by simp [vaddR, h, complex_t.addR_eq], by simp,
    fun j _ => getD_set_add v i j _ h⟩

/-! ### Loops -/

theorem forLoop_of_le {σ : Type} {lo hi : ℕ} (body : ℕ → σ → Option σ) (s : σ)
    (h : hi ≤ lo) :
    forLoop lo hi body s = some s := by
  simp [forLoop, Nat.sub_eq_zero_of_le h]

theorem forLoop_succ {σ : Type} {lo hi : ℕ} (body : ℕ → σ → Option σ) (s : σ)
    (h : lo ≤ hi) :
    forLoop lo (hi + 1) body s = (forLoop lo hi body s).bind (body hi) := by
  have h1 : hi + 1 - lo = (hi - lo) + 1 := by omega
  have h2 : lo + (hi - lo) = hi := by omega
  simp only [forLoop, h1, List.range'_concat, List.foldlM_append, mul_one, h2]
  cases (List.foldlM (fun s i => body i s) s (List.range' lo (hi - lo))) <;> simp [bind, h2]

/-- Invariant rule for `forLoop`: the loop returns, and the invariant holds at `hi`. -/
theorem forLoop_inv {σ : Type} (Inv : ℕ → σ → Prop) (lo hi : ℕ)
    (body : ℕ → σ → Option σ)
    (s0 : σ) (hle : lo ≤ hi) (h0 : Inv lo s0)
    (hstep : ∀ i s, lo ≤ i → i < hi → Inv i s →
      ∃ s1, body i s = some s1 ∧ Inv (i + 1) s1) :
    ∃ s, forLoop lo hi body s0 = some s ∧ Inv hi s := by
  induction hi with
  | zero =>
    have : lo = 0 := by omega
    subst this
    exact ⟨s0, forLoop_of_le body s0 le_rfl, h0⟩
  | succ n ih =>
    by_cases hn : lo ≤ n
    · obtain ⟨s, hs, hI⟩ := ih hn (fun i s h1 h2 h3 => hstep i s h1 (by omega) h3)
      obtain ⟨s1, hs1, hI1⟩ := hstep n s hn (by omega) hI
      exact ⟨s1, by rw [forLoop_succ body s0 hn, hs]; exact hs1, hI1⟩
    · have : lo = n + 1 := by omega
      subst this
      exact ⟨s0, forLoop_of_le body s0 le_rfl, h0⟩

/-- Invariant rule for a monadic left fold over a list. -/
theorem foldlM_inv {α σ : Type} (f : σ → α → Option σ) (Inv : List α → σ → Prop)
    (l : List α)
    (hstep : ∀ pre a s, a ∈ l → Inv pre s →
      ∃ s1, f s a = some s1 ∧ Inv (pre ++ [a]) s1) :
    ∀ (pre : List α) (s : σ), Inv pre s →
      ∃ s1, l.foldlM f s = some s1 ∧ Inv (pre ++ l) s1 := by
  induction l with
  | nil => intro pre s h; exact ⟨s, rfl, by simpa using h⟩
  | cons a t ih =>
    intro pre s h
    obtain ⟨s1, hs1, hI1⟩ := hstep pre a s (List.mem_cons_self a t) h
    obtain ⟨s2, hs2, hI2⟩ :=
      ih (fun pre b s hb hI => hstep pre b s (List.mem_cons_of_mem a hb) hI) (pre ++ [a]) s1 hI1
    refine ⟨s2, ?_, by simpa using hI2⟩
    simp [List.foldlM, hs1, hs2]

theorem mapM_of_forall {α β : Type} (f : α → Option β) (g : α → β) (l : List α)
    (h : ∀ a ∈ l, f a = some (g a)) : l.mapM f = some (l.map g) := by
  induction l with
  | nil => rfl
  | cons a t ih =>
    have h1 := h a (List.mem_cons_self a t)
    have h2 := ih (fun b hb => h b (List.mem_cons_of_mem a hb))
    rw [List.mapM_cons, h1, h2]
    rfl

/-! ### P2M -/

theorem P2M_body_spec (G : Globals K) (C : Cell K) (M : List (complex_t K)) (B : Body K) (w : K)
    (hP : 1 ≤ G.P) (hM : M.length = G.P) (hw : weight G B C = some w) :
    ∃ M1, P2M_body G C M B = some M1 ∧
      Upd M M1 (fun n => ofReal (B.q * w)
        * (⟨B.X.1 - C.X.1, B.X.2 - C.X.2⟩ : complex_t K) ^ n / (n.factorial : complex_t K)) := by
  obtain ⟨M0, hM0, hU0⟩ := vaddR_of_lt (v := M) (i := 0) (B.q * w) (by omega)
  set Z : complex_t K := ⟨B.X.1 - C.X.1, B.X.2 - C.X.2⟩ with hZ
  obtain ⟨s, hs, hpow, hU⟩ := forLoop_inv
    (fun i (s : complex_t K × List (complex_t K)) =>
      s.1 = Z ^ (i - 1) / ((i - 1).factorial : complex_t K) ∧
      Upd M0 s.2 (fun j => if 1 ≤ j ∧ j < i then
        ofReal (B.q * w) * Z ^ j / (j.factorial : complex_t K) else 0)) 1 G.P
    (fun n (s : complex_t K × List (complex_t K)) =>
      (vadd s.2 n (mulR (mulR (s.1 * divR Z (n : K)) B.q) w)).bind
        fun M => some (s.1 * divR Z (n : K), M))
    ((⟨1, 0⟩ : complex_t K), M0) hP
    ⟨by simp [mk_one_zero], (Upd.rfl_zero M0).congr (fun j _ => by
      have : ¬ (1 ≤ j ∧ j < 1) := by omega
      simp only [if_neg this])⟩
    (by
      rintro i ⟨pw, L⟩ h1 h2 ⟨hpw, hUL⟩
      obtain ⟨m, rfl⟩ : ∃ m, i = m + 1 := ⟨i - 1, by omega⟩
      simp only [Nat.add_sub_cancel] at hpw
      simp only at hpw hUL ⊢
      obtain ⟨L1, hL1, hUL1⟩ := vadd_of_lt (v := L) (i := m + 1)
        (mulR (mulR (pw * divR Z ((m + 1 : ℕ) : K)) B.q) w) (by rw [hUL.1, hU0.1, hM]; exact h2)
      refine ⟨(pw * divR Z ((m + 1 : ℕ) : K), L1), by rw [hL1]; rfl, ?_, ?_⟩
      · simp only [Nat.add_sub_cancel]
        rw [hpw, pow_div_factorial_succ]
      · refine (hUL.trans hUL1).congr (fun j _ => ?_)
        rw [hpw, pow_div_factorial_succ, mulR_eq, mulR_eq]
        by_cases hj : j = m + 1
        · subst hj
          have h3 : ¬ (1 ≤ m + 1 ∧ m + 1 < m + 1) := by omega
          have h4 : (1 ≤ m + 1 ∧ m + 1 < m + 1 + 1) := by omega
          rw [if_neg h3, if_pos h4, if_pos rfl, ofReal_mul]
          ring
        · by_cases hj1 : 1 ≤ j ∧ j < m + 1
          · have h3 : 1 ≤ j ∧ j < m + 1 + 1 := by omega
            rw [if_pos hj1, if_pos h3, if_neg hj, add_zero]
          · have h3 : ¬ (1 ≤ j ∧ j < m + 1 + 1) := by omega
            rw [if_neg hj1, if_neg h3, if_neg hj, add_zero])
  refine ⟨s.2, ?_, ?_⟩
  · simp only [P2M_body, hw, Option.bind_eq_bind, Option.some_bind, hM0]
    simp only [Option.pure_def, Option.bind_eq_bind] at hs ⊢
    rw [hs]
    rfl
  · refine (hU0.trans hU).congr (fun j hj => ?_)
    by_cases h0 : j = 0
    · subst h0
      have h3 : ¬ (1 ≤ 0 ∧ 0 < G.P) := by omega
      rw [if_pos rfl, if_neg h3]
      simp
    · have h3 : 1 ≤ j ∧ j < G.P := ⟨by omega, hM ▸ hj⟩
      rw [if_neg h0, if_pos h3, zero_add]

theorem P2M_spec (G : Globals K) (C : Cell K) (w : Body K → K)
    (hP : 1 ≤ G.P) (hM : C.M.length = G.P)
    (hw : ∀ B ∈ C.BODY, weight G B C = some (w B)) :
    ∃ M1, P2M G C = some { C with M := M1 } ∧
      Upd C.M M1 (fun n => (C.BODY.map fun B => ofReal (B.q * w B)
        * (⟨B.X.1 - C.X.1, B.X.2 - C.X.2⟩ : complex_t K) ^ n / (n.factorial : complex_t K)).sum) := by
  obtain ⟨M1, hM1, hU⟩ := foldlM_inv (P2M_body G C)
    (fun pre M1 => Upd C.M M1 (fun n => (pre.map fun B => ofReal (B.q * w B)
        * (⟨B.X.1 - C.X.1, B.X.2 - C.X.2⟩ : complex_t K) ^ n / (n.factorial : complex_t K)).sum))
    C.BODY
    (by
      intro pre B M hB hI
      obtain ⟨M1, hM1, hU1⟩ := P2M_body_spec G C M B (w B) hP (hI.1.trans hM) (hw B hB)
      exact ⟨M1, hM1, (hI.trans hU1).congr (fun j _ => by simp)⟩)
    [] C.M ((Upd.rfl_zero C.M).congr (fun j _ => by simp))
  refine ⟨M1, ?_, by simpa using hU⟩
  simp only [P2M, hM1, Option.bind_eq_bind, Option.some_bind]
  rfl

/-- The accumulation loops of the expansion kernels: a running factor `powZ` is multiplied
by `g n`, and `φ A[idx n] * powZ` is added at index `slot`. -/
theorem accLoop_spec (A : List (complex_t K)) (idx : ℕ → ℕ) (φ : complex_t K → complex_t K)
    (g pw : ℕ → complex_t K) (slot lo hi : ℕ) (p0 : complex_t K) (L0 : List (complex_t K))
    (hle : lo ≤ hi) (hp0 : pw lo = p0)
    (hslot : slot < L0.length) (hidx : ∀ n, lo ≤ n → n < hi → idx n < A.length)
    (hpw : ∀ n, lo ≤ n → n < hi → pw (n + 1) = pw n * g n) :
    ∃ L1, forLoop lo hi (fun n (s : complex_t K × List (complex_t K)) =>
        (vget A (idx n)).bind fun a => (vadd s.2 slot (φ a * (s.1 * g n))).bind
          fun L => some (s.1 * g n, L)) (p0, L0) = some (pw hi, L1) ∧
      Upd L0 L1 (fun j => if j = slot then
        ∑ n in Finset.Ico lo hi, φ (A.getD (idx n) 0) * pw (n + 1) else 0) := by
  obtain ⟨s, hs, hp, hU⟩ := forLoop_inv
    (fun i (s : complex_t K × List (complex_t K)) => s.1 = pw i ∧
      Upd L0 s.2 (fun j => if j = slot then
        ∑ n in Finset.Ico lo i, φ (A.getD (idx n) 0) * pw (n + 1) else 0)) lo hi
    (fun n (s : complex_t K × List (complex_t K)) =>
        (vget A (idx n)).bind fun a => (vadd s.2 slot (φ a * (s.1 * g n))).bind
          fun L => some (s.1 * g n, L)) (p0, L0) hle
    ⟨hp0.symm, (Upd.rfl_zero L0).congr (fun j _ => by simp)⟩
    (by
      rintro i ⟨p, L⟩ h1 h2 ⟨hp, hUL⟩
      simp only at hp hUL ⊢
      obtain ⟨L1, hL1, hUL1⟩ := vadd_of_lt (v := L) (i := slot)
        (φ (A.getD (idx i) 0) * (p * g i)) (by rw [hUL.1]; exact hslot)
      refine ⟨(p * g i, L1), ?_, ?_, ?_⟩
      · rw [vget_of_lt (hidx i h1 h2), Option.some_bind, hL1, Option.some_bind]
      · rw [hp, hpw i h1 h2]
      · refine (hUL.trans hUL1).congr (fun j _ => ?_)
        by_cases hj : j = slot
        · rw [if_pos hj, if_pos hj, if_pos hj, Finset.sum_Ico_succ_top h1, hp, hpw i h1 h2]
        · rw [if_neg hj, if_neg hj, if_neg hj, add_zero])
  obtain ⟨p, L1⟩ := s
  simp only at hp hU
  subst hp
  exact ⟨L1, hs, hU⟩

/-! ### M2M -/

theorem M2M_child_spec (G : Globals K) (Ci Cj : Cell K) (M : List (complex_t K))
    (hM : M.length = G.P) (hMj : Cj.M.length = G.P) :
    ∃ M1, M2M_child G Ci M Cj = some M1 ∧
      Upd M M1 (fun k => ∑ n in Finset.range (k + 1), Cj.M.getD (k - n) 0
        * (⟨Cj.X.1 - Ci.X.1, Cj.X.2 - Ci.X.2⟩ : complex_t K) ^ n / (n.factorial : complex_t K)) := by
  set Z : complex_t K := ⟨Cj.X.1 - Ci.X.1, Cj.X.2 - Ci.X.2⟩ with hZ
  obtain ⟨M1, hM1, hU⟩ := forLoop_inv
    (fun k (M1 : List (complex_t K)) => Upd M M1 (fun j => if j < k then
      ∑ n in Finset.range (j + 1), Cj.M.getD (j - n) 0 * Z ^ n / (n.factorial : complex_t K)
      else 0)) 0 G.P
    (fun k (M : List (complex_t K)) =>
      (vget Cj.M k).bind fun a => (vadd M k a).bind fun M =>
        (forLoop 1 (k + 1) (fun n (s : complex_t K × List (complex_t K)) =>
          (vget Cj.M (k - n)).bind fun a => (vadd s.2 k (a * (s.1 * divR Z (n : K)))).bind
            fun L => some (s.1 * divR Z (n : K), L)) ((⟨1, 0⟩ : complex_t K), M)).bind
          fun s => some s.2)
    M (Nat.zero_le G.P)
    ((Upd.rfl_zero M).congr (fun j _ => by simp))
    (by
      intro k L _ hk hUL
      obtain ⟨La, hLa, hUa⟩ := vadd_of_lt (v := L) (i := k) (Cj.M.getD k 0)
        (by rw [hUL.1, hM]; exact hk)
      obtain ⟨Lb, hLb, hUb⟩ := accLoop_spec Cj.M (fun n => k - n) (fun a => a)
        (fun n => divR Z (n : K)) (fun n => Z ^ (n - 1) / ((n - 1).factorial : complex_t K))
        k 1 (k + 1) ⟨1, 0⟩ La (by omega) (by simp [mk_one_zero])
        (by rw [hUa.1, hUL.1, hM]; exact hk)
        (fun n _ _ => by show k - n < Cj.M.length; rw [hMj]; omega)
        (fun n h1 _ => by
          obtain ⟨m, rfl⟩ : ∃ m, n = m + 1 := ⟨n - 1, by omega⟩
          simp only [Nat.add_sub_cancel]
          rw [pow_div_factorial_succ])
      refine ⟨Lb, ?_, ?_⟩
      · beta_reduce
        rw [vget_of_lt (by rw [hMj]; exact hk), Option.some_bind, hLa, Option.some_bind]
        rw [hLb]
        rfl
      · refine (hUL.trans (hUa.trans hUb)).congr (fun j _ => ?_)
        by_cases hj : j = k
        · subst hj
          rw [if_neg (lt_irrefl j), if_pos rfl, if_pos rfl, if_pos (Nat.lt_succ_self j), zero_add,
            Finset.range_eq_Ico, Finset.sum_eq_sum_Ico_succ_bot (Nat.succ_pos j)]
          simp only [Nat.sub_zero, pow_zero, Nat.factorial_zero, Nat.cast_one, div_one, mul_one,
            zero_add, Nat.add_sub_cancel]
          congr 1
          refine Finset.sum_congr rfl (fun n _ => ?_)
          rw [mul_div_assoc]
        · rw [if_neg hj, if_neg hj, add_zero, add_zero]
          by_cases hjk : j < k
          · rw [if_pos hjk, if_pos (by omega)]
          · rw [if_neg hjk, if_neg (by omega)])
  refine ⟨M1, ?_, hU.congr (fun j hj => by rw [if_pos (hM ▸ hj)])⟩
  simp only [M2M_child]
  exact hM1

theorem M2M_spec (G : Globals K) (Ci : Cell K)
    (hM : Ci.M.length = G.P) (hc : ∀ Cj ∈ Ci.CHILD, Cj.M.length = G.P) :
    ∃ M1, M2M G Ci = some { Ci with M := M1 } ∧
      Upd Ci.M M1 (fun k => (Ci.CHILD.map fun Cj =>
        ∑ n in Finset.range (k + 1), Cj.M.getD (k - n) 0
          * (⟨Cj.X.1 - Ci.X.1, Cj.X.2 - Ci.X.2⟩ : complex_t K) ^ n
          / (n.factorial : complex_t K)).sum) := by
  obtain ⟨M1, hM1, hU⟩ := foldlM_inv (M2M_child G Ci)
    (fun pre M1 => Upd Ci.M M1 (fun k => (pre.map fun Cj =>
        ∑ n in Finset.range (k + 1), Cj.M.getD (k - n) 0
          * (⟨Cj.X.1 - Ci.X.1, Cj.X.2 - Ci.X.2⟩ : complex_t K) ^ n
          / (n.factorial : complex_t K)).sum))
    Ci.CHILD
    (by
      intro pre Cj M hCj hI
      obtain ⟨M1, hM1, hU1⟩ := M2M_child_spec G Ci Cj M (hI.1.trans hM) (hc Cj hCj)
      exact ⟨M1, hM1, (hI.trans hU1).congr (fun j _ => by simp)⟩)
    [] Ci.M ((Upd.rfl_zero Ci.M).congr (fun j _ => by simp))
  refine ⟨M1, ?_, by simpa using hU⟩
  simp only [M2M, hM1, Option.bind_eq_bind, Option.some_bind]
  rfl

theorem Upd.eq_map_range {v v1 : List (complex_t K)} {d : ℕ → complex_t K} (h : Upd v v1 d) :
    v1 = (List.range v.length).map fun j => v.getD j 0 + d j := by
  apply List.ext_getElem
  · simp [h.1]
  · intro j h1 h2
    have hj : j < v.length := h.1 ▸ h1
    have := h.2 j hj
    rw [List.getD_eq_getElem _ _ h1] at this
    simp [this]

theorem mapM_of_forall₂ {α β : Type} (f : α → Option β) (R : α → β → Prop) (l : List α)
    (h : ∀ a ∈ l, ∃ b, f a = some b ∧ R a b) :
    ∃ bs, l.mapM f = some bs ∧ List.Forall₂ R l bs := by
  induction l with
  | nil => exact ⟨[], rfl, List.Forall₂.nil⟩
  | cons a t ih =>
    obtain ⟨b, hb, hR⟩ := h a (List.mem_cons_self a t)
    obtain ⟨bs, hbs, hRs⟩ := ih (fun c hc => h c (List.mem_cons_of_mem a hc))
    refine ⟨b :: bs, ?_, List.Forall₂.cons hR hRs⟩
    rw [List.mapM_cons, hb, hbs]
    rfl

/-! ### L2L -/

theorem L2L_child_spec (G : Globals K) (Cj Ci : Cell K)
    (hL : Ci.L.length = G.P) (hLj : Cj.L.length = G.P) :
    L2L_child G Cj Ci = some { Ci with L := ((List.range G.P).map fun l =>
      Ci.L.getD l 0 + ∑ k in Finset.range (G.P - l), Cj.L.getD (l + k) 0
        * (⟨Ci.X.1 - Cj.X.1, Ci.X.2 - Cj.X.2⟩ : complex_t K) ^ k / (k.factorial : complex_t K)) } := by
  set Z : complex_t K := ⟨Ci.X.1 - Cj.X.1, Ci.X.2 - Cj.X.2⟩ with hZ
  obtain ⟨L1, hL1, hU⟩ := forLoop_inv
    (fun l (L1 : List (complex_t K)) => Upd Ci.L L1 (fun j => if j < l then
      ∑ k in Finset.range (G.P - j), Cj.L.getD (j + k) 0 * Z ^ k / (k.factorial : complex_t K)
      else 0)) 0 G.P
    (fun l (L : List (complex_t K)) =>
      (vget Cj.L l).bind fun a => (vadd L l a).bind fun L =>
        (forLoop 1 (G.P - l) (fun k (s : complex_t K × List (complex_t K)) =>
          (vget Cj.L (l + k)).bind fun a => (vadd s.2 l (a * (s.1 * divR Z (k : K)))).bind
            fun L => some (s.1 * divR Z (k : K), L)) ((⟨1, 0⟩ : complex_t K), L)).bind
          fun s => some s.2)
    Ci.L (Nat.zero_le G.P)
    ((Upd.rfl_zero Ci.L).congr (fun j _ => by simp))
    (by
      intro l L _ hl hUL
      obtain ⟨La, hLa, hUa⟩ := vadd_of_lt (v := L) (i := l) (Cj.L.getD l 0)
        (by rw [hUL.1, hL]; exact hl)
      obtain ⟨Lb, hLb, hUb⟩ := accLoop_spec Cj.L (fun k => l + k) (fun a => a)
        (fun k => divR Z (k : K)) (fun k => Z ^ (k - 1) / ((k - 1).factorial : complex_t K))
        l 1 (G.P - l) ⟨1, 0⟩ La (by omega) (by simp [mk_one_zero])
        (by rw [hUa.1, hUL.1, hL]; exact hl)
        (fun k _ _ => by show l + k < Cj.L.length; rw [hLj]; omega)
        (fun k h1 _ => by
          obtain ⟨m, rfl⟩ : ∃ m, k = m + 1 := ⟨k - 1, by omega⟩
          simp only [Nat.add_sub_cancel]
          rw [pow_div_factorial_succ])
      refine ⟨Lb, ?_, ?_⟩
      · beta_reduce
        rw [vget_of_lt (by rw [hLj]; exact hl), Option.some_bind, hLa, Option.some_bind]
        rw [hLb]
        rfl
      · refine (hUL.trans (hUa.trans hUb)).congr (fun j _ => ?_)
        by_cases hj : j = l
        · subst hj
          rw [if_neg (lt_irrefl j), if_pos rfl, if_pos rfl, if_pos (Nat.lt_succ_self j), zero_add,
            Finset.range_eq_Ico, Finset.sum_eq_sum_Ico_succ_bot (show 0 < G.P - j by omega)]
          simp only [Nat.add_zero, pow_zero, Nat.factorial_zero, Nat.cast_one, div_one, mul_one,
            zero_add, Nat.add_sub_cancel]
          congr 1
          refine Finset.sum_congr rfl (fun n _ => ?_)
          rw [mul_div_assoc]
        · rw [if_neg hj, if_neg hj, add_zero, add_zero]
          by_cases hjk : j < l
          · rw [if_pos hjk, if_pos (by omega)]
          · rw [if_neg hjk, if_neg (by omega)])
  have hU1 := (hU.congr (e := fun j => ∑ k in Finset.range (G.P - j), Cj.L.getD (j + k) 0
      * Z ^ k / (k.factorial : complex_t K)) (fun j hj => by rw [if_pos (hL ▸ hj)])).eq_map_range
  rw [hL] at hU1
  simp only [L2L_child, Option.bind_eq_bind, Option.pure_def]
  rw [← hZ, hL1, Option.some_bind, hU1]

theorem L2L_spec (G : Globals K) (Cj : Cell K)
    (hL : Cj.L.length = G.P) (hc : ∀ Ci ∈ Cj.CHILD, Ci.L.length = G.P) :
    L2L G Cj = some { Cj with CHILD := Cj.CHILD.map fun Ci =>
      { Ci with L := ((List.range G.P).map fun l =>
        Ci.L.getD l 0 + ∑ k in Finset.range (G.P - l), Cj.L.getD (l + k) 0
          * (⟨Ci.X.1 - Cj.X.1, Ci.X.2 - Cj.X.2⟩ : complex_t K) ^ k
          / (k.factorial : complex_t K)) } } := by
  simp only [L2L, Option.bind_eq_bind, Option.pure_def]
  rw [mapM_of_forall (L2L_child G Cj) _ Cj.CHILD
    (fun Ci hCi => L2L_child_spec G Cj Ci (hc Ci hCi) hL), Option.some_bind]

/-! ### L2P -/

theorem re_sum_range (f : ℕ → complex_t K) (n : ℕ) :
    (∑ i in Finset.range n, f i).re = ∑ i in Finset.range n, (f i).re := by
  induction n with
  | zero => simp
  | succ n ih => rw [Finset.sum_range_succ, Finset.sum_range_succ, add_re, ih]

theorem im_sum_range (f : ℕ → complex_t K) (n : ℕ) :
    (∑ i in Finset.range n, f i).im = ∑ i in Finset.range n, (f i).im := by
  induction n with
  | zero => simp
  | succ n ih => rw [Finset.sum_range_succ, Finset.sum_range_succ, add_im, ih]

theorem L2P_body_spec (G : Globals K) (C : Cell K) (B : Body K) (w : K)
    (hP : 2 ≤ G.P) (hL : C.L.length = G.P) (hw : weight G B C = some w) :
    L2P_body G C B = some { B with
      p := B.p + w * (∑ n in Finset.range G.P, C.L.getD n 0
        * (⟨B.X.1 - C.X.1, B.X.2 - C.X.2⟩ : complex_t K) ^ n / (n.factorial : complex_t K)).re
      F := (B.F.1 + w * (∑ m in Finset.range (G.P - 1), C.L.getD (m + 1) 0
          * (⟨B.X.1 - C.X.1, B.X.2 - C.X.2⟩ : complex_t K) ^ m / (m.factorial : complex_t K)).re,
        B.F.2 - w * (∑ m in Finset.range (G.P - 1), C.L.getD (m + 1) 0
          * (⟨B.X.1 - C.X.1, B.X.2 - C.X.2⟩ : complex_t K) ^ m / (m.factorial : complex_t K)).im) } := by
  set Z : complex_t K := ⟨B.X.1 - C.X.1, B.X.2 - C.X.2⟩ with hZ
  obtain ⟨s, hs, hpw, hp, hF1, hF2⟩ := forLoop_inv
    (fun n (s : L2P_state K) =>
      s.powZ = Z ^ (n - 1) / ((n - 1).factorial : complex_t K) ∧
      s.p = B.p + ∑ m in Finset.range n,
        (C.L.getD m 0 * (Z ^ m / (m.factorial : complex_t K))).re * w ∧
      s.F.1 = B.F.1 + ∑ m in Finset.range (min n (G.P - 1)),
        (C.L.getD (m + 1) 0 * (Z ^ m / (m.factorial : complex_t K))).re * w ∧
      s.F.2 = B.F.2 - ∑ m in Finset.range (min n (G.P - 1)),
        (C.L.getD (m + 1) 0 * (Z ^ m / (m.factorial : complex_t K))).im * w) 1 G.P
    (fun n (s : L2P_state K) =>
      (vget C.L n).bind fun a =>
        if n < G.P - 1 then
          (vget C.L (n + 1)).bind fun b => (vget C.L (n + 1)).bind fun c =>
            some ⟨s.powZ * divR Z (n : K), s.p + (a * (s.powZ * divR Z (n : K))).re * w,
              (s.F.1 + (b * (s.powZ * divR Z (n : K))).re * w,
               s.F.2 - (c * (s.powZ * divR Z (n : K))).im * w)⟩
        else some ⟨s.powZ * divR Z (n : K), s.p + (a * (s.powZ * divR Z (n : K))).re * w, s.F⟩)
    ⟨(⟨1, 0⟩ : complex_t K), B.p + (C.L.getD 0 0).re * w,
      (B.F.1 + (C.L.getD 1 0).re * w, B.F.2 - (C.L.getD 1 0).im * w)⟩ (by omega)
    ⟨by simp [mk_one_zero], by simp, by
        have : min 1 (G.P - 1) = 1 := by omega
        simp [this], by
        have : min 1 (G.P - 1) = 1 := by omega
        simp [this]⟩
    (by
      rintro i ⟨pw, p, F⟩ h1 h2 ⟨hpw, hp, hF1, hF2⟩
      obtain ⟨m, rfl⟩ : ∃ m, i = m + 1 := ⟨i - 1, by omega⟩
      simp only [Nat.add_sub_cancel] at hpw
      simp only at hpw hp hF1 hF2 ⊢
      rw [vget_of_lt (by rw [hL]; exact h2), Option.some_bind, hpw, pow_div_factorial_succ]
      by_cases h3 : m + 1 < G.P - 1
      · rw [if_pos h3, vget_of_lt (by rw [hL]; omega), Option.some_bind, Option.some_bind]
        refine ⟨_, rfl, ?_, ?_, ?_, ?_⟩
        · simp only [Nat.add_sub_cancel]
        · simp only
          rw [hp, Finset.sum_range_succ (n := m + 1), add_assoc]
        · simp only
          have e1 : min (m + 1 + 1) (G.P - 1) = (m + 1) + 1 := by omega
          have e2 : min (m + 1) (G.P - 1) = m + 1 := by omega
          rw [e2] at hF1
          rw [hF1, e1, Finset.sum_range_succ (n := m + 1), add_assoc]
        · simp only
          have e1 : min (m + 1 + 1) (G.P - 1) = (m + 1) + 1 := by omega
          have e2 : min (m + 1) (G.P - 1) = m + 1 := by omega
          rw [e2] at hF2
          rw [hF2, e1, Finset.sum_range_succ (n := m + 1), sub_sub]
      · rw [if_neg h3]
        refine ⟨_, rfl, ?_, ?_, ?_, ?_⟩
        · simp only [Nat.add_sub_cancel]
        · simp only
          rw [hp, Finset.sum_range_succ (n := m + 1), add_assoc]
        · simp only
          have e1 : min (m + 1 + 1) (G.P - 1) = min (m + 1) (G.P - 1) := by omega
          rw [hF1, e1]
        · simp only
          have e1 : min (m + 1 + 1) (G.P - 1) = min (m + 1) (G.P - 1) := by omega
          rw [hF2, e1])
  have e3 : min G.P (G.P - 1) = G.P - 1 := by omega
  rw [e3] at hF1 hF2
  simp only [L2P_body, hw, Option.bind_eq_bind, Option.some_bind, Option.pure_def,
    vget_of_lt (show 0 < C.L.length by omega), vget_of_lt (show 1 < C.L.length by omega)]
  have hp1 : s.p = B.p + w * (∑ n in Finset.range G.P, C.L.getD n 0 * Z ^ n
      / (n.factorial : complex_t K)).re := by
    rw [hp, re_sum_range, Finset.mul_sum]
    congr 1
    refine Finset.sum_congr rfl (fun m _ => ?_)
    rw [mul_div_assoc, mul_comm]
  have hF : s.F = (B.F.1 + w * (∑ m in Finset.range (G.P - 1), C.L.getD (m + 1) 0 * Z ^ m
      / (m.factorial : complex_t K)).re, B.F.2 - w * (∑ m in Finset.range (G.P - 1),
        C.L.getD (m + 1) 0 * Z ^ m / (m.factorial : complex_t K)).im) := by
    refine Prod.ext ?_ ?_
    · rw [hF1, re_sum_range, Finset.mul_sum]
      congr 1
      refine Finset.sum_congr rfl (fun m _ => ?_)
      rw [mul_div_assoc, mul_comm]
    · rw [hF2, im_sum_range, Finset.mul_sum]
      congr 1
      refine Finset.sum_congr rfl (fun m _ => ?_)
      rw [mul_div_assoc, mul_comm]
  rw [← hZ, hs, Option.some_bind, hp1, hF]

theorem L2P_spec (G : Globals K) (C : Cell K) (w : Body K → K)
    (hP : 2 ≤ G.P) (hL : C.L.length = G.P) (hw : ∀ B ∈ C.BODY, weight G B C = some (w B)) :
    L2P G C = some { C with BODY := C.BODY.map fun B => { B with
      p := B.p + w B * (∑ n in Finset.range G.P, C.L.getD n 0
        * (⟨B.X.1 - C.X.1, B.X.2 - C.X.2⟩ : complex_t K) ^ n / (n.factorial : complex_t K)).re
      F := (B.F.1 + w B * (∑ m in Finset.range (G.P - 1), C.L.getD (m + 1) 0
          * (⟨B.X.1 - C.X.1, B.X.2 - C.X.2⟩ : complex_t K) ^ m / (m.factorial : complex_t K)).re,
        B.F.2 - w B * (∑ m in Finset.range (G.P - 1), C.L.getD (m + 1) 0
          * (⟨B.X.1 - C.X.1, B.X.2 - C.X.2⟩ : complex_t K) ^ m
          / (m.factorial : complex_t K)).im) } } := by
  simp only [L2P, Option.bind_eq_bind, Option.pure_def]
  rw [mapM_of_forall (L2P_body G C) _ C.BODY
    (fun B hB => L2P_body_spec G C B (w B) hP hL (hw B hB)), Option.some_bind]

theorem ofReal_pow_neg_one (n : ℕ) : ofReal ((-1 : K) ^ n) = (-1 : complex_t K) ^ n := by
  induction n with
  | zero => simp [ofReal_one]
  | succ n ih => rw [pow_succ, pow_succ, ofReal_mul, ih, ofReal_neg, ofReal_one]

/-- The increments `M2L` makes to the local coefficients, written with `W = 1/Z`. -/
theorem M2L_spec (clog : complex_t K → complex_t K) (G : Globals K) (Ci Cj : Cell K)
    (hP : 2 ≤ G.P) (hL : Ci.L.length = G.P) (hM : Cj.M.length = G.P) :
    ∃ L1, M2L clog G Ci Cj = some { Ci with L := L1 } ∧
      Upd Ci.L L1 (fun j =>
        (if j = 0 then
          -Cj.M.getD 0 0 * clog ⟨Ci.X.1 - Cj.X.1, Ci.X.2 - Cj.X.2⟩
            + Cj.M.getD 1 0 * (⟨Ci.X.1 - Cj.X.1, Ci.X.2 - Cj.X.2⟩ : complex_t K)⁻¹
            + ∑ k in Finset.Ico 2 G.P, Cj.M.getD k 0 * (((k - 1).factorial : complex_t K)
                * (⟨Ci.X.1 - Cj.X.1, Ci.X.2 - Cj.X.2⟩ : complex_t K)⁻¹ ^ k)
        else 0)
        + (if j = 1 then
          -Cj.M.getD 0 0 * (⟨Ci.X.1 - Cj.X.1, Ci.X.2 - Cj.X.2⟩ : complex_t K)⁻¹
            + ∑ k in Finset.Ico 1 G.P, -Cj.M.getD k 0 * ((k.factorial : complex_t K)
                * (⟨Ci.X.1 - Cj.X.1, Ci.X.2 - Cj.X.2⟩ : complex_t K)⁻¹ ^ (k + 1))
        else 0)
        + (if 2 ≤ j then
          ∑ k in Finset.Ico 0 G.P, Cj.M.getD k 0 * ((-1) ^ j * (((j + k - 1).factorial : complex_t K)
                * (⟨Ci.X.1 - Cj.X.1, Ci.X.2 - Cj.X.2⟩ : complex_t K)⁻¹ ^ (j + k)))
        else 0)) := by
  set Z : complex_t K := ⟨Ci.X.1 - Cj.X.1, Ci.X.2 - Cj.X.2⟩ with hZ
  have hW : (⟨1, 0⟩ : complex_t K) / Z = Z⁻¹ := by rw [mk_one_zero, one_div]
  obtain ⟨La, hLa, hUa⟩ := vadd_of_lt (v := Ci.L) (i := 0) (-Cj.M.getD 0 0 * clog Z) (by omega)
  obtain ⟨Lb, hLb, hUb⟩ := vadd_of_lt (v := La) (i := 0) (Cj.M.getD 1 0 * Z⁻¹)
    (by rw [hUa.1]; omega)
  obtain ⟨Lc, hLc, hUc⟩ := accLoop_spec Cj.M (fun k => k) (fun a => a)
    (fun k => rmul ((k - 1 : ℕ) : K) Z⁻¹)
    (fun k => ((k - 2).factorial : complex_t K) * Z⁻¹ ^ (k - 1)) 0 2 G.P Z⁻¹ Lb hP (by simp)
    (by rw [hUb.1, hUa.1]; omega) (fun k _ hk => by rw [hM]; exact hk)
    (fun k h1 _ => by
      obtain ⟨m, rfl⟩ : ∃ m, k = m + 2 := ⟨k - 2, by omega⟩
      have e1 : m + 2 + 1 - 2 = m + 1 := by omega
      have e2 : m + 2 + 1 - 1 = m + 2 := by omega
      have e3 : m + 2 - 2 = m := by omega
      have e4 : m + 2 - 1 = m + 1 := by omega
      simp only [e1, e2, e3, e4]
      rw [rmul_eq, ofReal_natCast, Nat.factorial_succ]
      push_cast
      ring)
  obtain ⟨Ld, hLd, hUd⟩ := vadd_of_lt (v := Lc) (i := 1) (-Cj.M.getD 0 0 * Z⁻¹)
    (by rw [hUc.1, hUb.1, hUa.1]; omega)
  obtain ⟨Le, hLe, hUe⟩ := accLoop_spec Cj.M (fun k => k) (fun a => -a)
    (fun k => rmul ((k : ℕ) : K) Z⁻¹)
    (fun k => ((k - 1).factorial : complex_t K) * Z⁻¹ ^ k) 1 1 G.P Z⁻¹ Ld (by omega) (by simp)
    (by rw [hUd.1, hUc.1, hUb.1, hUa.1]; omega) (fun k _ hk => by rw [hM]; exact hk)
    (fun k h1 _ => by
      obtain ⟨m, rfl⟩ : ∃ m, k = m + 1 := ⟨k - 1, by omega⟩
      simp only [Nat.add_sub_cancel]
      rw [rmul_eq, ofReal_natCast, Nat.factorial_succ]
      push_cast
      ring)
  have hLe_len : Le.length = G.P := by rw [hUe.1, hUd.1, hUc.1, hUb.1, hUa.1, hL]
  obtain ⟨s, hs, -, -, hUs⟩ := forLoop_inv
    (fun n (s : M2L_state K) =>
      s.Cnk = (-1) ^ (n - 1) ∧
      s.powZnk = ((n - 2).factorial : complex_t K) * Z⁻¹ ^ (n - 2) ∧
      Upd Le s.L (fun j => if 2 ≤ j ∧ j < n then
        ∑ k in Finset.Ico 0 G.P, Cj.M.getD k 0 * ((-1) ^ j
          * (((j + k - 1).factorial : complex_t K) * Z⁻¹ ^ (j + k))) else 0)) 2 G.P
    (fun n (s : M2L_state K) =>
      (forLoop 0 G.P (fun k (t : complex_t K × List (complex_t K)) =>
          (vget Cj.M k).bind fun a =>
            (vadd t.2 n (a * (t.1 * rmul ((n + k - 1 : ℕ) : K) Z⁻¹))).bind
              fun L => some (t.1 * rmul ((n + k - 1 : ℕ) : K) Z⁻¹, L))
        (rmul (s.Cnk * -1) (s.powZnk * Z⁻¹), s.L)).bind
      fun t => some ⟨s.Cnk * -1, t.1, mulR (s.powZnk * Z⁻¹) ((n - 1 : ℕ) : K), t.2⟩)
    ⟨-1, ((Le.length - 1).factorial : complex_t K) * Z⁻¹ ^ Le.length, ⟨1, 0⟩, Le⟩ hP
    ⟨by simp, by simp [mk_one_zero], (Upd.rfl_zero Le).congr (fun j _ => by
      have : ¬ (2 ≤ j ∧ j < 2) := by omega
      rw [if_neg this])⟩
    (by
      rintro n ⟨c, p, q, L⟩ h1 h2 ⟨hc, hq, hUL⟩
      obtain ⟨m, rfl⟩ : ∃ m, n = m + 2 := ⟨n - 2, by omega⟩
      have e3 : m + 2 - 2 = m := by omega
      have e4 : m + 2 - 1 = m + 1 := by omega
      simp only [e3, e4] at hc hq hUL ⊢
      subst hc hq
      obtain ⟨L1, hL1, hUL1⟩ := accLoop_spec Cj.M (fun k => k) (fun a => a)
        (fun k => rmul ((m + 2 + k - 1 : ℕ) : K) Z⁻¹)
        (fun k => (-1) ^ (m + 2) * (((m + k).factorial : complex_t K) * Z⁻¹ ^ (m + k + 1)))
        (m + 2) 0 G.P (rmul ((-1) ^ (m + 1) * -1) ((m.factorial : complex_t K) * Z⁻¹ ^ m * Z⁻¹)) L
        (Nat.zero_le _)
        (by
          rw [rmul_eq, ofReal_mul, ofReal_pow_neg_one, ofReal_neg, ofReal_one]
          simp only [Nat.add_zero]
          ring)
        (by rw [hUL.1, hLe_len]; exact h2) (fun k _ hk => by rw [hM]; exact hk)
        (fun k _ _ => by
          have e5 : m + 2 + k - 1 = m + k + 1 := by omega
          have e6 : m + (k + 1) = m + k + 1 := by omega
          simp only [e5, e6]
          rw [rmul_eq, ofReal_natCast, Nat.factorial_succ]
          push_cast
          ring)
      refine ⟨_, by rw [hL1]; rfl, ?_, ?_, ?_⟩
      · simp only
        have e7 : m + 2 + 1 - 1 = m + 1 + 1 := by omega
        rw [e7]
        ring
      · simp only
        have e7 : m + 2 + 1 - 2 = m + 1 := by omega
        rw [e7, mulR_eq, ofReal_natCast, Nat.factorial_succ]
        push_cast
        ring
      · refine (hUL.trans hUL1).congr (fun j _ => ?_)
        by_cases hj : j = m + 2
        · subst hj
          have h3 : ¬ (2 ≤ m + 2 ∧ m + 2 < m + 2) := by omega
          have h4 : (2 ≤ m + 2 ∧ m + 2 < m + 2 + 1) := by omega
          rw [if_neg h3, if_pos h4, if_pos rfl, zero_add]
          refine Finset.sum_congr rfl (fun k _ => ?_)
          have e5 : m + 2 + k - 1 = m + (k + 1) := by omega
          have e8 : m + 2 + k = m + (k + 1) + 1 := by omega
          rw [e5, e8]
        · by_cases hj1 : 2 ≤ j ∧ j < m + 2
          · have h3 : 2 ≤ j ∧ j < m + 2 + 1 := by omega
            rw [if_pos hj1, if_pos h3, if_neg hj, add_zero]
          · have h3 : ¬ (2 ≤ j ∧ j < m + 2 + 1) := by omega
            rw [if_neg hj1, if_neg h3, if_neg hj, add_zero])
  refine ⟨s.L, ?_, ?_⟩
  · simp only [M2L, Option.bind_eq_bind, Option.pure_def,
      vget_of_lt (show 0 < Cj.M.length by omega), vget_of_lt (show 1 < Cj.M.length by omega),
      Option.some_bind]
    rw [← hZ, hW, hLa, Option.some_bind, hLb, Option.some_bind, hLc, Option.some_bind, hLd,
      Option.some_bind, hLe, Option.some_bind]
    simp only
    rw [hLe_len] at hs
    rw [hs, Option.some_bind]
  · refine (hUa.trans (hUb.trans (hUc.trans (hUd.trans (hUe.trans hUs))))).congr (fun j hj => ?_)
    rw [hL] at hj
    by_cases h0 : j = 0
    · subst h0
      have h1 : ¬ (0 = 1) := by omega
      have h2 : ¬ (2 ≤ 0) := by omega
      have h3 : ¬ (2 ≤ 0 ∧ 0 < G.P) := by omega
      simp only [if_pos, if_neg h1, if_neg h2, if_neg h3, add_zero, Nat.add_sub_cancel]
      have e1 : ∀ n, n + 1 - 2 = n - 1 := fun n => by omega
      simp only [e1]
      ring
    · by_cases h1 : j = 1
      · subst h1
        have h2 : ¬ (2 ≤ 1) := by omega
        have h3 : ¬ (2 ≤ 1 ∧ 1 < G.P) := by omega
        simp only [if_pos, if_neg h0, if_neg h2, if_neg h3, add_zero, zero_add,
          Nat.add_sub_cancel]
      · have h2 : 2 ≤ j := by omega
        have h3 : 2 ≤ j ∧ j < G.P := ⟨h2, hj⟩
        simp only [if_neg h0, if_neg h1, if_pos h3, if_pos h2, add_zero, zero_add]

/-! ### P2PX and P2P -/

theorem norm_eq_zero_iff (X : K × K) : norm X = 0 ↔ X = 0 := by
  constructor
  · intro h
    have h1 := (add_eq_zero_iff_of_nonneg (mul_self_nonneg X.1) (mul_self_nonneg X.2)).1 h
    exact Prod.ext (mul_self_eq_zero.1 h1.1) (mul_self_eq_zero.1 h1.2)
  · rintro rfl
    simp [norm]

theorem norm_sub_ne_zero_iff (X Y : K × K) : norm (X.1 - Y.1, X.2 - Y.2) ≠ 0 ↔ X ≠ Y := by
  rw [Ne, norm_eq_zero_iff, Prod.ext_iff]
  simp only [Prod.fst_zero, Prod.snd_zero, sub_eq_zero, ne_eq, Prod.ext_iff]

theorem P2PX_fold (sqrt log : K → K) (Bi : Body K) (l : List (Body K)) (acc : K × K × K) :
    l.foldl (P2PX_source sqrt log Bi) acc =
      (acc.1 + ((l.filter fun Bj => decide (Bi.X ≠ Bj.X)).map fun Bj =>
          Bj.q * log (1 / sqrt (norm (Bi.X.1 - Bj.X.1, Bi.X.2 - Bj.X.2)))).sum,
       acc.2.1 + ((l.filter fun Bj => decide (Bi.X ≠ Bj.X)).map fun Bj =>
          (Bi.X.1 - Bj.X.1) * Bj.q / norm (Bi.X.1 - Bj.X.1, Bi.X.2 - Bj.X.2)).sum,
       acc.2.2 + ((l.filter fun Bj => decide (Bi.X ≠ Bj.X)).map fun Bj =>
          (Bi.X.2 - Bj.X.2) * Bj.q / norm (Bi.X.1 - Bj.X.1, Bi.X.2 - Bj.X.2)).sum) := by
  induction l generalizing acc with
  | nil => simp
  | cons B t ih =>
    rw [List.foldl_cons, ih]
    by_cases h : Bi.X ≠ B.X
    · have h1 := (norm_sub_ne_zero_iff Bi.X B.X).2 h
      simp only [P2PX_source, if_pos h1, List.filter_cons, decide_eq_true h, if_true,
        List.map_cons, List.sum_cons, add_assoc]
    · have h1 : ¬ norm (Bi.X.1 - B.X.1, Bi.X.2 - B.X.2) ≠ 0 :=
        fun h2 => h ((norm_sub_ne_zero_iff Bi.X B.X).1 h2)
      simp only [P2PX_source, if_neg h1, List.filter_cons, decide_eq_false h]
      simp

theorem P2P_fold (sqrt log : K → K) (G : Globals K) (Cj : Cell K) (wj : Body K → K)
    (Bi : Body K) (l : List (Body K)) (hw : ∀ B ∈ l, weight G B Cj = some (wj B))
    (acc : K × K × K) :
    l.foldlM (P2P_source sqrt log G Cj Bi) acc = some
      (acc.1 + ((l.filter fun Bj => decide (Bi.X ≠ Bj.X)).map fun Bj =>
          Bj.q * log (1 / sqrt (norm (Bi.X.1 - Bj.X.1, Bi.X.2 - Bj.X.2))) * wj Bj).sum,
       acc.2.1 + ((l.filter fun Bj => decide (Bi.X ≠ Bj.X)).map fun Bj =>
          (Bi.X.1 - Bj.X.1) * Bj.q / norm (Bi.X.1 - Bj.X.1, Bi.X.2 - Bj.X.2) * wj Bj).sum,
       acc.2.2 + ((l.filter fun Bj => decide (Bi.X ≠ Bj.X)).map fun Bj =>
          (Bi.X.2 - Bj.X.2) * Bj.q / norm (Bi.X.1 - Bj.X.1, Bi.X.2 - Bj.X.2) * wj Bj).sum) := by
  induction l generalizing acc with
  | nil => simp
  | cons B t ih =>
    have hB := hw B (List.mem_cons_self B t)
    have ht := ih (fun C hC => hw C (List.mem_cons_of_mem B hC))
    rw [List.foldlM_cons]
    by_cases h : Bi.X ≠ B.X
    · have h1 := (norm_sub_ne_zero_iff Bi.X B.X).2 h
      simp only [P2P_source, hB, Option.bind_eq_bind, Option.some_bind, if_pos h1,
        Option.pure_def, ht, List.filter_cons, decide_eq_true h, if_true,
        List.map_cons, List.sum_cons, add_assoc]
    · have h1 : ¬ norm (Bi.X.1 - B.X.1, Bi.X.2 - B.X.2) ≠ 0 :=
        fun h2 => h ((norm_sub_ne_zero_iff Bi.X B.X).1 h2)
      simp only [P2P_source, hB, Option.bind_eq_bind, Option.some_bind, if_neg h1,
        Option.pure_def, ht, List.filter_cons, decide_eq_false h]
      simp

theorem P2P_spec (sqrt log : K → K) (G : Globals K) (Ci Cj : Cell K) (wi wj : Body K → K)
    (hwi : ∀ B ∈ Ci.BODY, weight G B Ci = some (wi B))
    (hwj : ∀ B ∈ Cj.BODY, weight G B Cj = some (wj B)) :
    P2P sqrt log G Ci Cj = some { Ci with BODY := Ci.BODY.map fun Bi => { Bi with
      p := Bi.p + ((Cj.BODY.filter fun Bj => decide (Bi.X ≠ Bj.X)).map fun Bj =>
          Bj.q * log (1 / sqrt (norm (Bi.X.1 - Bj.X.1, Bi.X.2 - Bj.X.2))) * wj Bj).sum * wi Bi
      F := (Bi.F.1 - ((Cj.BODY.filter fun Bj => decide (Bi.X ≠ Bj.X)).map fun Bj =>
          (Bi.X.1 - Bj.X.1) * Bj.q / norm (Bi.X.1 - Bj.X.1, Bi.X.2 - Bj.X.2) * wj Bj).sum * wi Bi,
        Bi.F.2 - ((Cj.BODY.filter fun Bj => decide (Bi.X ≠ Bj.X)).map fun Bj =>
          (Bi.X.2 - Bj.X.2) * Bj.q / norm (Bi.X.1 - Bj.X.1, Bi.X.2 - Bj.X.2) * wj Bj).sum
            * wi Bi) } } := by
  simp only [P2P, Option.bind_eq_bind, Option.pure_def]
  rw [mapM_of_forall _ _ Ci.BODY (fun Bi hBi => by
    rw [hwi Bi hBi, Option.some_bind, P2P_fold sqrt log G Cj wj Bi Cj.BODY hwj,
      Option.some_bind]), Option.some_bind]
  simp only [zero_add]

theorem mk_sub_add (a b c : K × K) : (⟨a.1 - c.1, a.2 - c.2⟩ : complex_t K)
    = ⟨a.1 - b.1, a.2 - b.2⟩ + ⟨b.1 - c.1, b.2 - c.2⟩ := by
  ext <;> simp

/-- The binomial theorem in the form used by the multipole shift. -/
theorem add_pow_div_factorial (x y : complex_t K) (k : ℕ) :
    ∑ n in Finset.range (k + 1),
        x ^ (k - n) / ((k - n).factorial : complex_t K) * (y ^ n / (n.factorial : complex_t K))
      = (x + y) ^ k / (k.factorial : complex_t K) := by
  rw [add_comm x y, add_pow, Finset.sum_div]
  refine Finset.sum_congr rfl (fun n hn => ?_)
  have hnk : n ≤ k := Nat.lt_succ_iff.1 (Finset.mem_range.1 hn)
  have h1 : ((n.factorial : ℕ) : complex_t K) ≠ 0 := Nat.cast_ne_zero.2 (Nat.factorial_ne_zero n)
  have h2 : (((k - n).factorial : ℕ) : complex_t K) ≠ 0 :=
    Nat.cast_ne_zero.2 (Nat.factorial_ne_zero _)
  have h3 : ((k.factorial : ℕ) : complex_t K) ≠ 0 := Nat.cast_ne_zero.2 (Nat.factorial_ne_zero k)
  have h4 : ((k.choose n : ℕ) : complex_t K) * (n.factorial : complex_t K)
      * ((k - n).factorial : complex_t K) = (k.factorial : complex_t K) := by
    exact_mod_cast Nat.choose_mul_factorial_mul_factorial hnk
  rw [div_mul_div_comm, div_eq_div_iff (mul_ne_zero h2 h1) h3, ← h4]
  ring

theorem getD_map_range (f : ℕ → complex_t K) (n k : ℕ) (h : k < n) :
    ((List.range n).map f).getD k 0 = f k := by
  rw [List.getD_eq_getElem _ _ (by simpa using h)]
  simp

theorem getD_replicate_zero (n k : ℕ) : (List.replicate n (0 : complex_t K)).getD k 0 = 0 := by
  rw [List.getD_eq_getElem?_getD, List.getElem?_replicate]
  split <;> rfl

/-- `P2M` in closed form: the increments of `P2M_spec` written out as the new array. -/
theorem P2M_eq (G : Globals K) (C : Cell K) (w : Body K → K)
    (hP : 1 ≤ G.P) (hM : C.M.length = G.P)
    (hw : ∀ B ∈ C.BODY, weight G B C = some (w B)) :
    P2M G C = some { C with M := ((List.range G.P).map fun n =>
      C.M.getD n 0 + (C.BODY.map fun B => ofReal (B.q * w B)
        * (⟨B.X.1 - C.X.1, B.X.2 - C.X.2⟩ : complex_t K) ^ n
        / (n.factorial : complex_t K)).sum) } := by
  obtain ⟨M1, h1, hU⟩ := P2M_spec G C w hP hM hw
  rw [h1, hU.eq_map_range, hM]

/-- `M2M` in closed form: the increments of `M2M_spec` written out as the new array. -/
theorem M2M_eq (G : Globals K) (Ci : Cell K)
    (hM : Ci.M.length = G.P) (hc : ∀ Cj ∈ Ci.CHILD, Cj.M.length = G.P) :
    M2M G Ci = some { Ci with M := ((List.range G.P).map fun k =>
      Ci.M.getD k 0 + (Ci.CHILD.map fun Cj =>
        ∑ n in Finset.range (k + 1), Cj.M.getD (k - n) 0
          * (⟨Cj.X.1 - Ci.X.1, Cj.X.2 - Ci.X.2⟩ : complex_t K) ^ n
          / (n.factorial : complex_t K)).sum) } := by
  obtain ⟨M1, h1, hU⟩ := M2M_spec G Ci hM hc
  rw [h1, hU.eq_map_range, hM]

/-! ### Smoothing weight -/

/-- The value `weight` returns, in terms of the two clipped distances. -/
theorem weight_eq (G : Globals K) (B : Body K) (C : Cell K) (x y : K)
    (hx : x = if G.R0 - |B.X.1 - G.X0.1| < G.D then G.D else min (C.R - |B.X.1 - C.X.1|) G.D)
    (hy : y = if G.R0 - |B.X.2 - G.X0.2| < G.D then G.D else min (C.R - |B.X.2 - C.X.2|) G.D) :
    weight G B C =
      if -G.D ≤ x ∧ -G.D ≤ y then
        some ((2 + 3 * (x / G.D) - x / G.D * (x / G.D) * (x / G.D)) / 4
          * ((2 + 3 * (y / G.D) - y / G.D * (y / G.D) * (y / G.D)) / 4))
      else none := by
  unfold weight
  simp only [ge_iff_le, ← hx, ← hy]
  by_cases h1 : -G.D ≤ x
  · by_cases h2 : -G.D ≤ y
    · rw [if_neg (not_not.2 h1), if_neg (not_not.2 h2), if_pos (And.intro h1 h2)]
    · rw [if_neg (not_not.2 h1), if_pos h2, if_neg (fun h => h2 h.2)]
  · rw [if_pos h1, if_neg (fun h => h1 h.1)]

/-- The cubic blend `(2 + 3t - t^3)/4` lies in `[0,1]` for `t` in `[-1,1]`. -/
theorem blend_mem (t : K) (h1 : -1 ≤ t) (h2 : t ≤ 1) :
    0 ≤ (2 + 3 * t - t * t * t) / 4 ∧ (2 + 3 * t - t * t * t) / 4 ≤ 1 := by
  have e1 : 2 + 3 * t - t * t * t = (t + 1) ^ 2 * (2 - t) := by ring
  have e2 : 4 - (2 + 3 * t - t * t * t) = (t - 1) ^ 2 * (t + 2) := by ring
  have p1 : 0 ≤ (t + 1) ^ 2 * (2 - t) := mul_nonneg (sq_nonneg _) (by linarith)
  have p2 : 0 ≤ (t - 1) ^ 2 * (t + 2) := mul_nonneg (sq_nonneg _) (by linarith)
  constructor
  · rw [e1]
    exact div_nonneg p1 (by norm_num)
  · rw [div_le_one (by norm_num)]
    linarith [e2 ▸ p2]

/-- The cubic blend satisfies `b(t) + b(-t) = 1`. -/
theorem blend_add_neg (t : K) :
    (2 + 3 * (-t) - -t * -t * -t) / 4 * 1 + (2 + 3 * t - t * t * t) / 4 * 1 = 1 := by
  ring

/-- A body at least `D` inside every edge of the cell has weight 1. -/
theorem weight_interior (G : Globals K) (B : Body K) (C : Cell K) (hD : 0 < G.D)
    (h1 : G.D ≤ C.R - |B.X.1 - C.X.1|) (h2 : G.D ≤ C.R - |B.X.2 - C.X.2|) :
    weight G B C = some 1 := by
  have hD0 : G.D ≠ 0 := ne_of_gt hD
  have hn : -G.D ≤ G.D := by linarith
  rw [weight_eq G B C G.D G.D (by rw [min_eq_right h1, ite_self])
    (by rw [min_eq_right h2, ite_self]), if_pos (And.intro hn hn), div_self hD0]
  norm_num

/-! ### Direct kernels in closed form -/

/-- The update `P2PX` makes to one target body, in closed form. -/
theorem P2PX_eq (sqrt log : K → K) (Ci Cj : Cell K) :
    P2PX sqrt log Ci Cj = { Ci with BODY := Ci.BODY.map fun Bi => { Bi with
      p := Bi.p + ((Cj.BODY.filter fun Bj => decide (Bi.X ≠ Bj.X)).map fun Bj =>
          Bj.q * log (1 / sqrt (norm (Bi.X.1 - Bj.X.1, Bi.X.2 - Bj.X.2)))).sum
      F := (Bi.F.1 - ((Cj.BODY.filter fun Bj => decide (Bi.X ≠ Bj.X)).map fun Bj =>
          (Bi.X.1 - Bj.X.1) * Bj.q / norm (Bi.X.1 - Bj.X.1, Bi.X.2 - Bj.X.2)).sum,
        Bi.F.2 - ((Cj.BODY.filter fun Bj => decide (Bi.X ≠ Bj.X)).map fun Bj =>
          (Bi.X.2 - Bj.X.2) * Bj.q / norm (Bi.X.1 - Bj.X.1, Bi.X.2 - Bj.X.2)).sum) } } := by
  simp only [P2PX, P2PX_fold, zero_add]

theorem filter_ne_eq_nil (X : K × K) (l : List (Body K)) (h : ∀ Bj ∈ l, Bj.X = X) :
    (l.filter fun Bj => decide (X ≠ Bj.X)) = [] := by
  rw [List.filter_eq_nil_iff]
  intro Bj hBj
  simp [h Bj hBj]

theorem filter_ne_remove (X : K × K) (l1 l2 : List (Body K)) (Bc : Body K) (h : Bc.X = X) :
    ((l1 ++ Bc :: l2).filter fun Bj => decide (X ≠ Bj.X))
      = (l1 ++ l2).filter fun Bj => decide (X ≠ Bj.X) := by
  rw [List.filter_append, List.filter_append, List.filter_cons]
  simp [h]

theorem weight_some_of_isSome (G : Globals K) (C : Cell K) (l : List (Body K))
    (h : ∀ B ∈ l, (weight G B C).isSome) :
    ∀ B ∈ l, weight G B C = some ((fun B => (weight G B C).getD 0) B) := by
  intro B hB
  obtain ⟨w, hw⟩ := Option.isSome_iff_exists.1 (h B hB)
  simp [hw]

/-! ### Verification loop -/

/-- The accumulators of the verification loop after the whole loop. -/
theorem main_verify_loop (bodies bodies2 : List (Body K)) (h : bodies.length ≤ bodies2.length) :
    forLoop 0 bodies.length (fun b (s : verify_state K) =>
      (bodies[b]?).bind fun B => (bodies2[b]?).bind fun B2 => some
        (⟨s.pDif + (B.p - B2.p) * (B.p - B2.p),
          s.pNrm + B.p * B.p,
          s.FDif + ((B.F.1 - B2.F.1) * (B.F.1 - B2.F.1) + (B.F.2 - B2.F.2) * (B.F.2 - B2.F.2)),
          s.FNrm + (B.F.1 * B.F.1 + B.F.2 * B.F.2)⟩ : verify_state K)) ⟨0, 0, 0, 0⟩
      = some ⟨(List.zipWith (fun B B2 => (B.p - B2.p) * (B.p - B2.p)) bodies bodies2).sum,
          (bodies.map fun B => B.p * B.p).sum,
          (List.zipWith (fun B B2 => (B.F.1 - B2.F.1) * (B.F.1 - B2.F.1)
            + (B.F.2 - B2.F.2) * (B.F.2 - B2.F.2)) bodies bodies2).sum,
          (bodies.map fun B => B.F.1 * B.F.1 + B.F.2 * B.F.2).sum⟩ := by
  obtain ⟨s, hs, h1, h2, h3, h4⟩ := forLoop_inv
    (fun n (s : verify_state K) =>
      s.pDif = (List.zipWith (fun B B2 => (B.p - B2.p) * (B.p - B2.p))
        (bodies.take n) (bodies2.take n)).sum ∧
      s.pNrm = ((bodies.take n).map fun B => B.p * B.p).sum ∧
      s.FDif = (List.zipWith (fun B B2 => (B.F.1 - B2.F.1) * (B.F.1 - B2.F.1)
            + (B.F.2 - B2.F.2) * (B.F.2 - B2.F.2)) (bodies.take n) (bodies2.take n)).sum ∧
      s.FNrm = ((bodies.take n).map fun B => B.F.1 * B.F.1 + B.F.2 * B.F.2).sum)
    0 bodies.length
    (fun b (s : verify_state K) =>
      (bodies[b]?).bind fun B => (bodies2[b]?).bind fun B2 => some
        (⟨s.pDif + (B.p - B2.p) * (B.p - B2.p),
          s.pNrm + B.p * B.p,
          s.FDif + ((B.F.1 - B2.F.1) * (B.F.1 - B2.F.1) + (B.F.2 - B2.F.2) * (B.F.2 - B2.F.2)),
          s.FNrm + (B.F.1 * B.F.1 + B.F.2 * B.F.2)⟩ : verify_state K))
    ⟨0, 0, 0, 0⟩ (Nat.zero_le _) (by simp)
    (by
      rintro i ⟨a, b, c, d⟩ _ hi ⟨h1, h2, h3, h4⟩
      have hi2 : i < bodies2.length := lt_of_lt_of_le hi h
      simp only at h1 h2 h3 h4
      have hl : (bodies.take i).length = (bodies2.take i).length := by
        rw [List.length_take, List.length_take]; omega
      beta_reduce
      rw [List.getElem?_eq_getElem hi, List.getElem?_eq_getElem hi2, Option.some_bind,
        Option.some_bind]
      refine ⟨_, rfl, ?_, ?_, ?_, ?_⟩
      · simp only [List.take_succ, List.getElem?_eq_getElem hi, List.getElem?_eq_getElem hi2,
          Option.toList_some, List.zipWith_append _ _ _ _ _ hl, List.sum_append, ← h1]
        simp
      · simp only [List.take_succ, List.getElem?_eq_getElem hi, Option.toList_some,
          List.map_append, List.sum_append, ← h2]
        simp
      · simp only [List.take_succ, List.getElem?_eq_getElem hi, List.getElem?_eq_getElem hi2,
          Option.toList_some, List.zipWith_append _ _ _ _ _ hl, List.sum_append, ← h3]
        simp
      · simp only [List.take_succ, List.getElem?_eq_getElem hi, Option.toList_some,
          List.map_append, List.sum_append, ← h4]
        simp)
  rw [hs]
  have e : List.take bodies.length bodies2 = bodies2.take bodies.length := rfl
  have z : ∀ (f : Body K → Body K → K), List.zipWith f bodies (bodies2.take bodies.length)
      = List.zipWith f bodies bodies2 := by
    intro f
    have := List.zipWith_eq_zipWith_take_min (f := f) bodies bodies2
    rw [min_eq_left h, List.take_length] at this
    exact this.symm
  rw [List.take_length] at h1 h2 h3 h4
  rw [z] at h1 h3
  cases s
  simp only at h1 h2 h3 h4
  rw [h1, h2, h3, h4]

/-! ### Re-centring of the local polynomial -/

/-- Re-centring a truncated Taylor polynomial: the shifted coefficients
`Σ_k a (l+k) Z^k / k!` give at `W` the value of the original polynomial at `W + Z`. -/
theorem taylor_shift (a : ℕ → complex_t K) (Z W : complex_t K) (N : ℕ) :
    ∑ l in Finset.range N, (∑ k in Finset.range (N - l),
        a (l + k) * Z ^ k / (k.factorial : complex_t K)) * W ^ l / (l.factorial : complex_t K)
      = ∑ n in Finset.range N, a n * (W + Z) ^ n / (n.factorial : complex_t K) := by
  have h1 : ∀ n ∈ Finset.range N, a n * (W + Z) ^ n / (n.factorial : complex_t K)
      = ∑ m in Finset.range (n + 1), (fun m i => a (m + i)
          * (Z ^ i / (i.factorial : complex_t K)) * (W ^ m / (m.factorial : complex_t K)))
          m (n - m) := by
    intro n _
    rw [mul_div_assoc, add_comm W Z, ← add_pow_div_factorial Z W n, Finset.mul_sum]
    refine Finset.sum_congr rfl (fun m hm => ?_)
    have hmn : m + (n - m) = n := by
      have := Finset.mem_range.1 hm
      omega
    simp only [hmn, mul_assoc]
  rw [Finset.sum_congr rfl h1]
  refine Eq.trans ?_ (Finset.sum_range_diag_flip N (fun m i => a (m + i)
    * (Z ^ i / (i.factorial : complex_t K)) * (W ^ m / (m.factorial : complex_t K)))).symm
  refine Finset.sum_congr rfl (fun l _ => ?_)
  rw [mul_div_assoc, Finset.sum_mul]
  refine Finset.sum_congr rfl (fun k _ => ?_)
  rw [mul_div_assoc]

/-- With a local array of length at most 1, `L2P` fails on every body: it reads `L[1]`. -/
theorem L2P_body_none (G : Globals K) (C : Cell K) (B : Body K) (h : C.L.length ≤ 1) :
    L2P_body G C B = none := by
  have h1 : C.L[1]? = none := List.getElem?_eq_none h
  cases hw : weight G B C <;> simp [L2P_body, hw, vget, h1]

/-- The array `L2L` leaves in a child whose array was zero, and what `L2P` computes from
it. -/
theorem L2L_child_poly (G : Globals K) (Cj Ci : Cell K) (W : complex_t K) (j : ℕ)
    (hC : Ci.L = List.replicate G.P 0) :
    ∑ l in Finset.range (G.P - j), (((List.range G.P).map fun l =>
        Ci.L.getD l 0 + ∑ k in Finset.range (G.P - l), Cj.L.getD (l + k) 0
          * (⟨Ci.X.1 - Cj.X.1, Ci.X.2 - Cj.X.2⟩ : complex_t K) ^ k
          / (k.factorial : complex_t K)).getD (l + j) 0) * W ^ l / (l.factorial : complex_t K)
      = ∑ n in Finset.range (G.P - j), Cj.L.getD (n + j) 0
          * (W + ⟨Ci.X.1 - Cj.X.1, Ci.X.2 - Cj.X.2⟩) ^ n / (n.factorial : complex_t K) := by
  rw [← taylor_shift (fun n => Cj.L.getD (n + j) 0) _ W (G.P - j)]
  refine Finset.sum_congr rfl (fun l hl => ?_)
  have hl1 : l + j < G.P := by
    have := Finset.mem_range.1 hl
    omega
  rw [getD_map_range _ _ _ hl1, hC, getD_replicate_zero, zero_add]
  have e1 : G.P - (l + j) = G.P - j - l := by omega
  rw [e1]
  congr 2
  refine Finset.sum_congr rfl (fun k _ => ?_)
  have e2 : l + j + k = l + k + j := by omega
  rw [e2]

/-! ### The driver in closed form -/

/-- The increments of `M2L_spec` in one formula, for multipole coefficients `m k`. -/
theorem M2L_inc_uniform (m : ℕ → complex_t K) (c Z : complex_t K) (P n : ℕ) (hP : 2 ≤ P) :
    (if n = 0 then
        -m 0 * c + m 1 * Z⁻¹
          + ∑ k in Finset.Ico 2 P, m k * (((k - 1).factorial : complex_t K) * Z⁻¹ ^ k)
      else 0)
      + (if n = 1 then
        -m 0 * Z⁻¹ + ∑ k in Finset.Ico 1 P, -m k * ((k.factorial : complex_t K) * Z⁻¹ ^ (k + 1))
      else 0)
      + (if 2 ≤ n then
        ∑ k in Finset.Ico 0 P, m k * ((-1) ^ n * (((n + k - 1).factorial : complex_t K)
          * Z⁻¹ ^ (n + k)))
      else 0)
    = (if n = 0 then -m 0 * c else 0)
      + ∑ k in Finset.range P, (if n + k = 0 then 0 else
          m k * ((-1) ^ n * (((n + k - 1).factorial : complex_t K) * Z⁻¹ ^ (n + k)))) := by
  rw [Finset.range_eq_Ico]
  rcases Nat.lt_or_ge n 2 with h2 | h2
  · rcases Nat.lt_or_ge n 1 with h1 | h1
    · have h0 : n = 0 := by omega
      subst h0
      conv_rhs => rw [Finset.sum_eq_sum_Ico_succ_bot (show 0 < P by omega),
        Finset.sum_eq_sum_Ico_succ_bot (show 0 + 1 < P by omega)]
      have e : ∀ k ∈ Finset.Ico (0 + 1 + 1) P, (if 0 + k = 0 then (0 : complex_t K) else
          m k * ((-1) ^ 0 * (((0 + k - 1).factorial : complex_t K) * Z⁻¹ ^ (0 + k))))
          = m k * (((k - 1).factorial : complex_t K) * Z⁻¹ ^ k) := by
        intro k hk
        have hk2 := (Finset.mem_Ico.1 hk).1
        rw [if_neg (by omega), zero_add, pow_zero, one_mul]
      rw [Finset.sum_congr rfl e]
      simp
      ring
    · have h0 : n = 1 := by omega
      subst h0
      conv_rhs => rw [Finset.sum_eq_sum_Ico_succ_bot (show 0 < P by omega)]
      have e : ∀ k ∈ Finset.Ico (0 + 1) P, (if 1 + k = 0 then (0 : complex_t K) else
          m k * ((-1) ^ 1 * (((1 + k - 1).factorial : complex_t K) * Z⁻¹ ^ (1 + k))))
          = -m k * ((k.factorial : complex_t K) * Z⁻¹ ^ (k + 1)) := by
        intro k _
        rw [if_neg (by omega), Nat.add_sub_cancel_left, add_comm 1 k]
        ring
      rw [Finset.sum_congr rfl e]
      simp
  · have e : ∀ k ∈ Finset.Ico 0 P, (if n + k = 0 then (0 : complex_t K) else
        m k * ((-1) ^ n * (((n + k - 1).factorial : complex_t K) * Z⁻¹ ^ (n + k))))
        = m k * ((-1) ^ n * (((n + k - 1).factorial : complex_t K) * Z⁻¹ ^ (n + k))) := by
      intro k _
      rw [if_neg (by omega)]
    rw [Finset.sum_congr rfl e, if_neg (by omega), if_neg (by omega), if_pos h2, if_neg (by omega)]
    simp

/-- `P2M` on a cell with one body and a zero multipole array: coefficient `k` becomes
`q w a^k / k!`, `a` the offset of the body from the cell centre. -/
theorem P2M_single (G : Globals K) (C : Cell K) (B : Body K) (w : K) (hP : 1 ≤ G.P)
    (hM : C.M = List.replicate G.P 0) (hB : C.BODY = [B]) (hw : weight G B C = some w) :
    ∃ M1, P2M G C = some { C with M := M1 } ∧ M1.length = G.P ∧
      ∀ k, k < G.P → M1.getD k 0 = ofReal (B.q * w)
        * (⟨B.X.1 - C.X.1, B.X.2 - C.X.2⟩ : complex_t K) ^ k / (k.factorial : complex_t K) := by
  have hlen : C.M.length = G.P := by rw [hM, List.length_replicate]
  obtain ⟨M1, h1, hU⟩ := P2M_spec G C (fun _ => w) hP hlen
    (fun B1 hB1 => by
      rw [hB, List.mem_singleton] at hB1
      rw [hB1]
      exact hw)
  refine ⟨M1, h1, hU.1.trans hlen, fun k hk => ?_⟩
  rw [hU.2 k (by rw [hlen]; exact hk), hM, getD_replicate_zero, hB]
  simp

/-- `M2L` from a cell whose multipole coefficients are `c a^k / k!`, seen through the two
polynomials that `L2P` evaluates at an offset `b`: the potential polynomial gains `c` times the
truncated far-field potential series, the force polynomial `c` times the truncated far-field
force series. -/
theorem M2L_far (clog : complex_t K → complex_t K) (G : Globals K) (Ci Cj : Cell K)
    (c a : complex_t K) (hP : 2 ≤ G.P) (hL : Ci.L.length = G.P) (hM : Cj.M.length = G.P)
    (hm : ∀ k, k < G.P → Cj.M.getD k 0 = c * a ^ k / (k.factorial : complex_t K)) :
    ∃ L1, M2L clog G Ci Cj = some { Ci with L := L1 } ∧ L1.length = G.P ∧
      ∀ b : complex_t K,
        (∑ n in Finset.range G.P, L1.getD n 0 * b ^ n / (n.factorial : complex_t K)
          = ∑ n in Finset.range G.P, Ci.L.getD n 0 * b ^ n / (n.factorial : complex_t K)
            + c * far_potential_series clog G.P ⟨Ci.X.1 - Cj.X.1, Ci.X.2 - Cj.X.2⟩ a b) ∧
        (∑ m in Finset.range (G.P - 1), L1.getD (m + 1) 0 * b ^ m / (m.factorial : complex_t K)
          = ∑ m in Finset.range (G.P - 1), Ci.L.getD (m + 1) 0 * b ^ m
              / (m.factorial : complex_t K)
            + c * far_force_series G.P ⟨Ci.X.1 - Cj.X.1, Ci.X.2 - Cj.X.2⟩ a b) := by
  unfold far_potential_series far_force_series
  obtain ⟨L1, h1, hU⟩ := M2L_spec clog G Ci Cj hP hL hM
  set Z : complex_t K := ⟨Ci.X.1 - Cj.X.1, Ci.X.2 - Cj.X.2⟩ with hZ
  have hinc : ∀ n, n < G.P → L1.getD n 0 = Ci.L.getD n 0
      + ((if n = 0 then -c * clog Z else 0)
        + ∑ k in Finset.range G.P, (if n + k = 0 then 0 else
          c * a ^ k / (k.factorial : complex_t K)
            * ((-1) ^ n * (((n + k - 1).factorial : complex_t K) * Z⁻¹ ^ (n + k))))) := by
    intro n hn
    have hu := M2L_inc_uniform (fun k => Cj.M.getD k 0) (clog Z) Z G.P n hP
    beta_reduce at hu
    have hg := hU.2 n (by rw [hL]; exact hn)
    beta_reduce at hg
    rw [hg, hu, hm 0 (by omega)]
    congr 2
    · simp
    · refine Finset.sum_congr rfl (fun k hk => ?_)
      rw [hm k (Finset.mem_range.1 hk)]
  refine ⟨L1, h1, hU.1.trans hL, fun b => ⟨?_, ?_⟩⟩
  · have e : ∀ n ∈ Finset.range G.P, L1.getD n 0 * b ^ n / (n.factorial : complex_t K)
        = Ci.L.getD n 0 * b ^ n / (n.factorial : complex_t K)
          + ((if n = 0 then -c * clog Z else 0) * (b ^ n / (n.factorial : complex_t K))
            + c * ∑ k in Finset.range G.P, (if n + k = 0 then 0 else
                (-1) ^ n * ((n + k - 1).factorial : complex_t K)
                  * (b ^ n / (n.factorial : complex_t K))
                  * (a ^ k / (k.factorial : complex_t K)) * Z⁻¹ ^ (n + k))) := by
      intro n hn
      rw [hinc n (Finset.mem_range.1 hn), add_mul, add_div, add_mul, add_div, Finset.mul_sum,
        Finset.sum_mul, Finset.sum_div, mul_div_assoc ((if n = 0 then -c * clog Z else 0))]
      congr 2
      refine Finset.sum_congr rfl (fun k _ => ?_)
      split
      · simp
      · ring
    have hs : ∑ n in Finset.range G.P,
        (if n = 0 then -c * clog Z else 0) * (b ^ n / (n.factorial : complex_t K))
        = -c * clog Z := by
      rw [Finset.sum_eq_single_of_mem 0 (Finset.mem_range.2 (by omega))
        (fun n _ hn => by rw [if_neg hn, zero_mul])]
      simp
    rw [Finset.sum_congr rfl e, Finset.sum_add_distrib, Finset.sum_add_distrib, hs,
      ← Finset.mul_sum]
    ring
  · have e : ∀ m ∈ Finset.range (G.P - 1), L1.getD (m + 1) 0 * b ^ m
          / (m.factorial : complex_t K)
        = Ci.L.getD (m + 1) 0 * b ^ m / (m.factorial : complex_t K)
          + c * ∑ k in Finset.range G.P,
              (-1) ^ (m + 1) * ((m + k).factorial : complex_t K)
                * (b ^ m / (m.factorial : complex_t K))
                * (a ^ k / (k.factorial : complex_t K)) * Z⁻¹ ^ (m + 1 + k) := by
      intro m hm1
      have hm2 : m + 1 < G.P := by
        have := Finset.mem_range.1 hm1
        omega
      rw [hinc (m + 1) hm2, if_neg (Nat.succ_ne_zero m), zero_add, add_mul, add_div,
        Finset.mul_sum, Finset.sum_mul, Finset.sum_div]
      congr 1
      refine Finset.sum_congr rfl (fun k _ => ?_)
      rw [if_neg (by omega)]
      have e1 : m + 1 + k - 1 = m + k := by omega
      rw [e1]
      ring
    rw [Finset.sum_congr rfl e, Finset.sum_add_distrib, ← Finset.mul_sum]

theorem ofReal_mul_re (r : K) (z : complex_t K) : (ofReal r * z).re = r * z.re := by
  simp

theorem ofReal_mul_im (r : K) (z : complex_t K) : (ofReal r * z).im = r * z.im := by
  simp

/-- The verification loop on one body per list. -/
theorem main_verify_single (sqrt : K → K) (B B2 : Body K) :
    main_verify sqrt [B] [B2] = some
      (sqrt ((B.p - B2.p) * (B.p - B2.p) / (B.p * B.p)),
       sqrt (((B.F.1 - B2.F.1) * (B.F.1 - B2.F.1) + (B.F.2 - B2.F.2) * (B.F.2 - B2.F.2))
          / (B.F.1 * B.F.1 + B.F.2 * B.F.2))) := by
  simp only [main_verify, Option.bind_eq_bind, Option.pure_def]
  rw [main_verify_loop [B] [B2] (le_refl _), Option.some_bind]
  simp

/-- The weight depends only on the buffer size, the domain, the position of the body and the
centre and radius of the cell. -/
theorem weight_congr (G G1 : Globals K) (B B1 : Body K) (C C1 : Cell K)
    (hD : G.D = G1.D) (hR0 : G.R0 = G1.R0) (hX0 : G.X0 = G1.X0) (hB : B.X = B1.X)
    (hC : C.X = C1.X) (hR : C.R = C1.R) : weight G B C = weight G1 B1 C1 := by
  simp only [weight, hD, hR0, hX0, hB, hC, hR]

/-- `L2P` on a cell with one body, with the two local polynomials given. -/
theorem L2P_single (G : Globals K) (C : Cell K) (B : Body K) (w : K) (S T : complex_t K)
    (hP : 2 ≤ G.P) (hL : C.L.length = G.P) (hB : C.BODY = [B]) (hw : weight G B C = some w)
    (hS : ∑ n in Finset.range G.P, C.L.getD n 0
        * (⟨B.X.1 - C.X.1, B.X.2 - C.X.2⟩ : complex_t K) ^ n / (n.factorial : complex_t K) = S)
    (hT : ∑ m in Finset.range (G.P - 1), C.L.getD (m + 1) 0
        * (⟨B.X.1 - C.X.1, B.X.2 - C.X.2⟩ : complex_t K) ^ m / (m.factorial : complex_t K) = T) :
    L2P G C = some { C with BODY := [{ B with
      p := B.p + w * S.re, F := (B.F.1 + w * T.re, B.F.2 - w * T.im) }] } := by
  rw [L2P_spec G C (fun _ => w) hP hL (fun B1 hB1 => by
    rw [hB, List.mem_singleton] at hB1
    rw [hB1]
    exact hw), hB]
  simp only [List.map_cons, List.map_nil, hS, hT]

/-- `P2P` for one target body and one source body at a different position. -/
theorem P2P_single (sqrt log : K → K) (G : Globals K) (Ci Cj : Cell K) (Bi Bj : Body K)
    (wi wj : K) (hi : Ci.BODY = [Bi]) (hj : Cj.BODY = [Bj]) (hne : Bi.X ≠ Bj.X)
    (hwi : weight G Bi Ci = some wi) (hwj : weight G Bj Cj = some wj) :
    P2P sqrt log G Ci Cj = some { Ci with BODY := [{ Bi with
      p := Bi.p + Bj.q * log (1 / sqrt (norm (Bi.X.1 - Bj.X.1, Bi.X.2 - Bj.X.2))) * wj * wi
      F := (Bi.F.1 - (Bi.X.1 - Bj.X.1) * Bj.q / norm (Bi.X.1 - Bj.X.1, Bi.X.2 - Bj.X.2) * wj * wi,
        Bi.F.2 - (Bi.X.2 - Bj.X.2) * Bj.q / norm (Bi.X.1 - Bj.X.1, Bi.X.2 - Bj.X.2) * wj
          * wi) }] } := by
  rw [P2P_spec sqrt log G Ci Cj (fun _ => wi) (fun _ => wj)
    (fun B hB => by
      rw [hi, List.mem_singleton] at hB
      rw [hB]
      exact hwi)
    (fun B hB => by
      rw [hj, List.mem_singleton] at hB
      rw [hB]
      exact hwj), hi, hj]
  simp [hne]

/-- `P2PX` for one target body and one source body at a different position. -/
theorem P2PX_single (sqrt log : K → K) (Ci Cj : Cell K) (Bi Bj : Body K)
    (hi : Ci.BODY = [Bi]) (hj : Cj.BODY = [Bj]) (hne : Bi.X ≠ Bj.X) :
    P2PX sqrt log Ci Cj = { Ci with BODY := [{ Bi with
      p := Bi.p + Bj.q * log (1 / sqrt (norm (Bi.X.1 - Bj.X.1, Bi.X.2 - Bj.X.2)))
      F := (Bi.F.1 - (Bi.X.1 - Bj.X.1) * Bj.q / norm (Bi.X.1 - Bj.X.1, Bi.X.2 - Bj.X.2),
        Bi.F.2 - (Bi.X.2 - Bj.X.2) * Bj.q / norm (Bi.X.1 - Bj.X.1, Bi.X.2 - Bj.X.2)) }] } := by
  rw [P2PX_eq, hi, hj]
  simp [hne]

/-- The two bodies of `kernel.cxx` are at different positions. -/
theorem bodies_ne : ((-13 / 2, 0) : K × K) ≠ (13 / 2, 0) := by
  intro h
  have h1 := congrArg Prod.fst h
  norm_num at h1

set_option maxHeartbeats 1600000

/-- The body that the expansion kernels of `main` leave in `bodies`, and the body that `P2PX`
leaves in `bodies2`, for `P ≥ 2` and given weights of the source in `CJ`, `CJ2` and of the
target in `CI`, `CI2`. -/
theorem main_eq (sqrt log : K → K) (clog : complex_t K → complex_t K) (G : Globals K)
    (wJ wJ2 wI wI2 : K) (hP : 2 ≤ G.P)
    (hJ : weight G ⟨0, (13 / 2, 0), 1, 0, (0, 0)⟩ ⟨[], [], (8, 0), 2, [], []⟩ = some wJ)
    (hJ2 : weight G ⟨0, (13 / 2, 0), 1, 0, (0, 0)⟩ ⟨[], [], (4, 0), 2, [], []⟩ = some wJ2)
    (hI : weight G ⟨0, (-13 / 2, 0), 1, 0, (0, 0)⟩ ⟨[], [], (-8, 0), 2, [], []⟩ = some wI)
    (hI2 : weight G ⟨0, (-13 / 2, 0), 1, 0, (0, 0)⟩ ⟨[], [], (-4, 0), 2, [], []⟩ = some wI2) :
    main sqrt log clog G = main_verify sqrt
      [⟨0, (-13 / 2, 0), 1,
        0 + wI * (ofReal (1 * wJ) * far_potential_series clog G.P
              ⟨-8 - 8, 0 - 0⟩ ⟨13 / 2 - 8, 0 - 0⟩ ⟨-13 / 2 - -8, 0 - 0⟩
            + ofReal (1 * wJ2) * far_potential_series clog G.P
              ⟨-8 - 4, 0 - 0⟩ ⟨13 / 2 - 4, 0 - 0⟩ ⟨-13 / 2 - -8, 0 - 0⟩).re
          + wI2 * (ofReal (1 * wJ) * far_potential_series clog G.P
              ⟨-4 - 8, 0 - 0⟩ ⟨13 / 2 - 8, 0 - 0⟩ ⟨-13 / 2 - -4, 0 - 0⟩).re
          + 1 * log (1 / sqrt (norm (-13 / 2 - 13 / 2, 0 - 0))) * wJ2 * wI2,
        (0 + wI * (ofReal (1 * wJ) * far_force_series G.P
              ⟨-8 - 8, 0 - 0⟩ ⟨13 / 2 - 8, 0 - 0⟩ ⟨-13 / 2 - -8, 0 - 0⟩
            + ofReal (1 * wJ2) * far_force_series G.P
              ⟨-8 - 4, 0 - 0⟩ ⟨13 / 2 - 4, 0 - 0⟩ ⟨-13 / 2 - -8, 0 - 0⟩).re
          + wI2 * (ofReal (1 * wJ) * far_force_series G.P
              ⟨-4 - 8, 0 - 0⟩ ⟨13 / 2 - 8, 0 - 0⟩ ⟨-13 / 2 - -4, 0 - 0⟩).re
          - (-13 / 2 - 13 / 2) * 1 / norm (-13 / 2 - 13 / 2, 0 - 0) * wJ2 * wI2,
         0 - wI * (ofReal (1 * wJ) * far_force_series G.P
              ⟨-8 - 8, 0 - 0⟩ ⟨13 / 2 - 8, 0 - 0⟩ ⟨-13 / 2 - -8, 0 - 0⟩
            + ofReal (1 * wJ2) * far_force_series G.P
              ⟨-8 - 4, 0 - 0⟩ ⟨13 / 2 - 4, 0 - 0⟩ ⟨-13 / 2 - -8, 0 - 0⟩).im
          - wI2 * (ofReal (1 * wJ) * far_force_series G.P
              ⟨-4 - 8, 0 - 0⟩ ⟨13 / 2 - 8, 0 - 0⟩ ⟨-13 / 2 - -4, 0 - 0⟩).im
          - (0 - 0) * 1 / norm (-13 / 2 - 13 / 2, 0 - 0) * wJ2 * wI2)⟩]
      [⟨0, (-13 / 2, 0), 1,
        0 + 1 * log (1 / sqrt (norm (-13 / 2 - 13 / 2, 0 - 0))),
        (0 - (-13 / 2 - 13 / 2) * 1 / norm (-13 / 2 - 13 / 2, 0 - 0),
         0 - (0 - 0) * 1 / norm (-13 / 2 - 13 / 2, 0 - 0))⟩] := by
  have hP1 : 1 ≤ G.P := by omega
  obtain ⟨MJ, hMJ, hMJl, hMJc⟩ := P2M_single G
    ⟨[], [⟨0, (13 / 2, 0), 1, 0, (0, 0)⟩], (8, 0), 2, List.replicate G.P 0, []⟩
    ⟨0, (13 / 2, 0), 1, 0, (0, 0)⟩ wJ hP1 rfl rfl
    ((weight_congr _ _ _ ⟨0, (13 / 2, 0), 1, 0, (0, 0)⟩ _ ⟨[], [], (8, 0), 2, [], []⟩
      rfl rfl rfl rfl rfl rfl).trans hJ)
  obtain ⟨MJ2, hMJ2, hMJ2l, hMJ2c⟩ := P2M_single G
    ⟨[], [⟨0, (13 / 2, 0), 1, 0, (0, 0)⟩], (4, 0), 2, List.replicate G.P 0, []⟩
    ⟨0, (13 / 2, 0), 1, 0, (0, 0)⟩ wJ2 hP1 rfl rfl
    ((weight_congr _ _ _ ⟨0, (13 / 2, 0), 1, 0, (0, 0)⟩ _ ⟨[], [], (4, 0), 2, [], []⟩
      rfl rfl rfl rfl rfl rfl).trans hJ2)
  dsimp only at hMJ hMJc hMJ2 hMJ2c
  obtain ⟨LA, hLA, hLAl, hLAc⟩ := M2L_far clog G
    ⟨[], [], (-8, 0), 2, [], List.replicate G.P 0⟩
    ⟨[], [⟨0, (13 / 2, 0), 1, 0, (0, 0)⟩], (8, 0), 2, MJ, []⟩
    (ofReal (1 * wJ)) ⟨13 / 2 - 8, 0 - 0⟩ hP (List.length_replicate _ _) hMJl hMJc
  dsimp only at hLA hLAc
  simp only [getD_replicate_zero, zero_mul, zero_div, Finset.sum_const_zero, zero_add] at hLAc
  obtain ⟨LB, hLB, hLBl, hLBc⟩ := M2L_far clog G
    ⟨[], [], (-8, 0), 2, [], LA⟩
    ⟨[], [⟨0, (13 / 2, 0), 1, 0, (0, 0)⟩], (4, 0), 2, MJ2, []⟩
    (ofReal (1 * wJ2)) ⟨13 / 2 - 4, 0 - 0⟩ hP hLAl hMJ2l hMJ2c
  dsimp only at hLB hLBc
  obtain ⟨LC, hLC, hLCl, hLCc⟩ := M2L_far clog G
    ⟨[], [], (-4, 0), 2, [], List.replicate G.P 0⟩
    ⟨[], [⟨0, (13 / 2, 0), 1, 0, (0, 0)⟩], (8, 0), 2, MJ, []⟩
    (ofReal (1 * wJ)) ⟨13 / 2 - 8, 0 - 0⟩ hP (List.length_replicate _ _) hMJl hMJc
  dsimp only at hLC hLCc
  simp only [getD_replicate_zero, zero_mul, zero_div, Finset.sum_const_zero, zero_add] at hLCc
  have hw : ∀ (B B1 : Body K) (C C1 : Cell K) (w : K), weight G B1 C1 = some w →
      B.X = B1.X → C.X = C1.X → C.R = C1.R → weight G B C = some w :=
    fun B B1 C C1 w h hB hC hR => (weight_congr G G B B1 C C1 rfl rfl rfl hB hC hR).trans h
  have s1 : L2P G ⟨[], [⟨0, (-13 / 2, 0), 1, 0, (0, 0)⟩], (-8, 0), 2, [], LB⟩ = some
      ⟨[], [⟨0, (-13 / 2, 0), 1,
        0 + wI * (ofReal (1 * wJ) * far_potential_series clog G.P
              ⟨-8 - 8, 0 - 0⟩ ⟨13 / 2 - 8, 0 - 0⟩ ⟨-13 / 2 - -8, 0 - 0⟩
            + ofReal (1 * wJ2) * far_potential_series clog G.P
              ⟨-8 - 4, 0 - 0⟩ ⟨13 / 2 - 4, 0 - 0⟩ ⟨-13 / 2 - -8, 0 - 0⟩).re,
        (0 + wI * (ofReal (1 * wJ) * far_force_series G.P
              ⟨-8 - 8, 0 - 0⟩ ⟨13 / 2 - 8, 0 - 0⟩ ⟨-13 / 2 - -8, 0 - 0⟩
            + ofReal (1 * wJ2) * far_force_series G.P
              ⟨-8 - 4, 0 - 0⟩ ⟨13 / 2 - 4, 0 - 0⟩ ⟨-13 / 2 - -8, 0 - 0⟩).re,
         0 - wI * (ofReal (1 * wJ) * far_force_series G.P
              ⟨-8 - 8, 0 - 0⟩ ⟨13 / 2 - 8, 0 - 0⟩ ⟨-13 / 2 - -8, 0 - 0⟩
            + ofReal (1 * wJ2) * far_force_series G.P
              ⟨-8 - 4, 0 - 0⟩ ⟨13 / 2 - 4, 0 - 0⟩ ⟨-13 / 2 - -8, 0 - 0⟩).im)⟩],
        (-8, 0), 2, [], LB⟩ :=
    L2P_single G ⟨[], [⟨0, (-13 / 2, 0), 1, 0, (0, 0)⟩], (-8, 0), 2, [], LB⟩
      ⟨0, (-13 / 2, 0), 1, 0, (0, 0)⟩ wI _ _ hP hLBl rfl (hw _ _ _ _ wI hI rfl rfl rfl)
      (((hLBc _).1).trans (congrArg (fun t => t + _) (hLAc _).1))
      (((hLBc _).2).trans (congrArg (fun t => t + _) (hLAc _).2))
  have s2 : ∀ (p : K) (F : K × K),
      L2P G ⟨[], [⟨0, (-13 / 2, 0), 1, p, F⟩], (-4, 0), 2, [], LC⟩ = some
      ⟨[], [⟨0, (-13 / 2, 0), 1,
        p + wI2 * (ofReal (1 * wJ) * far_potential_series clog G.P
              ⟨-4 - 8, 0 - 0⟩ ⟨13 / 2 - 8, 0 - 0⟩ ⟨-13 / 2 - -4, 0 - 0⟩).re,
        (F.1 + wI2 * (ofReal (1 * wJ) * far_force_series G.P
              ⟨-4 - 8, 0 - 0⟩ ⟨13 / 2 - 8, 0 - 0⟩ ⟨-13 / 2 - -4, 0 - 0⟩).re,
         F.2 - wI2 * (ofReal (1 * wJ) * far_force_series G.P
              ⟨-4 - 8, 0 - 0⟩ ⟨13 / 2 - 8, 0 - 0⟩ ⟨-13 / 2 - -4, 0 - 0⟩).im)⟩],
        (-4, 0), 2, [], LC⟩ :=
    fun p F => L2P_single G ⟨[], [⟨0, (-13 / 2, 0), 1, p, F⟩], (-4, 0), 2, [], LC⟩
      ⟨0, (-13 / 2, 0), 1, p, F⟩ wI2 _ _ hP hLCl rfl (hw _ _ _ _ wI2 hI2 rfl rfl rfl)
      (hLCc _).1 (hLCc _).2
  have s3 : ∀ (p : K) (F : K × K),
      P2P sqrt log G ⟨[], [⟨0, (-13 / 2, 0), 1, p, F⟩], (-4, 0), 2, [], LC⟩
        ⟨[], [⟨0, (13 / 2, 0), 1, 0, (0, 0)⟩], (4, 0), 2, MJ2, []⟩ = some
      ⟨[], [⟨0, (-13 / 2, 0), 1,
        p + 1 * log (1 / sqrt (norm (-13 / 2 - 13 / 2, 0 - 0))) * wJ2 * wI2,
        (F.1 - (-13 / 2 - 13 / 2) * 1 / norm (-13 / 2 - 13 / 2, 0 - 0) * wJ2 * wI2,
         F.2 - (0 - 0) * 1 / norm (-13 / 2 - 13 / 2, 0 - 0) * wJ2 * wI2)⟩],
        (-4, 0), 2, [], LC⟩ :=
    fun p F => P2P_single sqrt log G ⟨[], [⟨0, (-13 / 2, 0), 1, p, F⟩], (-4, 0), 2, [], LC⟩
      ⟨[], [⟨0, (13 / 2, 0), 1, 0, (0, 0)⟩], (4, 0), 2, MJ2, []⟩
      ⟨0, (-13 / 2, 0), 1, p, F⟩ ⟨0, (13 / 2, 0), 1, 0, (0, 0)⟩ wI2 wJ2 rfl rfl bodies_ne
      (hw _ _ _ _ wI2 hI2 rfl rfl rfl) (hw _ _ _ _ wJ2 hJ2 rfl rfl rfl)
  have s4 : P2PX sqrt log ⟨[], [⟨0, (-13 / 2, 0), 1, 0, (0, 0)⟩], (-8, 0), 2, [], LB⟩
        ⟨[], [⟨0, (13 / 2, 0), 1, 0, (0, 0)⟩], (8, 0), 2, MJ, []⟩ =
      ⟨[], [⟨0, (-13 / 2, 0), 1,
        0 + 1 * log (1 / sqrt (norm (-13 / 2 - 13 / 2, 0 - 0))),
        (0 - (-13 / 2 - 13 / 2) * 1 / norm (-13 / 2 - 13 / 2, 0 - 0),
         0 - (0 - 0) * 1 / norm (-13 / 2 - 13 / 2, 0 - 0))⟩],
        (-8, 0), 2, [], LB⟩ :=
    P2PX_single sqrt log ⟨[], [⟨0, (-13 / 2, 0), 1, 0, (0, 0)⟩], (-8, 0), 2, [], LB⟩
      ⟨[], [⟨0, (13 / 2, 0), 1, 0, (0, 0)⟩], (8, 0), 2, MJ, []⟩
      ⟨0, (-13 / 2, 0), 1, 0, (0, 0)⟩ ⟨0, (13 / 2, 0), 1, 0, (0, 0)⟩ rfl rfl bodies_ne
  simp only [main, Option.bind_eq_bind]
  rw [hMJ, Option.some_bind, hMJ2, Option.some_bind]
  rw [hLA, Option.some_bind, hLB, Option.some_bind, hLC, Option.some_bind]
  dsimp only
  rw [s1, Option.some_bind]
  dsimp only
  rw [s2, Option.some_bind, s3, Option.some_bind]
  dsimp only [List.map_cons, List.map_nil]
  rw [s4]

end lemmas

/-! ### Derivatives of the truncated multipole potential -/

theorem toComplex_zero : toComplex 0 = 0 := rfl

theorem toComplex_one : toComplex 1 = 1 := rfl

theorem toComplex_add (z w : complex_t ℝ) : toComplex (z + w) = toComplex z + toComplex w :=
  Complex.ext rfl rfl

theorem toComplex_neg (z : complex_t ℝ) : toComplex (-z) = -toComplex z :=
  Complex.ext rfl rfl

theorem toComplex_mul (z w : complex_t ℝ) : toComplex (z * w) = toComplex z * toComplex w :=
  Complex.ext (by simp [toComplex]) (by simp [toComplex])

theorem toComplex_natCast (n : ℕ) : toComplex (n : complex_t ℝ) = (n : ℂ) :=
  Complex.ext (by simp [toComplex]) (by simp [toComplex])

theorem toComplex_eq_zero {z : complex_t ℝ} (h : toComplex z = 0) : z = 0 := by
  have h1 := congrArg Complex.re h
  have h2 := congrArg Complex.im h
  exact complex_t.ext h1 h2

theorem toComplex_inv (z : complex_t ℝ) : toComplex z⁻¹ = (toComplex z)⁻¹ := by
  by_cases hz : z = 0
  · subst hz
    simp [toComplex_zero]
  · have h1 : toComplex z ≠ 0 := fun h => hz (toComplex_eq_zero h)
    have h2 : toComplex z⁻¹ * toComplex z = 1 := by
      rw [← toComplex_mul, inv_mul_cancel₀ hz, toComplex_one]
    exact eq_inv_of_mul_eq_one_left h2

theorem toComplex_div (z w : complex_t ℝ) : toComplex (z / w) = toComplex z / toComplex w := by
  rw [div_eq_mul_inv, div_eq_mul_inv, toComplex_mul, toComplex_inv]

theorem toComplex_pow (z : complex_t ℝ) (n : ℕ) : toComplex (z ^ n) = toComplex z ^ n := by
  induction n with
  | zero => simp [toComplex_one]
  | succ n ih => rw [pow_succ, pow_succ, toComplex_mul, ih]

theorem toComplex_sum_range (f : ℕ → complex_t ℝ) (n : ℕ) :
    toComplex (∑ i in Finset.range n, f i) = ∑ i in Finset.range n, toComplex (f i) := by
  induction n with
  | zero => simp [toComplex_zero]
  | succ n ih => rw [Finset.sum_range_succ, Finset.sum_range_succ, toComplex_add, ih]

/-- Derivative of one term `c / W^m` of a Laurent series. -/
theorem hasDerivAt_const_div_pow (c : ℂ) (m : ℕ) (W : ℂ) (hW : W ≠ 0) :
    HasDerivAt (fun y : ℂ => c / y ^ m) (-((m : ℂ) * c) / W ^ (m + 1)) W := by
  have h := (((hasDerivAt_id W).pow m).inv (pow_ne_zero m hW)).const_mul c
  refine (h.congr_deriv ?_).congr_of_eventuallyEq
    (Filter.Eventually.of_forall (fun y => by simp [div_eq_mul_inv]))
  cases m with
  | zero => simp
  | succ k =>
    simp only [id, Nat.add_sub_cancel, Nat.cast_succ]
    field_simp
    ring

/-- The function `W ↦ (-1)^j * Σ_k m_k (j+k-1)!/W^(j+k)` has the same expression with `j+1`
as derivative. -/
theorem hasDerivAt_laurent (m : ℕ → ℂ) (P j : ℕ) (hj : 1 ≤ j) (W : ℂ) (hW : W ≠ 0) :
    HasDerivAt
      (fun y : ℂ => (-1) ^ j * ∑ k in Finset.range P, m k * ((j + k - 1).factorial : ℂ) / y ^ (j + k))
      ((-1) ^ (j + 1) * ∑ k in Finset.range P,
        m k * ((j + 1 + k - 1).factorial : ℂ) / W ^ (j + 1 + k)) W := by
  have h := (HasDerivAt.sum (u := Finset.range P) (fun k _ =>
    hasDerivAt_const_div_pow (m k * ((j + k - 1).factorial : ℂ)) (j + k) W hW)).const_mul
      ((-1 : ℂ) ^ j)
  refine (h.congr_deriv ?_).congr_of_eventuallyEq (Filter.Eventually.of_forall (fun y => by
    simp))
  rw [Finset.mul_sum, Finset.mul_sum]
  refine Finset.sum_congr rfl (fun k _ => ?_)
  have e1 : j + 1 + k - 1 = (j + k - 1) + 1 := by omega
  have e2 : j + 1 + k = j + k + 1 := by omega
  have e3 : ((j + k : ℕ) : ℂ) = ((j + k - 1 : ℕ) : ℂ) + 1 := by
    have : j + k = (j + k - 1) + 1 := by omega
    exact_mod_cast this
  rw [e1, e2, Nat.factorial_succ, e3]
  push_cast
  ring

/-- The `n`-th derivative (`n ≥ 1`) of the truncated multipole potential
`-m_0 ℓ(W) + Σ_{k=1}^{P-1} m_k (k-1)!/W^k`, for any function `ℓ` with derivative `1/W` near `Z`
(a local branch of the logarithm). -/
theorem iteratedDeriv_potential (m : ℕ → ℂ) (P : ℕ) (hP : 1 ≤ P) (ℓ : ℂ → ℂ) (Z : ℂ)
    (hZ : Z ≠ 0) (hℓ : ∀ᶠ W in nhds Z, HasDerivAt ℓ W⁻¹ W) (n : ℕ) (hn : 1 ≤ n) :
    iteratedDeriv n (fun W => -m 0 * ℓ W
        + ∑ k in Finset.Ico 1 P, m k * ((k - 1).factorial : ℂ) / W ^ k) Z
      = (-1) ^ n * ∑ k in Finset.range P, m k * ((n + k - 1).factorial : ℂ) / Z ^ (n + k) := by
  have hne : ∀ᶠ W in nhds Z, W ≠ 0 := eventually_ne_nhds hZ
  have key : ∀ n, 1 ≤ n → ∀ᶠ W in nhds Z, iteratedDeriv n (fun W => -m 0 * ℓ W
        + ∑ k in Finset.Ico 1 P, m k * ((k - 1).factorial : ℂ) / W ^ k) W
      = (-1) ^ n * ∑ k in Finset.range P, m k * ((n + k - 1).factorial : ℂ) / W ^ (n + k) := by
    intro n hn
    induction n with
    | zero => omega
    | succ n ih =>
      by_cases h0 : n = 0
      · subst h0
        filter_upwards [hℓ, hne] with W h1 h2
        rw [zero_add, iteratedDeriv_one]
        have h3 := (h1.const_mul (-m 0)).add (HasDerivAt.sum (u := Finset.Ico 1 P) (fun k _ =>
          hasDerivAt_const_div_pow (m k * ((k - 1).factorial : ℂ)) k W h2))
        refine (h3.congr_deriv ?_).deriv
        rw [Finset.range_eq_Ico, Finset.sum_eq_sum_Ico_succ_bot hP]
        simp only [zero_add, Nat.add_sub_cancel, Nat.sub_self, Nat.factorial_zero, Nat.cast_one,
          mul_one, pow_one]
        rw [mul_add, Finset.mul_sum]
        congr 1
        · field_simp
        · refine Finset.sum_congr rfl (fun k hk => ?_)
          have hk1 : 1 ≤ k := (Finset.mem_Ico.1 hk).1
          have e1 : 1 + k - 1 = (k - 1) + 1 := by omega
          have e2 : 1 + k = k + 1 := by omega
          have e3 : ((k : ℕ) : ℂ) = ((k - 1 : ℕ) : ℂ) + 1 := by
            have : k = (k - 1) + 1 := by omega
            exact_mod_cast this
          rw [e1, e2, Nat.factorial_succ]
          nth_rewrite 1 [e3]
          push_cast
          ring
      · have ih1 := (ih (by omega)).eventually_nhds
        filter_upwards [ih1, hne] with W h1 h2
        rw [iteratedDeriv_succ, Filter.EventuallyEq.deriv_eq h1]
        exact (hasDerivAt_laurent m P n (by omega) W h2).deriv
  exact (key n hn).self_of_nhds

theorem log_local_branch (Z : ℂ) (hZ : Z ∈ Complex.slitPlane) :
    ∀ᶠ W in nhds Z, HasDerivAt Complex.log W⁻¹ W := by
  filter_upwards [Complex.isOpen_slitPlane.mem_nhds hZ] with W hW
  exact Complex.hasDerivAt_log hW

theorem norm_nonneg_real (X : ℝ × ℝ) : 0 ≤ norm X :=
  add_nonneg (mul_self_nonneg X.1) (mul_self_nonneg X.2)

theorem sqrt_four : Real.sqrt 4 = 2 := by
  rw [show (4 : ℝ) = 2 ^ 2 by norm_num]
  exact Real.sqrt_sq (by norm_num)

/-! ### Gradient of the local polynomial -/

/-- Derivative of a truncated Taylor polynomial over the complex numbers. -/
theorem hasDerivAt_taylor (a : ℕ → ℂ) (N : ℕ) (W : ℂ) :
    HasDerivAt (fun W : ℂ => ∑ n in Finset.range (N + 1), a n * W ^ n / (n.factorial : ℂ))
      (∑ m in Finset.range N, a (m + 1) * W ^ m / (m.factorial : ℂ)) W := by
  have h : ∀ n ∈ Finset.range (N + 1), HasDerivAt (fun W : ℂ => a n * W ^ n / (n.factorial : ℂ))
      (a n * ((n : ℂ) * W ^ (n - 1)) / (n.factorial : ℂ)) W :=
    fun n _ => ((hasDerivAt_pow n W).const_mul (a n)).div_const _
  have h1 := HasDerivAt.sum h
  have e : ∑ n in Finset.range (N + 1), a n * ((n : ℂ) * W ^ (n - 1)) / (n.factorial : ℂ)
      = ∑ m in Finset.range N, a (m + 1) * W ^ m / (m.factorial : ℂ) := by
    rw [Finset.sum_range_succ']
    simp only [Nat.cast_zero, zero_mul, mul_zero, zero_div, add_zero, Nat.add_sub_cancel]
    refine Finset.sum_congr rfl (fun m _ => ?_)
    have h2 : ((m.factorial : ℕ) : ℂ) ≠ 0 := Nat.cast_ne_zero.2 (Nat.factorial_ne_zero m)
    have h3 : (m : ℂ) + 1 ≠ 0 := Nat.cast_add_one_ne_zero m
    rw [Nat.factorial_succ, Nat.cast_mul, Nat.cast_succ, div_eq_div_iff (mul_ne_zero h3 h2) h2]
    ring
  rw [e] at h1
  exact h1

/-- The local polynomial of `L2P` seen in the complex numbers of Mathlib. -/
theorem toComplex_local (c : ℕ → complex_t ℝ) (N : ℕ) (x y : ℝ) :
    toComplex (∑ n in Finset.range N, c n * (⟨x, y⟩ : complex_t ℝ) ^ n
        / (n.factorial : complex_t ℝ))
      = ∑ n in Finset.range N, toComplex (c n) * ((x : ℂ) + (y : ℂ) * Complex.I) ^ n
        / (n.factorial : ℂ) := by
  rw [toComplex_sum_range]
  refine Finset.sum_congr rfl (fun n _ => ?_)
  rw [toComplex_div, toComplex_mul, toComplex_pow, toComplex_natCast]
  have : toComplex (⟨x, y⟩ : complex_t ℝ) = (x : ℂ) + (y : ℂ) * Complex.I := by
    rw [← Complex.mk_eq_add_mul_I]
    rfl
  rw [this]

/-- Partial derivative in `x` of the real part of the local polynomial: the real part of the
differentiated series. -/
theorem hasDerivAt_local_x (c : ℕ → complex_t ℝ) (N : ℕ) (x0 y : ℝ) :
    HasDerivAt (fun x : ℝ => (∑ n in Finset.range (N + 1), c n * (⟨x, y⟩ : complex_t ℝ) ^ n
        / (n.factorial : complex_t ℝ)).re)
      ((∑ m in Finset.range N, c (m + 1) * (⟨x0, y⟩ : complex_t ℝ) ^ m
        / (m.factorial : complex_t ℝ)).re) x0 := by
  have h := (HasDerivAt.comp_add_const (x0 : ℂ) ((y : ℂ) * Complex.I)
    (hasDerivAt_taylor (fun n => toComplex (c n)) N ((x0 : ℂ) + (y : ℂ) * Complex.I))).real_of_complex
  have e1 : ∀ x : ℝ, (∑ n in Finset.range (N + 1), c n * (⟨x, y⟩ : complex_t ℝ) ^ n
      / (n.factorial : complex_t ℝ)).re
      = (∑ n in Finset.range (N + 1), toComplex (c n) * ((x : ℂ) + (y : ℂ) * Complex.I) ^ n
        / (n.factorial : ℂ)).re := by
    intro x
    rw [← toComplex_local c (N + 1) x y]
    rfl
  have e2 : (∑ m in Finset.range N, c (m + 1) * (⟨x0, y⟩ : complex_t ℝ) ^ m
      / (m.factorial : complex_t ℝ)).re
      = (∑ m in Finset.range N, toComplex (c (m + 1)) * ((x0 : ℂ) + (y : ℂ) * Complex.I) ^ m
        / (m.factorial : ℂ)).re := by
    rw [← toComplex_local (fun m => c (m + 1)) N x0 y]
    rfl
  rw [e2]
  simp only [e1]
  exact h

/-- Partial derivative in `y` of the real part of the local polynomial: minus the imaginary
part of the differentiated series. -/
theorem hasDerivAt_local_y (c : ℕ → complex_t ℝ) (N : ℕ) (x y0 : ℝ) :
    HasDerivAt (fun y : ℝ => (∑ n in Finset.range (N + 1), c n * (⟨x, y⟩ : complex_t ℝ) ^ n
        / (n.factorial : complex_t ℝ)).re)
      (-(∑ m in Finset.range N, c (m + 1) * (⟨x, y0⟩ : complex_t ℝ) ^ m
        / (m.factorial : complex_t ℝ)).im) y0 := by
  have hin : HasDerivAt (fun W : ℂ => (x : ℂ) + W * Complex.I) Complex.I (y0 : ℂ) := by
    have := ((hasDerivAt_id (y0 : ℂ)).mul_const Complex.I).const_add (x : ℂ)
    simpa using this
  have h := (HasDerivAt.comp (y0 : ℂ)
    (hasDerivAt_taylor (fun n => toComplex (c n)) N ((x : ℂ) + (y0 : ℂ) * Complex.I))
    hin).real_of_complex
  have e1 : ∀ y : ℝ, (∑ n in Finset.range (N + 1), c n * (⟨x, y⟩ : complex_t ℝ) ^ n
      / (n.factorial : complex_t ℝ)).re
      = (∑ n in Finset.range (N + 1), toComplex (c n) * ((x : ℂ) + (y : ℂ) * Complex.I) ^ n
        / (n.factorial : ℂ)).re := by
    intro y
    rw [← toComplex_local c (N + 1) x y]
    rfl
  have e2 : -(∑ m in Finset.range N, c (m + 1) * (⟨x, y0⟩ : complex_t ℝ) ^ m
      / (m.factorial : complex_t ℝ)).im
      = ((∑ m in Finset.range N, toComplex (c (m + 1)) * ((x : ℂ) + (y0 : ℂ) * Complex.I) ^ m
        / (m.factorial : ℂ)) * Complex.I).re := by
    rw [← toComplex_local (fun m => c (m + 1)) N x y0, Complex.mul_I_re]
    rfl
  rw [e2]
  simp only [e1]
  exact h

/-! ### Convergence of the far-field series -/

open complex_t

/-- Sum of a binomial double series: if `Σ_N c N (x+y)^N` has sum `s`, `|c N| ≤ 1` and
`|x| + |y| < 1`, then the family `c (n+k) * C(n+k,n) x^n y^k` over pairs `(n,k)` has sum `s`. -/
theorem hasSum_binomial_family (c : ℕ → ℂ) (hc : ∀ N, ‖c N‖ ≤ 1) (x y s : ℂ)
    (hxy : ‖x‖ + ‖y‖ < 1) (hs : HasSum (fun N => c N * (x + y) ^ N) s) :
    HasSum (fun p : ℕ × ℕ => c (p.1 + p.2) * (((p.1 + p.2).choose p.1 : ℂ) * x ^ p.1 * y ^ p.2))
      s := by
  rw [← (Finset.sigmaAntidiagonalEquivProd (A := ℕ)).hasSum_iff]
  have hr0 : 0 ≤ ‖x‖ + ‖y‖ := add_nonneg (norm_nonneg x) (norm_nonneg y)
  have hmem : ∀ (N : ℕ) (p : Finset.antidiagonal N), p.1.1 + p.1.2 = N :=
    fun N p => Finset.mem_antidiagonal.1 p.2
  -- the dominating family
  have ht : Summable (fun q : (Σ N : ℕ, Finset.antidiagonal N) =>
      ((q.1.choose q.2.1.1 : ℝ) * ‖x‖ ^ q.2.1.1 * ‖y‖ ^ q.2.1.2)) := by
    rw [summable_sigma_of_nonneg (fun q => by positivity)]
    refine ⟨fun N => (hasSum_fintype _).summable, ?_⟩
    have e : ∀ N : ℕ, tsum (fun p : Finset.antidiagonal N =>
        ((N.choose p.1.1 : ℝ) * ‖x‖ ^ p.1.1 * ‖y‖ ^ p.1.2)) = (‖x‖ + ‖y‖) ^ N := by
      intro N
      rw [tsum_fintype, Finset.sum_coe_sort (Finset.antidiagonal N)
        (fun p => (N.choose p.1 : ℝ) * ‖x‖ ^ p.1 * ‖y‖ ^ p.2), (Commute.all ‖x‖ ‖y‖).add_pow' N]
      refine Finset.sum_congr rfl (fun p _ => ?_)
      rw [nsmul_eq_mul, mul_assoc]
    simp only [e]
    exact summable_geometric_of_lt_one hr0 hxy
  have hF : Summable ((fun p : ℕ × ℕ => c (p.1 + p.2)
      * (((p.1 + p.2).choose p.1 : ℂ) * x ^ p.1 * y ^ p.2))
        ∘ (Finset.sigmaAntidiagonalEquivProd (A := ℕ))) := by
    refine Summable.of_norm_bounded _ ht (fun q => ?_)
    obtain ⟨N, p⟩ := q
    have hp := hmem N p
    simp only [Function.comp_apply, Finset.sigmaAntidiagonalEquivProd_apply, hp, norm_mul,
      norm_pow, Complex.norm_natCast]
    calc ‖c N‖ * ((N.choose p.1.1 : ℝ) * ‖x‖ ^ p.1.1 * ‖y‖ ^ p.1.2)
        ≤ 1 * ((N.choose p.1.1 : ℝ) * ‖x‖ ^ p.1.1 * ‖y‖ ^ p.1.2) :=
          mul_le_mul_of_nonneg_right (hc N) (by positivity)
      _ = (N.choose p.1.1 : ℝ) * ‖x‖ ^ p.1.1 * ‖y‖ ^ p.1.2 := one_mul _
  have h2 := HasSum.sigma hF.hasSum (fun N => hasSum_fintype _)
  have e2 : ∀ N : ℕ, ∑ p : Finset.antidiagonal N, ((fun p : ℕ × ℕ => c (p.1 + p.2)
      * (((p.1 + p.2).choose p.1 : ℂ) * x ^ p.1 * y ^ p.2))
        ∘ (Finset.sigmaAntidiagonalEquivProd (A := ℕ))) ⟨N, p⟩ = c N * (x + y) ^ N := by
    intro N
    rw [(Commute.all x y).add_pow' N, Finset.mul_sum,
      ← Finset.sum_coe_sort (Finset.antidiagonal N)
        (fun p => c N * (N.choose p.1 • (x ^ p.1 * y ^ p.2)))]
    refine Finset.sum_congr rfl (fun p _ => ?_)
    have hp := hmem N p
    simp only [Function.comp_apply, Finset.sigmaAntidiagonalEquivProd_apply, hp, nsmul_eq_mul,
      mul_assoc]
  simp only [e2] at h2
  rw [hs.unique h2]
  exact hF.hasSum

/-- Rectangular partial sums of a summable double family converge to its sum. -/
theorem tendsto_rectangle_sum (f : ℕ × ℕ → ℂ) (s : ℂ) (h : HasSum f s) (d : ℕ) :
    Filter.Tendsto (fun P : ℕ => ∑ n in Finset.range (P - d), ∑ k in Finset.range P, f (n, k))
      Filter.atTop (nhds s) := by
  have hm : Monotone (fun P : ℕ => Finset.range (P - d) ×ˢ Finset.range P) := by
    intro a b hab
    exact Finset.product_subset_product (Finset.range_mono (Nat.sub_le_sub_right hab d))
      (Finset.range_mono hab)
  have hx : ∀ p : ℕ × ℕ, ∃ P : ℕ, p ∈ Finset.range (P - d) ×ˢ Finset.range P := by
    intro p
    refine ⟨p.1 + p.2 + d + 1, ?_⟩
    rw [Finset.mem_product, Finset.mem_range, Finset.mem_range]
    omega
  have := h.comp (Filter.tendsto_atTop_finset_of_monotone hm hx)
  refine this.congr (fun P => ?_)
  rw [Function.comp_apply, Finset.sum_product]

/-- The truncated double series of the far-field force converges to `1 / (1 - (x + y))`. -/
theorem tendsto_force_series (x y : ℂ) (hxy : ‖x‖ + ‖y‖ < 1) :
    Filter.Tendsto (fun P : ℕ => ∑ m in Finset.range (P - 1), ∑ k in Finset.range P,
        ((m + k).choose m : ℂ) * x ^ m * y ^ k) Filter.atTop (nhds (1 - (x + y))⁻¹) := by
  have hn : ‖x + y‖ < 1 := lt_of_le_of_lt (norm_add_le x y) hxy
  have h := hasSum_binomial_family (fun _ => 1) (fun _ => by simp) x y _ hxy
    (by simpa using hasSum_geometric_of_norm_lt_one hn)
  have := tendsto_rectangle_sum _ _ h 1
  simpa using this

/-- The truncated double series of the far-field potential converges to
`-log (1 - (x + y))`. -/
theorem tendsto_potential_series (x y : ℂ) (hxy : ‖x‖ + ‖y‖ < 1) :
    Filter.Tendsto (fun P : ℕ => ∑ n in Finset.range P, ∑ k in Finset.range P,
        ((n + k : ℕ) : ℂ)⁻¹ * (((n + k).choose n : ℂ) * x ^ n * y ^ k)) Filter.atTop
      (nhds (-Complex.log (1 - (x + y)))) := by
  have hn : ‖x + y‖ < 1 := lt_of_le_of_lt (norm_add_le x y) hxy
  have hs : HasSum (fun N : ℕ => ((N : ℕ) : ℂ)⁻¹ * (x + y) ^ N) (-Complex.log (1 - (x + y))) := by
    have := Complex.hasSum_taylorSeries_neg_log hn
    simpa [div_eq_inv_mul] using this
  have hc : ∀ N : ℕ, ‖((N : ℕ) : ℂ)⁻¹‖ ≤ 1 := by
    intro N
    rw [norm_inv, Complex.norm_natCast]
    rcases Nat.eq_zero_or_pos N with h0 | h0
    · simp [h0]
    · exact inv_le_one_of_one_le₀ (by exact_mod_cast h0)
  have h := hasSum_binomial_family (fun N => ((N : ℕ) : ℂ)⁻¹) hc x y _ hxy hs
  have := tendsto_rectangle_sum _ _ h 0
  simpa using this

/-- A number of `complex_t ℝ` on the real axis, seen in the complex numbers of Mathlib. -/
theorem toComplex_real (r : ℝ) : toComplex ⟨r, 0 - 0⟩ = (r : ℂ) := by
  apply Complex.ext <;> simp [toComplex]

/-- The far-field force series in the complex numbers of Mathlib, as a binomial double
series. -/
theorem toComplex_far_force (P : ℕ) (Z a b : complex_t ℝ) :
    toComplex (far_force_series P Z a b)
      = -(toComplex Z)⁻¹ * ∑ m in Finset.range (P - 1), ∑ k in Finset.range P,
          ((m + k).choose m : ℂ) * (-toComplex b / toComplex Z) ^ m
            * (toComplex a / toComplex Z) ^ k := by
  unfold far_force_series
  rw [toComplex_sum_range, Finset.mul_sum]
  refine Finset.sum_congr rfl (fun m _ => ?_)
  rw [toComplex_sum_range, Finset.mul_sum]
  refine Finset.sum_congr rfl (fun k _ => ?_)
  have h1 : ((m.factorial : ℕ) : ℂ) ≠ 0 := Nat.cast_ne_zero.2 (Nat.factorial_ne_zero m)
  have h2 : ((k.factorial : ℕ) : ℂ) ≠ 0 := Nat.cast_ne_zero.2 (Nat.factorial_ne_zero k)
  have hC : (((m + k).choose m : ℕ) : ℂ)
      = ((m + k).factorial : ℂ) / ((m.factorial : ℂ) * (k.factorial : ℂ)) := by
    have e := Nat.add_choose_mul_factorial_mul_factorial m k
    rw [← Nat.choose_symm_add] at e
    rw [eq_div_iff (mul_ne_zero h1 h2), ← mul_assoc]
    exact_mod_cast e
  simp only [toComplex_mul, toComplex_pow, toComplex_div, toComplex_natCast, toComplex_neg,
    toComplex_one, toComplex_inv, hC]
  simp only [div_eq_mul_inv, mul_pow, neg_mul, mul_inv]
  ring

/-- The far-field potential series in the complex numbers of Mathlib, as a binomial double
series. -/
theorem toComplex_far_potential (clog : complex_t ℝ → complex_t ℝ) (P : ℕ)
    (Z a b : complex_t ℝ) :
    toComplex (far_potential_series clog P Z a b)
      = -toComplex (clog Z) + ∑ n in Finset.range P, ∑ k in Finset.range P,
          ((n + k : ℕ) : ℂ)⁻¹ * (((n + k).choose n : ℂ) * (-toComplex b / toComplex Z) ^ n
            * (toComplex a / toComplex Z) ^ k) := by
  unfold far_potential_series
  rw [toComplex_add, toComplex_neg, toComplex_sum_range]
  congr 1
  refine Finset.sum_congr rfl (fun n _ => ?_)
  rw [toComplex_sum_range]
  refine Finset.sum_congr rfl (fun k _ => ?_)
  by_cases h0 : n + k = 0
  · rw [if_pos h0, h0, Nat.cast_zero, inv_zero, zero_mul, toComplex_zero]
  · rw [if_neg h0]
    obtain ⟨j, hj⟩ : ∃ j, n + k = j + 1 := ⟨n + k - 1, by omega⟩
    have h1 : ((n.factorial : ℕ) : ℂ) ≠ 0 := Nat.cast_ne_zero.2 (Nat.factorial_ne_zero n)
    have h2 : ((k.factorial : ℕ) : ℂ) ≠ 0 := Nat.cast_ne_zero.2 (Nat.factorial_ne_zero k)
    have h3 : ((n + k : ℕ) : ℂ) ≠ 0 := Nat.cast_ne_zero.2 h0
    have hC : ((n + k : ℕ) : ℂ)⁻¹ * (((n + k).choose n : ℕ) : ℂ)
        = ((n + k - 1).factorial : ℂ) / ((n.factorial : ℂ) * (k.factorial : ℂ)) := by
      have e := Nat.add_choose_mul_factorial_mul_factorial n k
      rw [← Nat.choose_symm_add] at e
      have e0 : (n + k).factorial = (n + k) * (n + k - 1).factorial := by
        rw [hj, Nat.factorial_succ, Nat.add_sub_cancel]
      rw [e0] at e
      have e1 : (((n + k).choose n : ℕ) : ℂ) * (n.factorial : ℂ) * (k.factorial : ℂ)
          = ((n + k : ℕ) : ℂ) * ((n + k - 1).factorial : ℂ) := by exact_mod_cast e
      rw [eq_div_iff (mul_ne_zero h1 h2), mul_assoc, ← mul_assoc _ (n.factorial : ℂ), e1,
        ← mul_assoc, inv_mul_cancel₀ h3, one_mul]
    rw [← mul_assoc, ← mul_assoc, hC]
    simp only [toComplex_mul, toComplex_pow, toComplex_div, toComplex_natCast, toComplex_neg,
      toComplex_one, toComplex_inv]
    simp only [div_eq_mul_inv, mul_pow, neg_mul, mul_inv]
    ring

/-- Limits of the far-field series for a source offset `α`, a target offset `β` and a centre
separation `z` on the real axis with `|β| + |α| < |z|`: the real part of the potential series
tends to `-log |z + β - α|`, the force series to `-1 / (z + β - α)`. -/
theorem far_limits (clog : complex_t ℝ → complex_t ℝ) (z α β : ℝ)
    (hclog : (clog ⟨z, 0 - 0⟩).re = Real.log |z|) (hconv : |β| + |α| < |z|) :
    Filter.Tendsto (fun P : ℕ =>
        (far_potential_series clog P ⟨z, 0 - 0⟩ ⟨α, 0 - 0⟩ ⟨β, 0 - 0⟩).re)
      Filter.atTop (nhds (-Real.log |z + β - α|)) ∧
    Filter.Tendsto (fun P : ℕ => (far_force_series P ⟨z, 0 - 0⟩ ⟨α, 0 - 0⟩ ⟨β, 0 - 0⟩).re)
      Filter.atTop (nhds (-(z + β - α)⁻¹)) ∧
    Filter.Tendsto (fun P : ℕ => (far_force_series P ⟨z, 0 - 0⟩ ⟨α, 0 - 0⟩ ⟨β, 0 - 0⟩).im)
      Filter.atTop (nhds 0) := by
  have hz0 : 0 < |z| := lt_of_le_of_lt (add_nonneg (abs_nonneg β) (abs_nonneg α)) hconv
  have hz : z ≠ 0 := abs_pos.1 hz0
  have hx : ((-(β : ℂ)) / (z : ℂ)) = ((-β / z : ℝ) : ℂ) := by push_cast; ring
  have hy : ((α : ℂ) / (z : ℂ)) = ((α / z : ℝ) : ℂ) := by push_cast; ring
  have hxy : ‖((-β / z : ℝ) : ℂ)‖ + ‖((α / z : ℝ) : ℂ)‖ < 1 := by
    rw [Complex.norm_real, Complex.norm_real, Real.norm_eq_abs, Real.norm_eq_abs, abs_div,
      abs_div, abs_neg, ← add_div, div_lt_one hz0]
    exact hconv
  -- the ratio `r = (z + β - α) / z` is positive
  have hr : 0 < (z + β - α) / z := by
    have h1 : |(-β / z + α / z)| < 1 := by
      calc |(-β / z + α / z)| ≤ |(-β / z)| + |α / z| := abs_add _ _
        _ = (|β| + |α|) / |z| := by rw [abs_div, abs_div, abs_neg, ← add_div]
        _ < 1 := (div_lt_one hz0).2 hconv
    have h2 : (z + β - α) / z = 1 - (-β / z + α / z) := by
      field_simp
      ring
    rw [h2]
    linarith [(abs_lt.1 h1).2]
  have hsum : (1 : ℂ) - (((-β / z : ℝ) : ℂ) + ((α / z : ℝ) : ℂ))
      = (((z + β - α) / z : ℝ) : ℂ) := by
    have h2 : (z + β - α) / z = 1 - (-β / z + α / z) := by
      field_simp
      ring
    rw [h2]
    push_cast
    ring
  have hlog : Real.log |z| + Real.log ((z + β - α) / z) = Real.log |z + β - α| := by
    rw [← Real.log_mul (ne_of_gt hz0) (ne_of_gt hr)]
    congr 1
    have : |z + β - α| = |z| * |(z + β - α) / z| := by
      rw [abs_div, mul_div_cancel₀ _ (ne_of_gt hz0)]
    rw [this, abs_of_pos hr]
  -- potential
  have hp := tendsto_potential_series ((-β / z : ℝ) : ℂ) ((α / z : ℝ) : ℂ) hxy
  have hf := tendsto_force_series ((-β / z : ℝ) : ℂ) ((α / z : ℝ) : ℂ) hxy
  rw [hsum] at hp hf
  refine ⟨?_, ?_, ?_⟩
  · have e : ∀ P : ℕ, (far_potential_series clog P ⟨z, 0 - 0⟩ ⟨α, 0 - 0⟩ ⟨β, 0 - 0⟩).re
        = -(clog ⟨z, 0 - 0⟩).re + (∑ n in Finset.range P, ∑ k in Finset.range P,
          ((n + k : ℕ) : ℂ)⁻¹ * (((n + k).choose n : ℂ) * ((-β / z : ℝ) : ℂ) ^ n
            * ((α / z : ℝ) : ℂ) ^ k)).re := by
      intro P
      have := congrArg Complex.re
        (toComplex_far_potential clog P ⟨z, 0 - 0⟩ ⟨α, 0 - 0⟩ ⟨β, 0 - 0⟩)
      rw [toComplex_real, toComplex_real, toComplex_real, hx, hy] at this
      exact this
    simp only [e]
    have h3 := (Complex.continuous_re.tendsto _).comp hp
    have h4 := h3.const_add (-(clog ⟨z, 0 - 0⟩).re)
    have e2 : -(clog ⟨z, 0 - 0⟩).re + (-Complex.log (((z + β - α) / z : ℝ) : ℂ)).re
        = -Real.log |z + β - α| := by
      rw [Complex.neg_re, ← Complex.ofReal_log hr.le, Complex.ofReal_re, hclog, ← hlog]
      ring
    rw [e2] at h4
    exact h4
  · have e : ∀ P : ℕ, (far_force_series P ⟨z, 0 - 0⟩ ⟨α, 0 - 0⟩ ⟨β, 0 - 0⟩).re
        = (-((z : ℝ) : ℂ)⁻¹ * ∑ m in Finset.range (P - 1), ∑ k in Finset.range P,
          ((m + k).choose m : ℂ) * ((-β / z : ℝ) : ℂ) ^ m * ((α / z : ℝ) : ℂ) ^ k).re := by
      intro P
      have := congrArg Complex.re
        (toComplex_far_force P ⟨z, 0 - 0⟩ ⟨α, 0 - 0⟩ ⟨β, 0 - 0⟩)
      rw [toComplex_real, toComplex_real, toComplex_real, hx, hy] at this
      exact this
    simp only [e]
    have h3 := (Complex.continuous_re.tendsto _).comp (hf.const_mul (-((z : ℝ) : ℂ)⁻¹))
    have e2 : (-((z : ℝ) : ℂ)⁻¹ * (((z + β - α) / z : ℝ) : ℂ)⁻¹).re = -(z + β - α)⁻¹ := by
      rw [← Complex.ofReal_inv, ← Complex.ofReal_inv, ← Complex.ofReal_neg,
        ← Complex.ofReal_mul, Complex.ofReal_re, inv_div]
      field_simp
    rw [e2] at h3
    exact h3
  · have e : ∀ P : ℕ, (far_force_series P ⟨z, 0 - 0⟩ ⟨α, 0 - 0⟩ ⟨β, 0 - 0⟩).im
        = (-((z : ℝ) : ℂ)⁻¹ * ∑ m in Finset.range (P - 1), ∑ k in Finset.range P,
          ((m + k).choose m : ℂ) * ((-β / z : ℝ) : ℂ) ^ m * ((α / z : ℝ) : ℂ) ^ k).im := by
      intro P
      have := congrArg Complex.im
        (toComplex_far_force P ⟨z, 0 - 0⟩ ⟨α, 0 - 0⟩ ⟨β, 0 - 0⟩)
      rw [toComplex_real, toComplex_real, toComplex_real, hx, hy] at this
      exact this
    simp only [e]
    have h3 := (Complex.continuous_im.tendsto _).comp (hf.const_mul (-((z : ℝ) : ℂ)⁻¹))
    have e2 : (-((z : ℝ) : ℂ)⁻¹ * (((z + β - α) / z : ℝ) : ℂ)⁻¹).im = 0 := by
      rw [← Complex.ofReal_inv, ← Complex.ofReal_inv, ← Complex.ofReal_neg,
        ← Complex.ofReal_mul, Complex.ofReal_im]
    rw [e2] at h3
    exact h3

/-- Limit of the two reported errors when potential and force of the expansion result
converge. -/
theorem tendsto_reported (pf f1 f2 : ℕ → ℝ) (lp l1 l2 pd d1 d2 : ℝ)
    (hp : Filter.Tendsto pf Filter.atTop (nhds lp))
    (h1 : Filter.Tendsto f1 Filter.atTop (nhds l1))
    (h2 : Filter.Tendsto f2 Filter.atTop (nhds l2))
    (hlp : lp * lp ≠ 0) (hl : l1 * l1 + l2 * l2 ≠ 0) :
    Filter.Tendsto (fun P => Real.sqrt ((pf P - pd) * (pf P - pd) / (pf P * pf P)))
      Filter.atTop (nhds (Real.sqrt ((lp - pd) * (lp - pd) / (lp * lp)))) ∧
    Filter.Tendsto (fun P => Real.sqrt (((f1 P - d1) * (f1 P - d1) + (f2 P - d2) * (f2 P - d2))
        / (f1 P * f1 P + f2 P * f2 P)))
      Filter.atTop (nhds (Real.sqrt (((l1 - d1) * (l1 - d1) + (l2 - d2) * (l2 - d2))
        / (l1 * l1 + l2 * l2)))) := by
  constructor
  · exact (Real.continuous_sqrt.tendsto _).comp
      ((((hp.sub_const pd).mul (hp.sub_const pd))).div (hp.mul hp) hlp)
  · exact (Real.continuous_sqrt.tendsto _).comp
      (((((h1.sub_const d1).mul (h1.sub_const d1)).add
        ((h2.sub_const d2).mul (h2.sub_const d2)))).div ((h1.mul h1).add (h2.mul h2)) hl)

/-- The squared distance of the two bodies of `kernel.cxx` is 169, and its root is 13. -/
theorem sqrt_norm_bodies :
    Real.sqrt (norm ((-13 / 2 - 13 / 2 : ℝ), (0 - 0 : ℝ))) = 13 := by
  have : norm ((-13 / 2 - 13 / 2 : ℝ), (0 - 0 : ℝ)) = 13 ^ 2 := by norm_num [norm]
  rw [this, Real.sqrt_sq (by norm_num)]

set_option maxHeartbeats 1600000

/-- The two errors reported by `main`, as the order grows: with the weights `wJ`, `wJ2` of the
source body in its two cells and `wI`, `wI2` of the target body in its two cells, and
`c = wI (wJ + wJ2) + wI2 wJ + wJ2 wI2` not zero, `main` returns for every `P ≥ 2`, and both
errors tend to `|c - 1| / |c|`. -/
theorem main_tendsto (clog : complex_t ℝ → complex_t ℝ) (G : Globals ℝ) (wJ wJ2 wI wI2 : ℝ)
    (hc1 : (clog ⟨-8 - 8, 0 - 0⟩).re = Real.log |(-8 - 8 : ℝ)|)
    (hc2 : (clog ⟨-8 - 4, 0 - 0⟩).re = Real.log |(-8 - 4 : ℝ)|)
    (hc3 : (clog ⟨-4 - 8, 0 - 0⟩).re = Real.log |(-4 - 8 : ℝ)|)
    (hJ : weight G ⟨0, (13 / 2, 0), 1, 0, (0, 0)⟩ ⟨[], [], (8, 0), 2, [], []⟩ = some wJ)
    (hJ2 : weight G ⟨0, (13 / 2, 0), 1, 0, (0, 0)⟩ ⟨[], [], (4, 0), 2, [], []⟩ = some wJ2)
    (hI : weight G ⟨0, (-13 / 2, 0), 1, 0, (0, 0)⟩ ⟨[], [], (-8, 0), 2, [], []⟩ = some wI)
    (hI2 : weight G ⟨0, (-13 / 2, 0), 1, 0, (0, 0)⟩ ⟨[], [], (-4, 0), 2, [], []⟩ = some wI2)
    (hc : wI * (wJ + wJ2) + wI2 * wJ + wJ2 * wI2 ≠ 0) :
    ∃ e : ℕ → ℝ × ℝ,
      (∀ P, 2 ≤ P → main Real.sqrt Real.log clog { G with P := P } = some (e P)) ∧
      Filter.Tendsto (fun P => (e P).1) Filter.atTop
        (nhds (|wI * (wJ + wJ2) + wI2 * wJ + wJ2 * wI2 - 1|
          / |wI * (wJ + wJ2) + wI2 * wJ + wJ2 * wI2|)) ∧
      Filter.Tendsto (fun P => (e P).2) Filter.atTop
        (nhds (|wI * (wJ + wJ2) + wI2 * wJ + wJ2 * wI2 - 1|
          / |wI * (wJ + wJ2) + wI2 * wJ + wJ2 * wI2|)) := by
  have hL : Real.log 13 ≠ 0 := ne_of_gt (Real.log_pos (by norm_num))
  set c : ℝ := wI * (wJ + wJ2) + wI2 * wJ + wJ2 * wI2 with hcdef
  -- the three far-field interactions
  obtain ⟨hA1, hA2, hA3⟩ := far_limits clog (-8 - 8) (13 / 2 - 8) (-13 / 2 - -8) hc1 (by
    rw [abs_of_pos (by norm_num : (0 : ℝ) < -13 / 2 - -8),
      abs_of_neg (by norm_num : (13 / 2 - 8 : ℝ) < 0), abs_of_neg (by norm_num : (-8 - 8 : ℝ) < 0)]
    norm_num)
  obtain ⟨hB1, hB2, hB3⟩ := far_limits clog (-8 - 4) (13 / 2 - 4) (-13 / 2 - -8) hc2 (by
    rw [abs_of_pos (by norm_num : (0 : ℝ) < -13 / 2 - -8),
      abs_of_pos (by norm_num : (0 : ℝ) < 13 / 2 - 4), abs_of_neg (by norm_num : (-8 - 4 : ℝ) < 0)]
    norm_num)
  obtain ⟨hC1, hC2, hC3⟩ := far_limits clog (-4 - 8) (13 / 2 - 8) (-13 / 2 - -4) hc3 (by
    rw [abs_of_neg (by norm_num : (-13 / 2 - -4 : ℝ) < 0),
      abs_of_neg (by norm_num : (13 / 2 - 8 : ℝ) < 0), abs_of_neg (by norm_num : (-4 - 8 : ℝ) < 0)]
    norm_num)
  have eA : |(-8 - 8 : ℝ) + (-13 / 2 - -8) - (13 / 2 - 8)| = 13 := by
    rw [abs_of_neg (by norm_num)]; norm_num
  have eB : |(-8 - 4 : ℝ) + (-13 / 2 - -8) - (13 / 2 - 4)| = 13 := by
    rw [abs_of_neg (by norm_num)]; norm_num
  have eC : |(-4 - 8 : ℝ) + (-13 / 2 - -4) - (13 / 2 - 8)| = 13 := by
    rw [abs_of_neg (by norm_num)]; norm_num
  have fA : -((-8 - 8 : ℝ) + (-13 / 2 - -8) - (13 / 2 - 8))⁻¹ = 1 / 13 := by norm_num
  have fB : -((-8 - 4 : ℝ) + (-13 / 2 - -8) - (13 / 2 - 4))⁻¹ = 1 / 13 := by norm_num
  have fC : -((-4 - 8 : ℝ) + (-13 / 2 - -4) - (13 / 2 - 8))⁻¹ = 1 / 13 := by norm_num
  rw [eA] at hA1
  rw [eB] at hB1
  rw [eC] at hC1
  rw [fA] at hA2
  rw [fB] at hB2
  rw [fC] at hC2
  have hn : norm ((-13 / 2 - 13 / 2 : ℝ), (0 - 0 : ℝ)) = 169 := by norm_num [norm]
  have hpd : (1 : ℝ) * Real.log (1 / Real.sqrt (norm ((-13 / 2 - 13 / 2 : ℝ), (0 - 0 : ℝ))))
      = -Real.log 13 := by
    rw [sqrt_norm_bodies, one_mul, one_div, Real.log_inv]
  -- the expansion result
  have hpf := (((((hA1.const_mul (1 * wJ)).add (hB1.const_mul (1 * wJ2))).const_mul wI).const_add
    0).add ((hC1.const_mul (1 * wJ)).const_mul wI2)).add_const
    (1 * Real.log (1 / Real.sqrt (norm ((-13 / 2 - 13 / 2 : ℝ), (0 - 0 : ℝ)))) * wJ2 * wI2)
  have hf1 := (((((hA2.const_mul (1 * wJ)).add (hB2.const_mul (1 * wJ2))).const_mul wI).const_add
    0).add ((hC2.const_mul (1 * wJ)).const_mul wI2)).sub_const
    ((-13 / 2 - 13 / 2) * 1 / norm ((-13 / 2 - 13 / 2 : ℝ), (0 - 0 : ℝ)) * wJ2 * wI2)
  have hf2 := (((((hA3.const_mul (1 * wJ)).add (hB3.const_mul (1 * wJ2))).const_mul wI).const_sub
    0).sub ((hC3.const_mul (1 * wJ)).const_mul wI2)).sub_const
    ((0 - 0) * 1 / norm ((-13 / 2 - 13 / 2 : ℝ), (0 - 0 : ℝ)) * wJ2 * wI2)
  rw [hpd] at hpf
  rw [hn] at hf1 hf2
  have ep : 0 + wI * (1 * wJ * -Real.log 13 + 1 * wJ2 * -Real.log 13)
      + wI2 * (1 * wJ * -Real.log 13) + -Real.log 13 * wJ2 * wI2 = c * -Real.log 13 := by
    rw [hcdef]; ring
  have e1 : 0 + wI * (1 * wJ * (1 / 13) + 1 * wJ2 * (1 / 13)) + wI2 * (1 * wJ * (1 / 13))
      - (-13 / 2 - 13 / 2) * 1 / 169 * wJ2 * wI2 = c / 13 := by
    rw [hcdef]; ring
  have e2 : 0 - wI * (1 * wJ * 0 + 1 * wJ2 * 0) - wI2 * (1 * wJ * 0)
      - (0 - 0) * 1 / 169 * wJ2 * wI2 = (0 : ℝ) := by ring
  rw [ep] at hpf
  rw [e1] at hf1
  rw [e2] at hf2
  obtain ⟨tp, tF⟩ := tendsto_reported _ _ _ _ _ _ (0 + -Real.log 13)
    (0 - (-13 / 2 - 13 / 2) * 1 / 169) (0 - (0 - 0) * 1 / 169) hpf hf1 hf2
    (mul_ne_zero (mul_ne_zero hc (neg_ne_zero.2 hL)) (mul_ne_zero hc (neg_ne_zero.2 hL)))
    (by
      have : c / 13 ≠ 0 := div_ne_zero hc (by norm_num)
      have h2 : c / 13 * (c / 13) + 0 * 0 = (c / 13) ^ 2 := by ring
      rw [h2]
      exact pow_ne_zero 2 this)
  have lp : Real.sqrt ((c * -Real.log 13 - (0 + -Real.log 13))
      * (c * -Real.log 13 - (0 + -Real.log 13)) / (c * -Real.log 13 * (c * -Real.log 13)))
      = |c - 1| / |c| := by
    rw [← abs_div, ← Real.sqrt_sq_eq_abs]
    congr 1
    field_simp
    ring
  have lF : Real.sqrt (((c / 13 - (0 - (-13 / 2 - 13 / 2) * 1 / 169))
        * (c / 13 - (0 - (-13 / 2 - 13 / 2) * 1 / 169))
        + (0 - (0 - (0 - 0) * 1 / 169)) * (0 - (0 - (0 - 0) * 1 / 169)))
        / (c / 13 * (c / 13) + 0 * 0))
      = |c - 1| / |c| := by
    rw [← abs_div, ← Real.sqrt_sq_eq_abs]
    congr 1
    field_simp
    ring
  rw [lp] at tp
  rw [lF] at tF
  have key := fun (P : ℕ) (hP : 2 ≤ P) =>
    (main_eq Real.sqrt Real.log clog { G with P := P } wJ wJ2 wI wI2 hP
      ((weight_congr _ G _ _ _ _ rfl rfl rfl rfl rfl rfl).trans hJ)
      ((weight_congr _ G _ _ _ _ rfl rfl rfl rfl rfl rfl).trans hJ2)
      ((weight_congr _ G _ _ _ _ rfl rfl rfl rfl rfl rfl).trans hI)
      ((weight_congr _ G _ _ _ _ rfl rfl rfl rfl rfl rfl).trans hI2)).trans
      (main_verify_single Real.sqrt _ _)
  refine ⟨fun P => (main Real.sqrt Real.log clog { G with P := P }).getD (0, 0),
    fun P hP => ?_, ?_, ?_⟩
  · have h := key P hP
    simp only [h, Option.getD_some]
  · refine Filter.Tendsto.congr' ?_ tp
    filter_upwards [Filter.eventually_ge_atTop 2] with P hP
    have h := key P hP
    simp only [h, Option.getD_some, add_re, add_im, ofReal_mul_re, ofReal_mul_im, hpd]
  · refine Filter.Tendsto.congr' ?_ tF
    filter_upwards [Filter.eventually_ge_atTop 2] with P hP
    have h := key P hP
    simp only [h, Option.getD_some, add_re, add_im, ofReal_mul_re, ofReal_mul_im, hn]

/-- The weight of a body in a cell of `kernel.cxx` (radius 2, body on the centre line) for a
buffer `1/2 ≤ D ≤ 2`, whose clipped distance in `x` is `d` with `-D ≤ d ≤ D`, when the
outer-domain clause does not fire in `x`: the blend of `d / D`. -/
theorem weight_scene (G : Globals ℝ) (B : Body ℝ) (C : Cell ℝ) (d : ℝ) (hD : 0 < G.D)
    (hx : ¬ (G.R0 - |B.X.1 - G.X0.1| < G.D)) (hd : C.R - |B.X.1 - C.X.1| = d)
    (hd1 : -G.D ≤ d) (hd2 : d ≤ G.D) (hy : G.D ≤ C.R - |B.X.2 - C.X.2|) :
    weight G B C = some ((2 + 3 * (d / G.D) - d / G.D * (d / G.D) * (d / G.D)) / 4) := by
  have hD0 : G.D ≠ 0 := ne_of_gt hD
  rw [weight_eq G B C d G.D (by rw [if_neg hx, hd, min_eq_left hd2])
    (by rw [min_eq_right hy, ite_self]), if_pos (And.intro hd1 (by linarith)), div_self hD0]
  norm_num

/-- The real part of a complex logarithm on the real axis. -/
theorem clog_re_real (clog : complex_t ℝ → complex_t ℝ)
    (hclog : ∀ z : complex_t ℝ, z ≠ 0 →
      (clog z).re = Real.log (Real.sqrt (norm (z.re, z.im))))
    (r : ℝ) (hr : r ≠ 0) : (clog ⟨r, 0 - 0⟩).re = Real.log |r| := by
  rw [hclog ⟨r, 0 - 0⟩ (fun h => hr (by simpa using congrArg complex_t.re h))]
  simp only [norm, sub_zero, mul_zero, add_zero]
  rw [Real.sqrt_mul_self_eq_abs]

/-- The principal logarithm has real part `log |z|`. -/
theorem principal_log_re (z : complex_t ℝ) (_ : z ≠ 0) :
    ((fun z : complex_t ℝ => (⟨(Complex.log (toComplex z)).re,
      (Complex.log (toComplex z)).im⟩ : complex_t ℝ)) z).re
      = Real.log (Real.sqrt (norm (z.re, z.im))) := by
  simp only [Complex.log_re, Complex.abs_apply, Complex.normSq_apply, norm, toComplex]

/-! ## Part 3: the claims -/

section claims
variable {K : Type} [LinearOrderedField K]
open complex_t

/-! ### C1 -/

/-- C1, counterexample.  Target at `(2,0)`, source at the origin, so `r = 2` and the unit
separation vector is `(1,0)`.  With `q = 1` the force left by `P2PX` is `(-1/2, 0)`: it points
against the separation vector and is not `(q/r) * (1,0)`.  With `q = -1` the force is
`(1/2, 0)`: its magnitude `1/2` is not `q/r = -1/2`. -/
theorem P2PX_single_source_counterexample :
    ((P2PX Real.sqrt Real.log ⟨[], [⟨0, (2, 0), 1, 0, (0, 0)⟩], (2, 0), 1, [], []⟩
      ⟨[], [⟨1, (0, 0), 1, 0, (0, 0)⟩], (0, 0), 1, [], []⟩).BODY.map (fun B => B.F)
        = [(-(1 : ℝ) / 2, (0 : ℝ))] ∧
     (-(1 : ℝ) / 2, (0 : ℝ))
      ≠ ((1 : ℝ) / Real.sqrt (norm ((2 : ℝ) - 0, (0 : ℝ) - 0))
            * (((2 : ℝ) - 0) / Real.sqrt (norm ((2 : ℝ) - 0, (0 : ℝ) - 0))),
         (1 : ℝ) / Real.sqrt (norm ((2 : ℝ) - 0, (0 : ℝ) - 0))
            * (((0 : ℝ) - 0) / Real.sqrt (norm ((2 : ℝ) - 0, (0 : ℝ) - 0))))) ∧
    ((P2PX Real.sqrt Real.log ⟨[], [⟨0, (2, 0), 1, 0, (0, 0)⟩], (2, 0), 1, [], []⟩
      ⟨[], [⟨1, (0, 0), -1, 0, (0, 0)⟩], (0, 0), 1, [], []⟩).BODY.map (fun B => B.F)
        = [((1 : ℝ) / 2, (0 : ℝ))] ∧
     Real.sqrt (norm ((1 : ℝ) / 2, (0 : ℝ)))
      ≠ (-1 : ℝ) / Real.sqrt (norm ((2 : ℝ) - 0, (0 : ℝ) - 0))) := by
  have hn : norm ((2 : ℝ) - 0, (0 : ℝ) - 0) = 4 := by norm_num [norm]
  have h4 : (4 : ℝ) ≠ 0 := by norm_num
  refine ⟨⟨?_, ?_⟩, ?_, ?_⟩
  · simp only [P2PX, List.map_cons, List.map_nil, List.foldl_cons, List.foldl_nil, P2PX_source,
      hn, if_pos h4]
    norm_num
  · rw [hn, sqrt_four]
    intro h
    have h1 := congrArg Prod.fst h
    norm_num at h1
  · simp only [P2PX, List.map_cons, List.map_nil, List.foldl_cons, List.foldl_nil, P2PX_source,
      hn, if_pos h4]
    norm_num
  · rw [hn, sqrt_four]
    intro h
    have h1 : (0 : ℝ) ≤ Real.sqrt (norm ((1 : ℝ) / 2, (0 : ℝ))) := Real.sqrt_nonneg _
    rw [h] at h1
    norm_num at h1

/-- C1 as amended (P2PX single-source formula).  For one target body `Bi` with zero potential
and force and one source body `Bj` of charge `q` at a different position, at distance
`r = sqrt(norm(x_i - x_j)) > 0`, `P2PX` leaves the target with potential `-q*log(r)` and force
`-(q/r^2) * (x_i - x_j)`, whose magnitude is `|q|/r`. -/
theorem P2PX_single_source (Ci Cj : Cell ℝ) (Bi Bj : Body ℝ)
    (hi : Ci.BODY = [Bi]) (hj : Cj.BODY = [Bj]) (hne : Bi.X ≠ Bj.X)
    (hp : Bi.p = 0) (hF : Bi.F = (0, 0)) :
    0 < Real.sqrt (norm (Bi.X.1 - Bj.X.1, Bi.X.2 - Bj.X.2)) ∧
    P2PX Real.sqrt Real.log Ci Cj = { Ci with BODY := [{ Bi with
      p := -Bj.q * Real.log (Real.sqrt (norm (Bi.X.1 - Bj.X.1, Bi.X.2 - Bj.X.2)))
      F := (-(Bj.q / Real.sqrt (norm (Bi.X.1 - Bj.X.1, Bi.X.2 - Bj.X.2)) ^ 2)
              * (Bi.X.1 - Bj.X.1),
            -(Bj.q / Real.sqrt (norm (Bi.X.1 - Bj.X.1, Bi.X.2 - Bj.X.2)) ^ 2)
              * (Bi.X.2 - Bj.X.2)) }] } ∧
    Real.sqrt (norm
        (-(Bj.q / Real.sqrt (norm (Bi.X.1 - Bj.X.1, Bi.X.2 - Bj.X.2)) ^ 2) * (Bi.X.1 - Bj.X.1),
         -(Bj.q / Real.sqrt (norm (Bi.X.1 - Bj.X.1, Bi.X.2 - Bj.X.2)) ^ 2) * (Bi.X.2 - Bj.X.2)))
      = |Bj.q| / Real.sqrt (norm (Bi.X.1 - Bj.X.1, Bi.X.2 - Bj.X.2)) := by
  have hR2 : norm (Bi.X.1 - Bj.X.1, Bi.X.2 - Bj.X.2) ≠ 0 := (norm_sub_ne_zero_iff Bi.X Bj.X).2 hne
  have hR2pos : 0 < norm (Bi.X.1 - Bj.X.1, Bi.X.2 - Bj.X.2) :=
    lt_of_le_of_ne (norm_nonneg_real _) (Ne.symm hR2)
  have hr : 0 < Real.sqrt (norm (Bi.X.1 - Bj.X.1, Bi.X.2 - Bj.X.2)) := Real.sqrt_pos.2 hR2pos
  have hsq : Real.sqrt (norm (Bi.X.1 - Bj.X.1, Bi.X.2 - Bj.X.2)) ^ 2
      = norm (Bi.X.1 - Bj.X.1, Bi.X.2 - Bj.X.2) := Real.sq_sqrt hR2pos.le
  refine ⟨hr, ?_, ?_⟩
  · simp only [P2PX, hi, hj, List.map_cons, List.map_nil, List.foldl_cons, List.foldl_nil,
      P2PX_source, if_pos hR2, hp, hF, hsq, zero_add, zero_sub, one_div, Real.log_inv]
    rw [show Bj.q * -Real.log (Real.sqrt (norm (Bi.X.1 - Bj.X.1, Bi.X.2 - Bj.X.2)))
        = -Bj.q * Real.log (Real.sqrt (norm (Bi.X.1 - Bj.X.1, Bi.X.2 - Bj.X.2))) by ring,
      show -((Bi.X.1 - Bj.X.1) * Bj.q / norm (Bi.X.1 - Bj.X.1, Bi.X.2 - Bj.X.2))
        = -(Bj.q / norm (Bi.X.1 - Bj.X.1, Bi.X.2 - Bj.X.2)) * (Bi.X.1 - Bj.X.1) by ring,
      show -((Bi.X.2 - Bj.X.2) * Bj.q / norm (Bi.X.1 - Bj.X.1, Bi.X.2 - Bj.X.2))
        = -(Bj.q / norm (Bi.X.1 - Bj.X.1, Bi.X.2 - Bj.X.2)) * (Bi.X.2 - Bj.X.2) by ring]
  · rw [hsq]
    set R2 := norm (Bi.X.1 - Bj.X.1, Bi.X.2 - Bj.X.2) with hR2def
    have e1 : norm (-(Bj.q / R2) * (Bi.X.1 - Bj.X.1), -(Bj.q / R2) * (Bi.X.2 - Bj.X.2))
        = (|Bj.q| / Real.sqrt R2) ^ 2 := by
      rw [div_pow, Real.sq_sqrt hR2pos.le, sq_abs]
      have : norm (-(Bj.q / R2) * (Bi.X.1 - Bj.X.1), -(Bj.q / R2) * (Bi.X.2 - Bj.X.2))
          = (Bj.q / R2) ^ 2 * R2 := by
        rw [hR2def]
        simp only [norm]
        ring
      rw [this]
      field_simp
      ring
    rw [e1, Real.sqrt_sq (div_nonneg (abs_nonneg _) hr.le)]

/-- C1, instance of the amended statement: source charge `-1` at the origin, target at
`(2,0)`; the target ends with potential `log 2` and force `(1/2, 0)`. -/
theorem P2PX_single_source_witness :
    (⟨0, (2, 0), 1, 0, (0, 0)⟩ : Body ℝ).X ≠ (⟨1, (0, 0), -1, 0, (0, 0)⟩ : Body ℝ).X ∧
    (P2PX Real.sqrt Real.log ⟨[], [⟨0, (2, 0), 1, 0, (0, 0)⟩], (2, 0), 1, [], []⟩
      ⟨[], [⟨1, (0, 0), -1, 0, (0, 0)⟩], (0, 0), 1, [], []⟩).BODY.map (fun B => (B.p, B.F))
        = [(Real.log 2, ((1 : ℝ) / 2, (0 : ℝ)))] := by
  have hne : (⟨0, (2, 0), 1, 0, (0, 0)⟩ : Body ℝ).X ≠ (⟨1, (0, 0), -1, 0, (0, 0)⟩ : Body ℝ).X := by
    intro h
    have h1 := congrArg Prod.fst h
    norm_num at h1
  refine ⟨hne, ?_⟩
  have hn : norm ((2 : ℝ) - 0, (0 : ℝ) - 0) = 4 := by norm_num [norm]
  rw [(P2PX_single_source ⟨[], [⟨0, (2, 0), 1, 0, (0, 0)⟩], (2, 0), 1, [], []⟩
      ⟨[], [⟨1, (0, 0), -1, 0, (0, 0)⟩], (0, 0), 1, [], []⟩ ⟨0, (2, 0), 1, 0, (0, 0)⟩
      ⟨1, (0, 0), -1, 0, (0, 0)⟩ rfl rfl hne rfl rfl).2.1]
  simp only [List.map_cons, List.map_nil, hn, sqrt_four]
  norm_num

/-! ### C2 -/

/-- C2 (P2M closed form).  For `P ≥ 1`, a cell `C` whose multipole array has length `P` (any
prior contents) and whose bodies all pass the assertions of `weight` (`w B` being the weight of
`B` in `C`), `P2M` returns, and coefficient `n < P` becomes
`M[n] + Σ_B q_B * w_B * (z_B - z_C)^n / n!`; nothing else of the cell changes. -/
theorem P2M_closed_form (G : Globals K) (C : Cell K) (w : Body K → K)
    (hP : 1 ≤ G.P) (hM : C.M.length = G.P)
    (hw : ∀ B ∈ C.BODY, weight G B C = some (w B)) :
    P2M G C = some { C with M := ((List.range G.P).map fun n =>
      C.M.getD n 0 + (C.BODY.map fun B => ofReal (B.q * w B)
        * (⟨B.X.1 - C.X.1, B.X.2 - C.X.2⟩ : complex_t K) ^ n
        / (n.factorial : complex_t K)).sum) } :=
  P2M_eq G C w hP hM hw

/-- C2, instance: the source body of `kernel.cxx` in the cell `CJ` at order 3 with buffer 1;
its weight is `27/32` and the coefficients are `27/32 * (-3/2)^n / n!`. -/
theorem P2M_closed_form_witness :
    (∀ B ∈ exCJ.BODY, weight exG B exCJ = some (27/32)) ∧
    (P2M exG exCJ).map (fun C => C.M)
      = some [⟨27/32, 0⟩, ⟨-81/64, 0⟩, ⟨243/256, 0⟩] :=
  ⟨by decide!, by
    rw [P2M_closed_form exG exCJ (fun _ => 27/32) (by decide) rfl (by decide!)]
    decide!⟩

/-! ### C3 -/

/-- C3 (M2L order-0 term).  For `P ≥ 2`, arrays of length `P` and `Z = z_Ci - z_Cj ≠ 0`, `M2L`
returns and adds to `L[0]` exactly `-M[0]*log(Z) + M[1]/Z + Σ_{k=2}^{P-1} M[k]*(k-1)!/Z^k`,
for whatever function `clog` stands for the complex logarithm. -/
theorem M2L_order0 (clog : complex_t K → complex_t K) (G : Globals K) (Ci Cj : Cell K)
    (hP : 2 ≤ G.P) (hL : Ci.L.length = G.P) (hM : Cj.M.length = G.P)
    (_hZ : (⟨Ci.X.1 - Cj.X.1, Ci.X.2 - Cj.X.2⟩ : complex_t K) ≠ 0) :
    ∃ L1, M2L clog G Ci Cj = some { Ci with L := L1 } ∧ L1.length = G.P ∧
      L1.getD 0 0 = Ci.L.getD 0 0 +
        (-Cj.M.getD 0 0 * clog ⟨Ci.X.1 - Cj.X.1, Ci.X.2 - Cj.X.2⟩
          + Cj.M.getD 1 0 / (⟨Ci.X.1 - Cj.X.1, Ci.X.2 - Cj.X.2⟩ : complex_t K)
          + ∑ k in Finset.Ico 2 G.P, Cj.M.getD k 0 * ((k - 1).factorial : complex_t K)
              / (⟨Ci.X.1 - Cj.X.1, Ci.X.2 - Cj.X.2⟩ : complex_t K) ^ k) := by
  obtain ⟨L1, h1, hU⟩ := M2L_spec clog G Ci Cj hP hL hM
  refine ⟨L1, h1, hU.1.trans hL, ?_⟩
  rw [hU.2 0 (by omega)]
  have h2 : ¬ (0 = 1) := by omega
  have h3 : ¬ (2 ≤ 0) := by omega
  simp only [if_pos, if_neg h2, if_neg h3, add_zero]
  simp only [div_eq_mul_inv, inv_pow, mul_assoc]

/-- C3, instance: the cells `CI` and `CJ` of `kernel.cxx` (`Z = -16`) with sample arrays. -/
theorem M2L_order0_witness :
    ∃ L1, M2L (fun z => z) exG exCI exCJm = some { exCI with L := L1 } ∧
      L1.getD 0 0 = ⟨2177/128, -1/16⟩ :=
  let ⟨L1, h1, _, h2⟩ := M2L_order0 (fun z => z) exG exCI exCJm (by decide) rfl rfl (by decide!)
  ⟨L1, h1, h2.trans (by decide!)⟩

/-! ### C4 -/

/-- C4, counterexample.  At `P = 2`, `Z = 2`, `M = [0, 1]` and `L = [0, 0]`, `M2L` leaves
`L[1] = -1/4 = -M[1] * 1!/Z^2`, whereas `-M[0]/Z + Σ_{k=1}^{P-1} (-M[k] * k!/Z^k) = -1/2`.  (`M[0] = 0`, so the function put
in for the logarithm does not enter.) -/
theorem M2L_order1_counterexample :
    (M2L (fun z => z) (⟨2, 1, 16, (0, 0)⟩ : Globals ℚ) ⟨[], [], (2, 0), 1, [], [0, 0]⟩
      ⟨[], [], (0, 0), 1, [0, 1], []⟩).map (fun C => C.L.getD 1 0) = some ⟨-1/4, 0⟩ ∧
    (⟨-1/4, 0⟩ : complex_t ℚ) ≠ 0 + (-0 / ⟨2 - 0, 0 - 0⟩
      + ∑ k in Finset.Ico 1 2, -([0, 1] : List (complex_t ℚ)).getD k 0
          * (k.factorial : complex_t ℚ) / (⟨2 - 0, 0 - 0⟩ : complex_t ℚ) ^ k) := by
  decide!

/-- C4 as amended (M2L order-1 term).  For `P ≥ 2`, arrays of length `P` and `Z ≠ 0`, `M2L`
returns and adds to `L[1]` exactly `-M[0]/Z + Σ_{k=1}^{P-1} (-M[k] * k! / Z^(k+1))`: the power
of `Z` under `M[k]` is `k+1`. -/
theorem M2L_order1 (clog : complex_t K → complex_t K) (G : Globals K) (Ci Cj : Cell K)
    (hP : 2 ≤ G.P) (hL : Ci.L.length = G.P) (hM : Cj.M.length = G.P)
    (_hZ : (⟨Ci.X.1 - Cj.X.1, Ci.X.2 - Cj.X.2⟩ : complex_t K) ≠ 0) :
    ∃ L1, M2L clog G Ci Cj = some { Ci with L := L1 } ∧ L1.length = G.P ∧
      L1.getD 1 0 = Ci.L.getD 1 0 +
        (-Cj.M.getD 0 0 / (⟨Ci.X.1 - Cj.X.1, Ci.X.2 - Cj.X.2⟩ : complex_t K)
          + ∑ k in Finset.Ico 1 G.P, -Cj.M.getD k 0 * (k.factorial : complex_t K)
              / (⟨Ci.X.1 - Cj.X.1, Ci.X.2 - Cj.X.2⟩ : complex_t K) ^ (k + 1)) := by
  obtain ⟨L1, h1, hU⟩ := M2L_spec clog G Ci Cj hP hL hM
  refine ⟨L1, h1, hU.1.trans hL, ?_⟩
  rw [hU.2 1 (by omega)]
  have h2 : ¬ (1 = 0) := by omega
  have h3 : ¬ (2 ≤ 1) := by omega
  simp only [if_pos, if_neg h2, if_neg h3, add_zero, zero_add]
  simp only [div_eq_mul_inv, inv_pow, mul_assoc]

/-- C4, instance of the amended statement, on the cells `CI` and `CJ` of `kernel.cxx`. -/
theorem M2L_order1_witness :
    ∃ L1, M2L (fun z => z) exG exCI exCJm = some { exCI with L := L1 } ∧
      L1.getD 1 0 = ⟨65/1024, 255/256⟩ :=
  let ⟨L1, h1, _, h2⟩ := M2L_order1 (fun z => z) exG exCI exCJm (by decide) rfl rfl (by decide!)
  ⟨L1, h1, h2.trans (by decide!)⟩

/-! ### C5 -/

/-- C5 (M2L higher-order terms).  For `P ≥ 3`, `2 ≤ n < P`, arrays of length `P` and `Z ≠ 0`,
`M2L` returns and adds to `L[n]` exactly `(-1)^n * Σ_{k=0}^{P-1} M[k] * (n+k-1)! / Z^(n+k)`;
this increment is the `n`-th derivative at `Z` of the truncated multipole potential
`-M[0]*log(W) + Σ_{k=1}^{P-1} M[k]*(k-1)!/W^k`, where `log` is any function with derivative
`1/W` near `Z` (the principal logarithm when `Z` is off the negative real axis). -/
theorem M2L_higher_order (clog : complex_t ℝ → complex_t ℝ) (G : Globals ℝ) (Ci Cj : Cell ℝ)
    (n : ℕ) (hP : 3 ≤ G.P) (hn : 2 ≤ n) (hnP : n < G.P)
    (hL : Ci.L.length = G.P) (hM : Cj.M.length = G.P)
    (hZ : (⟨Ci.X.1 - Cj.X.1, Ci.X.2 - Cj.X.2⟩ : complex_t ℝ) ≠ 0) :
    ∃ L1, M2L clog G Ci Cj = some { Ci with L := L1 } ∧ L1.length = G.P ∧
      L1.getD n 0 = Ci.L.getD n 0 +
        (-1) ^ n * ∑ k in Finset.range G.P, Cj.M.getD k 0 * ((n + k - 1).factorial : complex_t ℝ)
              / (⟨Ci.X.1 - Cj.X.1, Ci.X.2 - Cj.X.2⟩ : complex_t ℝ) ^ (n + k) ∧
      ∀ ℓ : ℂ → ℂ,
        (∀ᶠ W in nhds (toComplex ⟨Ci.X.1 - Cj.X.1, Ci.X.2 - Cj.X.2⟩), HasDerivAt ℓ W⁻¹ W) →
        iteratedDeriv n (fun W => -toComplex (Cj.M.getD 0 0) * ℓ W
            + ∑ k in Finset.Ico 1 G.P, toComplex (Cj.M.getD k 0) * ((k - 1).factorial : ℂ) / W ^ k)
          (toComplex ⟨Ci.X.1 - Cj.X.1, Ci.X.2 - Cj.X.2⟩)
        = toComplex (L1.getD n 0 - Ci.L.getD n 0) := by
  obtain ⟨L1, h1, hU⟩ := M2L_spec clog G Ci Cj (by omega) hL hM
  have hval : L1.getD n 0 = Ci.L.getD n 0 +
        (-1) ^ n * ∑ k in Finset.range G.P, Cj.M.getD k 0 * ((n + k - 1).factorial : complex_t ℝ)
              / (⟨Ci.X.1 - Cj.X.1, Ci.X.2 - Cj.X.2⟩ : complex_t ℝ) ^ (n + k) := by
    rw [hU.2 n (by omega)]
    have h2 : ¬ (n = 0) := by omega
    have h3 : ¬ (n = 1) := by omega
    simp only [if_neg h2, if_neg h3, if_pos hn, add_zero, zero_add]
    congr 1
    rw [Finset.mul_sum, Finset.range_eq_Ico]
    refine Finset.sum_congr rfl (fun k _ => ?_)
    rw [inv_pow, div_eq_mul_inv]
    ring
  refine ⟨L1, h1, hU.1.trans hL, hval, fun ℓ hℓ => ?_⟩
  have hZ1 : toComplex ⟨Ci.X.1 - Cj.X.1, Ci.X.2 - Cj.X.2⟩ ≠ 0 :=
    fun h => hZ (toComplex_eq_zero h)
  rw [iteratedDeriv_potential (fun k => toComplex (Cj.M.getD k 0)) G.P (by omega) ℓ _ hZ1 hℓ n
    (by omega), hval, add_sub_cancel_left, toComplex_mul, toComplex_pow, toComplex_neg,
    toComplex_one, toComplex_sum_range]
  congr 1
  refine Finset.sum_congr rfl (fun k _ => ?_)
  rw [toComplex_div, toComplex_mul, toComplex_pow, toComplex_natCast]

/-- C5, instance at `P = 3`, `n = 2`: cells at `(8,0)` and `(-8,0)`, so `Z = 16` lies off the
negative real axis and the principal logarithm qualifies as `log`. -/
theorem M2L_higher_order_witness :
    ∃ L1, M2L (fun z => z) (⟨3, 1, 16, (0, 0)⟩ : Globals ℝ)
        ⟨[], [], (8, 0), 2, [], [0, 0, 0]⟩ ⟨[], [], (-8, 0), 2, [1, 0, 1], []⟩
          = some { (⟨[], [], (8, 0), 2, [], [0, 0, 0]⟩ : Cell ℝ) with L := L1 } ∧
      iteratedDeriv 2 (fun W => -toComplex (([1, 0, 1] : List (complex_t ℝ)).getD 0 0)
            * Complex.log W
          + ∑ k in Finset.Ico 1 3, toComplex (([1, 0, 1] : List (complex_t ℝ)).getD k 0)
              * ((k - 1).factorial : ℂ) / W ^ k)
        (toComplex ⟨8 - -8, 0 - 0⟩) = toComplex (L1.getD 2 0 - 0) := by
  have hZ : (⟨(8 : ℝ) - -8, (0 : ℝ) - 0⟩ : complex_t ℝ) ≠ 0 := by
    intro h
    have h1 := congrArg complex_t.re h
    norm_num at h1
  have hs : toComplex ⟨(8 : ℝ) - -8, (0 : ℝ) - 0⟩ ∈ Complex.slitPlane := by
    left
    show (0 : ℝ) < 8 - -8
    norm_num
  obtain ⟨L1, h1, _, _, h2⟩ := M2L_higher_order (fun z => z) (⟨3, 1, 16, (0, 0)⟩ : Globals ℝ)
    ⟨[], [], (8, 0), 2, [], [0, 0, 0]⟩ ⟨[], [], (-8, 0), 2, [1, 0, 1], []⟩ 2
    (le_refl 3) (le_refl 2) (by norm_num) rfl rfl hZ
  exact ⟨L1, h1, h2 Complex.log (log_local_branch _ hs)⟩

/-! ### C6 -/

/-- C6 (L2P closed form).  For `P ≥ 2`, a cell `C` with local array of length `P` whose bodies
pass the assertions of `weight` (`w B` the weight of `B` in `C`), `L2P` returns, and for each
body with offset `Z = z_B - z_C` it adds `w * Re(Σ_{n<P} L[n] Z^n/n!)` to the potential, adds
`w * Re(Σ_{m≤P-2} L[m+1] Z^m/m!)` to `F[0]` and subtracts `w * Im(Σ_{m≤P-2} L[m+1] Z^m/m!)`
from `F[1]`. -/
theorem L2P_closed_form (G : Globals K) (C : Cell K) (w : Body K → K)
    (hP : 2 ≤ G.P) (hL : C.L.length = G.P) (hw : ∀ B ∈ C.BODY, weight G B C = some (w B)) :
    L2P G C = some { C with BODY := C.BODY.map fun B => { B with
      p := B.p + w B * (∑ n in Finset.range G.P, C.L.getD n 0
        * (⟨B.X.1 - C.X.1, B.X.2 - C.X.2⟩ : complex_t K) ^ n / (n.factorial : complex_t K)).re
      F := (B.F.1 + w B * (∑ m in Finset.range (G.P - 1), C.L.getD (m + 1) 0
          * (⟨B.X.1 - C.X.1, B.X.2 - C.X.2⟩ : complex_t K) ^ m / (m.factorial : complex_t K)).re,
        B.F.2 - w B * (∑ m in Finset.range (G.P - 1), C.L.getD (m + 1) 0
          * (⟨B.X.1 - C.X.1, B.X.2 - C.X.2⟩ : complex_t K) ^ m
          / (m.factorial : complex_t K)).im) } } :=
  L2P_spec G C w hP hL hw

/-- C6, instance: the target body of `kernel.cxx` in the cell `CI` with a sample local array. -/
theorem L2P_closed_form_witness :
    (∀ B ∈ exCI.BODY, weight exG B exCI = some (27/32)) ∧
    (L2P exG exCI).map (fun C => C.BODY.map fun B => (B.p, B.F))
      = some [(351/128, (81/32, -27/32))] :=
  ⟨by decide!, by
    rw [L2P_closed_form exG exCI (fun _ => 27/32) (by decide) rfl (by decide!)]
    decide!⟩

/-! ### C7 -/

/-- C7 (M2M closed form).  For a parent cell `Ci` and children with multipole arrays of
length `P`, `M2M` returns, and parent coefficient `k < P` becomes
`M[k] + Σ_children Σ_{n=0}^{k} M_c[k-n] * Z_c^n / n!` with `Z_c` the child centre minus the
parent centre; nothing else of the parent changes. -/
theorem M2M_closed_form (G : Globals K) (Ci : Cell K)
    (hM : Ci.M.length = G.P) (hc : ∀ Cj ∈ Ci.CHILD, Cj.M.length = G.P) :
    M2M G Ci = some { Ci with M := ((List.range G.P).map fun k =>
      Ci.M.getD k 0 + (Ci.CHILD.map fun Cj =>
        ∑ n in Finset.range (k + 1), Cj.M.getD (k - n) 0
          * (⟨Cj.X.1 - Ci.X.1, Cj.X.2 - Ci.X.2⟩ : complex_t K) ^ n
          / (n.factorial : complex_t K)).sum) } :=
  M2M_eq G Ci hM hc

/-- C7, instance: a parent at `(6,0)` over the cells `CJ` and `CJ2` of `kernel.cxx`. -/
theorem M2M_closed_form_witness :
    (∀ Cj ∈ exCP.CHILD, Cj.M.length = exG.P) ∧
    (M2M exG exCP).map (fun C => C.M) = some [⟨1, 0⟩, ⟨2, 1⟩, ⟨4, 2⟩] :=
  ⟨by decide!, by
    rw [M2M_closed_form exG exCP rfl (by decide!)]
    decide!⟩

/-! ### C8 -/

/-- C8 (L2L closed form).  For a parent cell `Cj` and children with local arrays of length
`P`, `L2L` returns the parent with every child coefficient `l < P` replaced by
`L_child[l] + Σ_{k=0}^{P-1-l} L_parent[l+k] * Z^k / k!`, `Z` the child centre minus the parent
centre; the parent's own arrays are unchanged. -/
theorem L2L_closed_form (G : Globals K) (Cj : Cell K)
    (hL : Cj.L.length = G.P) (hc : ∀ Ci ∈ Cj.CHILD, Ci.L.length = G.P) :
    L2L G Cj = some { Cj with CHILD := Cj.CHILD.map fun Ci =>
      { Ci with L := ((List.range G.P).map fun l =>
        Ci.L.getD l 0 + ∑ k in Finset.range (G.P - l), Cj.L.getD (l + k) 0
          * (⟨Ci.X.1 - Cj.X.1, Ci.X.2 - Cj.X.2⟩ : complex_t K) ^ k
          / (k.factorial : complex_t K)) } } :=
  L2L_spec G Cj hL hc

/-- C8, instance: a parent at `(6,0)` with local array `[1, i, 2]` over a child at `(7,1)`. -/
theorem L2L_closed_form_witness :
    (∀ Ci ∈ exCP2.CHILD, Ci.L.length = exG.P) ∧
    (L2L exG exCP2).map (fun C => (C.L, C.CHILD.map fun c => c.L))
      = some ([⟨1, 0⟩, ⟨0, 1⟩, ⟨2, 0⟩], [[⟨1, 3⟩, ⟨2, 3⟩, ⟨2, 0⟩]]) :=
  ⟨by decide!, by
    rw [L2L_closed_form exG exCP2 rfl (by decide!)]
    decide!⟩

/-! ### C9 -/

/-- C9 (weighted P2P closed form).  When every target body passes the assertions of `weight` in
`Ci` (weight `wi`) and every source body in `Cj` (weight `wj`), `P2P` returns, adds to each
target body `w_i * Σ_{j : x_j ≠ x_i} w_j * q_j * log(1/|x_i - x_j|)` and subtracts from its force
`w_i * Σ_{j : x_j ≠ x_i} w_j * q_j * (x_i - x_j)/|x_i - x_j|^2`, with `|v| = sqrt(norm v)`. -/
theorem P2P_closed_form (G : Globals ℝ) (Ci Cj : Cell ℝ) (wi wj : Body ℝ → ℝ)
    (hwi : ∀ B ∈ Ci.BODY, weight G B Ci = some (wi B))
    (hwj : ∀ B ∈ Cj.BODY, weight G B Cj = some (wj B)) :
    P2P Real.sqrt Real.log G Ci Cj = some { Ci with BODY := Ci.BODY.map fun Bi => { Bi with
      p := Bi.p + wi Bi * ((Cj.BODY.filter fun Bj => decide (Bj.X ≠ Bi.X)).map fun Bj =>
          wj Bj * Bj.q
            * Real.log (1 / Real.sqrt (norm (Bi.X.1 - Bj.X.1, Bi.X.2 - Bj.X.2)))).sum
      F := (Bi.F.1 - wi Bi * ((Cj.BODY.filter fun Bj => decide (Bj.X ≠ Bi.X)).map fun Bj =>
          wj Bj * Bj.q * ((Bi.X.1 - Bj.X.1)
            / Real.sqrt (norm (Bi.X.1 - Bj.X.1, Bi.X.2 - Bj.X.2)) ^ 2)).sum,
        Bi.F.2 - wi Bi * ((Cj.BODY.filter fun Bj => decide (Bj.X ≠ Bi.X)).map fun Bj =>
          wj Bj * Bj.q * ((Bi.X.2 - Bj.X.2)
            / Real.sqrt (norm (Bi.X.1 - Bj.X.1, Bi.X.2 - Bj.X.2)) ^ 2)).sum) } } := by
  rw [P2P_spec Real.sqrt Real.log G Ci Cj wi wj hwi hwj]
  have hf : ∀ Bi : Body ℝ, (Cj.BODY.filter fun Bj => decide (Bi.X ≠ Bj.X))
      = Cj.BODY.filter fun Bj => decide (Bj.X ≠ Bi.X) := fun Bi =>
    List.filter_congr (fun Bj _ => by simp only [ne_comm])
  have hs : ∀ X : ℝ × ℝ, Real.sqrt (norm X) ^ 2 = norm X := fun X =>
    Real.sq_sqrt (norm_nonneg_real X)
  congr 2
  refine List.map_congr_left (fun Bi _ => ?_)
  simp only [hf, hs]
  congr 1
  · rw [mul_comm (wi Bi)]
    congr 3
    exact List.map_congr_left (fun Bj _ => by ring)
  · refine Prod.ext ?_ ?_
    · simp only
      rw [mul_comm (wi Bi)]
      congr 3
      exact List.map_congr_left (fun Bj _ => by ring)
    · simp only
      rw [mul_comm (wi Bi)]
      congr 3
      exact List.map_congr_left (fun Bj _ => by ring)

/-- C9, instance: one target at `(2,0)` and one source of charge `-1` at the origin, both of
weight 1 in their cells. -/
theorem P2P_closed_form_witness :
    (∀ B ∈ [(⟨0, (2, 0), 1, 0, (0, 0)⟩ : Body ℝ)],
      weight ⟨2, 1, 16, (0, 0)⟩ B ⟨[], [⟨0, (2, 0), 1, 0, (0, 0)⟩], (2, 0), 2, [], []⟩ = some 1) ∧
    (P2P Real.sqrt Real.log ⟨2, 1, 16, (0, 0)⟩
      ⟨[], [⟨0, (2, 0), 1, 0, (0, 0)⟩], (2, 0), 2, [], []⟩
      ⟨[], [⟨1, (0, 0), -1, 0, (0, 0)⟩], (0, 0), 2, [], []⟩).map
        (fun C => C.BODY.map (fun B => (B.p, B.F)))
      = some [(Real.log 2, ((1 : ℝ) / 2, (0 : ℝ)))] := by
  have hwi : ∀ B ∈ [(⟨0, (2, 0), 1, 0, (0, 0)⟩ : Body ℝ)],
      weight ⟨2, 1, 16, (0, 0)⟩ B ⟨[], [⟨0, (2, 0), 1, 0, (0, 0)⟩], (2, 0), 2, [], []⟩
        = some ((fun _ => 1) B) := by
    intro B hB
    rw [List.mem_singleton] at hB
    subst hB
    norm_num [weight]
  have hwj : ∀ B ∈ [(⟨1, (0, 0), -1, 0, (0, 0)⟩ : Body ℝ)],
      weight ⟨2, 1, 16, (0, 0)⟩ B ⟨[], [⟨1, (0, 0), -1, 0, (0, 0)⟩], (0, 0), 2, [], []⟩
        = some ((fun _ => 1) B) := by
    intro B hB
    rw [List.mem_singleton] at hB
    subst hB
    norm_num [weight]
  refine ⟨hwi, ?_⟩
  rw [P2P_closed_form ⟨2, 1, 16, (0, 0)⟩ ⟨[], [⟨0, (2, 0), 1, 0, (0, 0)⟩], (2, 0), 2, [], []⟩
      ⟨[], [⟨1, (0, 0), -1, 0, (0, 0)⟩], (0, 0), 2, [], []⟩ (fun _ => 1) (fun _ => 1) hwi hwj]
  have hn : norm ((2 : ℝ) - 0, (0 : ℝ) - 0) = 4 := by norm_num [norm]
  have hne : ((0 : ℝ), (0 : ℝ)) ≠ (2, 0) := by
    intro h
    have h1 := congrArg Prod.fst h
    norm_num at h1
  simp only [Option.map_some', List.map_cons, List.map_nil, List.filter_cons, List.filter_nil,
    decide_eq_true hne, if_true, List.sum_cons, List.sum_nil, hn, sqrt_four, one_div,
    Real.log_inv]
  norm_num

/-! ### C10 -/

/-- C10 (M2M translation invariance).  For `P ≥ 1` and one body `B` whose weight is the same
`w` in the cell `CB` and in the cell `CA`, both with zero multipole arrays of length `P`:
`P2M` about `CB` followed by `M2M` into `CA` with that cell as only child gives the same
multipole array as `P2M` directly about `CA`. -/
theorem M2M_translation_invariance (G : Globals K) (B : Body K) (CA CB : Cell K) (w : K)
    (hP : 1 ≤ G.P) (hA : CA.BODY = [B]) (hB : CB.BODY = [B])
    (hMA : CA.M = List.replicate G.P 0) (hMB : CB.M = List.replicate G.P 0)
    (hwA : weight G B CA = some w) (hwB : weight G B CB = some w) :
    ∃ CB1 CP1 CA1, P2M G CB = some CB1 ∧ M2M G { CA with CHILD := [CB1] } = some CP1 ∧
      P2M G CA = some CA1 ∧ CP1.M = CA1.M ∧ CA1.M.length = G.P := by
  have h1 := P2M_eq G CB (fun _ => w) hP (by rw [hMB, List.length_replicate])
    (fun B1 hB1 => by
      rw [hB, List.mem_singleton] at hB1
      rw [hB1]; exact hwB)
  have h2 := P2M_eq G CA (fun _ => w) hP (by rw [hMA, List.length_replicate])
    (fun B1 hB1 => by
      rw [hA, List.mem_singleton] at hB1
      rw [hB1]; exact hwA)
  have h3 := M2M_eq G { CA with CHILD := [{ CB with M := ((List.range G.P).map fun n =>
      CB.M.getD n 0 + (CB.BODY.map fun B => ofReal (B.q * w)
        * (⟨B.X.1 - CB.X.1, B.X.2 - CB.X.2⟩ : complex_t K) ^ n
        / (n.factorial : complex_t K)).sum) }] }
    (by simp only; rw [hMA, List.length_replicate])
    (fun Cj hCj => by
      simp only [List.mem_singleton] at hCj
      rw [hCj]
      simp)
  refine ⟨_, _, _, h1, h3, h2, ?_, by simp⟩
  simp only [hA, hB, hMA, hMB, List.map_cons, List.map_nil, List.sum_cons, List.sum_nil,
    add_zero, getD_replicate_zero, zero_add]
  refine List.map_congr_left (fun k hk => ?_)
  have hk1 : k < G.P := List.mem_range.1 hk
  rw [mk_sub_add B.X CB.X CA.X, mul_div_assoc, ← add_pow_div_factorial, Finset.mul_sum]
  refine Finset.sum_congr rfl (fun n hn => ?_)
  have hn1 : n < k + 1 := Finset.mem_range.1 hn
  rw [getD_map_range _ _ _ (by omega)]
  ring

/-- C10, instance: the source body of `kernel.cxx`, expanded about `(7,0)` and shifted to
`(8,0)`, against its expansion about `(8,0)`; the weight is 1 in both cells. -/
theorem M2M_translation_invariance_witness :
    weight exG4 exBj exCJ = some 1 ∧ weight exG4 exBj exCB = some 1 ∧
    ∃ CB1 CP1 CA1, P2M exG4 exCB = some CB1 ∧
      M2M exG4 { exCJ with CHILD := [CB1] } = some CP1 ∧
      P2M exG4 exCJ = some CA1 ∧ CP1.M = CA1.M ∧ CA1.M.length = exG4.P :=
  ⟨by decide!, by decide!,
    M2M_translation_invariance exG4 exBj exCJ exCB 1 (by decide) rfl rfl rfl rfl
      (by decide!) (by decide!)⟩

/-! ### C11 -/

/-- C11 (weighted and unweighted direct kernels agree in the interior).  For `D > 0` and cells
`Ci`, `Cj` whose bodies all lie farther than `D` inside every edge of their own cell, `P2P`
returns exactly the cell that `P2PX` returns from the same body state. -/
theorem P2P_eq_P2PX_interior (sqrt log : K → K) (G : Globals K) (Ci Cj : Cell K)
    (hD : 0 < G.D)
    (hi : ∀ B ∈ Ci.BODY, G.D < Ci.R - |B.X.1 - Ci.X.1| ∧ G.D < Ci.R - |B.X.2 - Ci.X.2|)
    (hj : ∀ B ∈ Cj.BODY, G.D < Cj.R - |B.X.1 - Cj.X.1| ∧ G.D < Cj.R - |B.X.2 - Cj.X.2|) :
    P2P sqrt log G Ci Cj = some (P2PX sqrt log Ci Cj) := by
  rw [P2P_spec sqrt log G Ci Cj (fun _ => 1) (fun _ => 1)
    (fun B hB => weight_interior G B Ci hD (hi B hB).1.le (hi B hB).2.le)
    (fun B hB => weight_interior G B Cj hD (hj B hB).1.le (hj B hB).2.le), P2PX_eq]
  simp only [mul_one]

/-- C11, instance: a target at the centre of the cell `CI` and the source body of `kernel.cxx`
in the cell `CJ` of `kernel.cxx`, with buffer size 1/4. -/
theorem P2P_eq_P2PX_interior_witness :
    P2P (fun x => x) (fun x => x) exG4 ⟨[], [⟨0, (-8, 0), 1, 0, (0, 0)⟩], (-8, 0), 2, [], []⟩ exCJ
      = some (P2PX (fun x => x) (fun x => x)
          ⟨[], [⟨0, (-8, 0), 1, 0, (0, 0)⟩], (-8, 0), 2, [], []⟩ exCJ) :=
  P2P_eq_P2PX_interior (fun x => x) (fun x => x) exG4
    ⟨[], [⟨0, (-8, 0), 1, 0, (0, 0)⟩], (-8, 0), 2, [], []⟩ exCJ (by decide!) (by decide!)
    (by decide!)

/-! ### C12 -/

/-- C12 (coincident bodies contribute zero).  A target body whose position every source body
of `Cj` shares is returned unchanged by `P2PX`, and by `P2P` when the assertions of `weight`
pass; and a source body at the target's position can be removed from the source cell without
changing what `P2PX` and `P2P` return for that target. -/
theorem coincident_source_contributes_zero (sqrt log : K → K) (G : Globals K)
    (Ci Cj : Cell K) :
    (∀ (i : Nat) (Bi : Body K), Ci.BODY[i]? = some Bi → (∀ Bj ∈ Cj.BODY, Bj.X = Bi.X) →
      (P2PX sqrt log Ci Cj).BODY[i]? = some Bi) ∧
    ((∀ B ∈ Ci.BODY, (weight G B Ci).isSome) → (∀ B ∈ Cj.BODY, (weight G B Cj).isSome) →
      ∃ C1, P2P sqrt log G Ci Cj = some C1 ∧
        ∀ (i : Nat) (Bi : Body K), Ci.BODY[i]? = some Bi → (∀ Bj ∈ Cj.BODY, Bj.X = Bi.X) →
          C1.BODY[i]? = some Bi) ∧
    (∀ (l1 l2 : List (Body K)) (Bc : Body K) (i : Nat) (Bi : Body K), Ci.BODY[i]? = some Bi → Bc.X = Bi.X →
      (P2PX sqrt log Ci { Cj with BODY := l1 ++ Bc :: l2 }).BODY[i]?
        = (P2PX sqrt log Ci { Cj with BODY := l1 ++ l2 }).BODY[i]?) ∧
    (∀ (l1 l2 : List (Body K)) (Bc : Body K), (∀ B ∈ Ci.BODY, (weight G B Ci).isSome) →
      (∀ B ∈ l1 ++ Bc :: l2, (weight G B Cj).isSome) →
      ∃ C1 C2, P2P sqrt log G Ci { Cj with BODY := l1 ++ Bc :: l2 } = some C1 ∧
        P2P sqrt log G Ci { Cj with BODY := l1 ++ l2 } = some C2 ∧
        ∀ (i : Nat) (Bi : Body K), Ci.BODY[i]? = some Bi → Bc.X = Bi.X → C1.BODY[i]? = C2.BODY[i]?) := by
  refine ⟨?_, ?_, ?_, ?_⟩
  · intro i Bi hi hc
    rw [P2PX_eq]
    simp only [List.getElem?_map, hi, Option.map_some', filter_ne_eq_nil Bi.X Cj.BODY hc,
      List.map_nil, List.sum_nil]
    simp only [zero_mul, add_zero, sub_zero]
  · intro hwi hwj
    refine ⟨_, P2P_spec sqrt log G Ci Cj _ _ (weight_some_of_isSome G Ci _ hwi)
      (weight_some_of_isSome G Cj _ hwj), ?_⟩
    intro i Bi hi hc
    simp only [List.getElem?_map, hi, Option.map_some', filter_ne_eq_nil Bi.X Cj.BODY hc,
      List.map_nil, List.sum_nil]
    simp only [zero_mul, add_zero, sub_zero]
  · intro l1 l2 Bc i Bi hi hc
    rw [P2PX_eq, P2PX_eq]
    simp only [List.getElem?_map, hi, Option.map_some', filter_ne_remove Bi.X l1 l2 Bc hc]
  · intro l1 l2 Bc hwi hwj
    have hwj2 : ∀ B ∈ l1 ++ l2, (weight G B Cj).isSome := by
      intro B hB
      refine hwj B ?_
      rcases List.mem_append.1 hB with h | h
      · exact List.mem_append_left _ h
      · exact List.mem_append_right _ (List.mem_cons_of_mem _ h)
    refine ⟨_, _, P2P_spec sqrt log G Ci { Cj with BODY := l1 ++ Bc :: l2 } _
        (fun B => (weight G B Cj).getD 0) (weight_some_of_isSome G Ci _ hwi)
        (weight_some_of_isSome G Cj _ hwj),
      P2P_spec sqrt log G Ci { Cj with BODY := l1 ++ l2 } _
        (fun B => (weight G B Cj).getD 0) (weight_some_of_isSome G Ci _ hwi)
        (weight_some_of_isSome G Cj _ hwj2), ?_⟩
    intro i Bi hi hc
    simp only [List.getElem?_map, hi, Option.map_some', filter_ne_remove Bi.X l1 l2 Bc hc]

/-- C12, instance: the cell `CJ` of `kernel.cxx` as target and as source cell (the one body
coincides with itself): `P2PX` and `P2P` return the body unchanged. -/
theorem coincident_source_contributes_zero_witness :
    (∀ Bj ∈ exCJ.BODY, Bj.X = exBj.X) ∧
    (P2PX (fun x => x) (fun x => x) exCJ exCJ).BODY[0]? = some exBj ∧
    ∃ C1, P2P (fun x => x) (fun x => x) exG exCJ exCJ = some C1 ∧ C1.BODY[0]? = some exBj :=
  have hc : ∀ Bj ∈ exCJ.BODY, Bj.X = exBj.X := by decide!
  have hw : ∀ B ∈ exCJ.BODY, (weight exG B exCJ).isSome := by decide!
  ⟨hc, (coincident_source_contributes_zero (fun x => x) (fun x => x) exG exCJ exCJ).1
      0 exBj rfl hc,
    ((coincident_source_contributes_zero (fun x => x) (fun x => x) exG exCJ exCJ).2.1
      hw hw).imp fun _ h => ⟨h.1, h.2 0 exBj rfl hc⟩⟩

/-! ### C13 -/

/-- C13 (smoothing weight at the cell centre).  For `D > 0`, a cell of radius `R ≥ D` and a
body exactly at the cell's centre, `weight` returns 1, whatever `X0` and `R0` are. -/
theorem weight_at_centre (G : Globals K) (B : Body K) (C : Cell K) (hD : 0 < G.D)
    (hR : G.D ≤ C.R) (hB : B.X = C.X) : weight G B C = some 1 := by
  refine weight_interior G B C hD ?_ ?_
  · rw [hB, sub_self, abs_zero, sub_zero]
    exact hR
  · rw [hB, sub_self, abs_zero, sub_zero]
    exact hR

/-- C13, instance: the centre of the cell `CJ2` of `kernel.cxx` with buffer 1. -/
theorem weight_at_centre_witness :
    weight exG ⟨0, (4, 0), 1, 0, (0, 0)⟩ exCJ2 = some 1 :=
  weight_at_centre exG ⟨0, (4, 0), 1, 0, (0, 0)⟩ exCJ2 (by decide!) (by decide!) rfl

/-! ### C14 -/

/-- C14 (smoothing weight range).  For `D > 0`, whenever both assertions of `weight` hold, so
that `weight` returns a value `w`, that value lies in `[0,1]`. -/
theorem weight_range (G : Globals K) (B : Body K) (C : Cell K) (w : K) (hD : 0 < G.D)
    (hw : weight G B C = some w) : 0 ≤ w ∧ w ≤ 1 := by
  rw [weight_eq G B C _ _ rfl rfl] at hw
  have hx : (if G.R0 - |B.X.1 - G.X0.1| < G.D then G.D
      else min (C.R - |B.X.1 - C.X.1|) G.D) ≤ G.D := by
    split
    · exact le_refl _
    · exact min_le_right _ _
  have hy : (if G.R0 - |B.X.2 - G.X0.2| < G.D then G.D
      else min (C.R - |B.X.2 - C.X.2|) G.D) ≤ G.D := by
    split
    · exact le_refl _
    · exact min_le_right _ _
  by_cases ha : -G.D ≤ (if G.R0 - |B.X.1 - G.X0.1| < G.D then G.D
            else min (C.R - |B.X.1 - C.X.1|) G.D) ∧
          -G.D ≤ (if G.R0 - |B.X.2 - G.X0.2| < G.D then G.D
            else min (C.R - |B.X.2 - C.X.2|) G.D)
  · rw [if_pos ha] at hw
    have hw1 := Option.some.inj hw
    have bx := blend_mem ((if G.R0 - |B.X.1 - G.X0.1| < G.D then G.D
        else min (C.R - |B.X.1 - C.X.1|) G.D) / G.D)
      (by rw [le_div_iff₀ hD]; linarith [ha.1]) (by rw [div_le_one hD]; exact hx)
    have by1 := blend_mem ((if G.R0 - |B.X.2 - G.X0.2| < G.D then G.D
        else min (C.R - |B.X.2 - C.X.2|) G.D) / G.D)
      (by rw [le_div_iff₀ hD]; linarith [ha.2]) (by rw [div_le_one hD]; exact hy)
    rw [← hw1]
    exact ⟨mul_nonneg bx.1 by1.1, mul_le_one₀ bx.2 by1.1 by1.2⟩
  · rw [if_neg ha] at hw
    exact absurd hw (by simp)

/-- C14, instance: the source body of `kernel.cxx` in the cell `CJ2`, half a unit outside it,
with buffer 1: the weight is `5/32`. -/
theorem weight_range_witness :
    weight exG exBj exCJ2 = some (5/32) ∧ (0 : ℚ) ≤ 5/32 ∧ (5/32 : ℚ) ≤ 1 :=
  ⟨by decide!, weight_range exG exBj exCJ2 (5/32) (by decide!) (by decide!)⟩

/-! ### C15 -/

/-- C15, counterexample.  Order 2, local array `[0, 1]`, a body at the centre of a cell of
radius 2 (weight 1): `L2P` adds the force `(1, 0)`, the potential series is `Phi(x,y) = x`
with `dPhi/dx = 1`, so `dF_x = 1` is `+dPhi/dx` and `-dF_x = -1` is not a derivative of
`Phi` in `x`. -/
theorem L2P_force_gradient_counterexample :
    L2P_body (⟨2, 1, 16, (0, 0)⟩ : Globals ℝ) ⟨[], [], (0, 0), 2, [], [0, 1]⟩
        ⟨0, (0, 0), 1, 0, (0, 0)⟩
      = some ⟨0, (0, 0), 1, 0, (1, 0)⟩ ∧
    weight (⟨2, 1, 16, (0, 0)⟩ : Globals ℝ) ⟨0, (0, 0), 1, 0, (0, 0)⟩
        ⟨[], [], (0, 0), 2, [], [0, 1]⟩ = some 1 ∧
    HasDerivAt (fun x : ℝ => (1 : ℝ) * (∑ n in Finset.range 2,
        ([0, 1] : List (complex_t ℝ)).getD n 0 * (⟨x, 0⟩ : complex_t ℝ) ^ n
          / (n.factorial : complex_t ℝ)).re) 1 0 ∧
    ¬ HasDerivAt (fun x : ℝ => (1 : ℝ) * (∑ n in Finset.range 2,
        ([0, 1] : List (complex_t ℝ)).getD n 0 * (⟨x, 0⟩ : complex_t ℝ) ^ n
          / (n.factorial : complex_t ℝ)).re) (-1) 0 := by
  have hw : weight (⟨2, 1, 16, (0, 0)⟩ : Globals ℝ) ⟨0, (0, 0), 1, 0, (0, 0)⟩
      ⟨[], [], (0, 0), 2, [], [0, 1]⟩ = some 1 :=
    weight_interior _ _ _ (by norm_num) (by norm_num) (by norm_num)
  have hd : HasDerivAt (fun x : ℝ => (1 : ℝ) * (∑ n in Finset.range 2,
        ([0, 1] : List (complex_t ℝ)).getD n 0 * (⟨x, 0⟩ : complex_t ℝ) ^ n
          / (n.factorial : complex_t ℝ)).re) 1 0 := by
    have := (hasDerivAt_local_x (fun n => ([0, 1] : List (complex_t ℝ)).getD n 0) 1 0 0).const_mul
      (1 : ℝ)
    simpa [Finset.sum_range_one] using this
  refine ⟨?_, hw, hd, fun h => ?_⟩
  · rw [L2P_body_spec _ _ _ 1 (by norm_num) rfl hw]
    simp [Finset.sum_range_succ]
  · have := hd.unique h
    norm_num at this

/-- C15 as amended (L2P force is the gradient of the potential series).  For `P ≥ 2`, a local
array of length `P` and a body `B` of weight `w` at offset `(x0, y0)` from the cell centre,
`L2P` returns; with `Phi(x,y) = w * Re(Σ_{n<P} L[n] (x+iy)^n / n!)` and `w` held constant, the
potential increment is `Phi(x0,y0)` and the force increment `(dF_x, dF_y)` is
`+(dPhi/dx, dPhi/dy)` at `(x0, y0)`. -/
theorem L2P_force_gradient (G : Globals ℝ) (C : Cell ℝ) (B : Body ℝ) (w : ℝ)
    (hP : 2 ≤ G.P) (hL : C.L.length = G.P) (hw : weight G B C = some w) :
    ∃ B1, L2P_body G C B = some B1 ∧
      B1.p - B.p = w * (∑ n in Finset.range G.P, C.L.getD n 0
        * (⟨B.X.1 - C.X.1, B.X.2 - C.X.2⟩ : complex_t ℝ) ^ n / (n.factorial : complex_t ℝ)).re ∧
      HasDerivAt (fun x : ℝ => w * (∑ n in Finset.range G.P, C.L.getD n 0
        * (⟨x, B.X.2 - C.X.2⟩ : complex_t ℝ) ^ n / (n.factorial : complex_t ℝ)).re)
        (B1.F.1 - B.F.1) (B.X.1 - C.X.1) ∧
      HasDerivAt (fun y : ℝ => w * (∑ n in Finset.range G.P, C.L.getD n 0
        * (⟨B.X.1 - C.X.1, y⟩ : complex_t ℝ) ^ n / (n.factorial : complex_t ℝ)).re)
        (B1.F.2 - B.F.2) (B.X.2 - C.X.2) := by
  refine ⟨_, L2P_body_spec G C B w hP hL hw, ?_, ?_, ?_⟩
  · simp only [add_sub_cancel_left]
  · simp only [add_sub_cancel_left]
    have h := (hasDerivAt_local_x (fun n => C.L.getD n 0) (G.P - 1) (B.X.1 - C.X.1)
      (B.X.2 - C.X.2)).const_mul w
    have e : G.P - 1 + 1 = G.P := by omega
    rw [e] at h
    exact h
  · have e0 : B.F.2 - w * (∑ m in Finset.range (G.P - 1), C.L.getD (m + 1) 0
        * (⟨B.X.1 - C.X.1, B.X.2 - C.X.2⟩ : complex_t ℝ) ^ m
        / (m.factorial : complex_t ℝ)).im - B.F.2
        = w * -(∑ m in Finset.range (G.P - 1), C.L.getD (m + 1) 0
        * (⟨B.X.1 - C.X.1, B.X.2 - C.X.2⟩ : complex_t ℝ) ^ m
        / (m.factorial : complex_t ℝ)).im := by ring
    simp only [e0]
    have h := (hasDerivAt_local_y (fun n => C.L.getD n 0) (G.P - 1) (B.X.1 - C.X.1)
      (B.X.2 - C.X.2)).const_mul w
    have e : G.P - 1 + 1 = G.P := by omega
    rw [e] at h
    exact h

/-- C15, instance of the amended statement: order 2, local array `[0, 1]`, a body at the
centre of a cell of radius 2. -/
theorem L2P_force_gradient_witness :
    weight (⟨2, 1, 16, (0, 0)⟩ : Globals ℝ) ⟨0, (0, 0), 1, 0, (0, 0)⟩
        ⟨[], [], (0, 0), 2, [], [0, 1]⟩ = some 1 ∧
    ∃ B1, L2P_body (⟨2, 1, 16, (0, 0)⟩ : Globals ℝ) ⟨[], [], (0, 0), 2, [], [0, 1]⟩
        ⟨0, (0, 0), 1, 0, (0, 0)⟩ = some B1 ∧
      B1.p - 0 = 1 * (∑ n in Finset.range 2, ([0, 1] : List (complex_t ℝ)).getD n 0
        * (⟨(0 : ℝ) - 0, (0 : ℝ) - 0⟩ : complex_t ℝ) ^ n / (n.factorial : complex_t ℝ)).re ∧
      HasDerivAt (fun x : ℝ => 1 * (∑ n in Finset.range 2, ([0, 1] : List (complex_t ℝ)).getD n 0
        * (⟨x, (0 : ℝ) - 0⟩ : complex_t ℝ) ^ n / (n.factorial : complex_t ℝ)).re)
        (B1.F.1 - 0) ((0 : ℝ) - 0) ∧
      HasDerivAt (fun y : ℝ => 1 * (∑ n in Finset.range 2, ([0, 1] : List (complex_t ℝ)).getD n 0
        * (⟨(0 : ℝ) - 0, y⟩ : complex_t ℝ) ^ n / (n.factorial : complex_t ℝ)).re)
        (B1.F.2 - 0) ((0 : ℝ) - 0) :=
  have hw : weight (⟨2, 1, 16, (0, 0)⟩ : Globals ℝ) ⟨0, (0, 0), 1, 0, (0, 0)⟩
      ⟨[], [], (0, 0), 2, [], [0, 1]⟩ = some 1 :=
    weight_interior _ _ _ (by norm_num) (by norm_num) (by norm_num)
  ⟨hw, L2P_force_gradient ⟨2, 1, 16, (0, 0)⟩ ⟨[], [], (0, 0), 2, [], [0, 1]⟩
    ⟨0, (0, 0), 1, 0, (0, 0)⟩ 1 (le_refl 2) rfl hw⟩

/-! ### C16 -/

/-- C16, counterexample.  Buffer `D = 4`, wider than the cell radius 2, in a domain of radius
16 about the origin: every assertion of `weight` passes and `main` returns for every `P ≥ 2`,
but the weights of each body in its two cells add up to `27/32`, and both reported errors
tend to `295/729`, not to 0. -/
theorem main_convergence_counterexample :
    ∃ e : ℕ → ℝ × ℝ,
      (∀ P, 2 ≤ P → main Real.sqrt Real.log
        (fun z : complex_t ℝ => (⟨(Complex.log (toComplex z)).re,
          (Complex.log (toComplex z)).im⟩ : complex_t ℝ)) ⟨P, 4, 16, (0, 0)⟩ = some (e P)) ∧
      Filter.Tendsto (fun P => (e P).1) Filter.atTop (nhds (295 / 729)) ∧
      Filter.Tendsto (fun P => (e P).2) Filter.atTop (nhds (295 / 729)) ∧
      ¬ Filter.Tendsto (fun P => (e P).1) Filter.atTop (nhds 0) ∧
      ¬ Filter.Tendsto (fun P => (e P).2) Filter.atTop (nhds 0) := by
  have hw : ∀ (bx cx d w : ℝ), 16 - |bx - 0| ≥ 4 → 2 - |bx - cx| = d → -4 ≤ d → d ≤ 4 →
      (2 + 3 * (d / 4) - d / 4 * (d / 4) * (d / 4)) / 4 * (27 / 32) = w →
      weight (⟨0, 4, 16, (0, 0)⟩ : Globals ℝ) ⟨0, (bx, 0), 1, 0, (0, 0)⟩
        ⟨[], [], (cx, 0), 2, [], []⟩ = some w := by
    intro bx cx d w h1 h2 h3 h4 h5
    rw [weight_eq _ _ _ d 2 (by
        show d = if (16 : ℝ) - |bx - 0| < 4 then 4 else min (2 - |bx - cx|) 4
        rw [if_neg (not_lt.2 h1), h2, min_eq_left h4]) (by
        show (2 : ℝ) = if (16 : ℝ) - |(0 : ℝ) - 0| < 4 then 4 else min (2 - |(0 : ℝ) - 0|) 4
        norm_num), if_pos (And.intro h3 (by norm_num)), ← h5]
    norm_num
  have hJ : weight (⟨0, 4, 16, (0, 0)⟩ : Globals ℝ) ⟨0, (13 / 2, 0), 1, 0, (0, 0)⟩
      ⟨[], [], (8, 0), 2, [], []⟩ = some (32805 / 65536) :=
    hw (13 / 2) 8 (1 / 2) _ (by rw [abs_of_pos (by norm_num)]; norm_num)
      (by rw [abs_of_neg (by norm_num)]; norm_num) (by norm_num) (by norm_num) (by norm_num)
  have hJ2 : weight (⟨0, 4, 16, (0, 0)⟩ : Globals ℝ) ⟨0, (13 / 2, 0), 1, 0, (0, 0)⟩
      ⟨[], [], (4, 0), 2, [], []⟩ = some (22491 / 65536) :=
    hw (13 / 2) 4 (-1 / 2) _ (by rw [abs_of_pos (by norm_num)]; norm_num)
      (by rw [abs_of_pos (by norm_num)]; norm_num) (by norm_num) (by norm_num) (by norm_num)
  have hI : weight (⟨0, 4, 16, (0, 0)⟩ : Globals ℝ) ⟨0, (-13 / 2, 0), 1, 0, (0, 0)⟩
      ⟨[], [], (-8, 0), 2, [], []⟩ = some (32805 / 65536) :=
    hw (-13 / 2) (-8) (1 / 2) _ (by rw [abs_of_neg (by norm_num)]; norm_num)
      (by rw [abs_of_pos (by norm_num)]; norm_num) (by norm_num) (by norm_num) (by norm_num)
  have hI2 : weight (⟨0, 4, 16, (0, 0)⟩ : Globals ℝ) ⟨0, (-13 / 2, 0), 1, 0, (0, 0)⟩
      ⟨[], [], (-4, 0), 2, [], []⟩ = some (22491 / 65536) :=
    hw (-13 / 2) (-4) (-1 / 2) _ (by rw [abs_of_neg (by norm_num)]; norm_num)
      (by rw [abs_of_neg (by norm_num)]; norm_num) (by norm_num) (by norm_num) (by norm_num)
  obtain ⟨e, he, h1, h2⟩ := main_tendsto
    (fun z : complex_t ℝ => (⟨(Complex.log (toComplex z)).re,
      (Complex.log (toComplex z)).im⟩ : complex_t ℝ)) ⟨0, 4, 16, (0, 0)⟩
    (32805 / 65536) (22491 / 65536) (32805 / 65536) (22491 / 65536)
    (clog_re_real _ principal_log_re _ (by norm_num))
    (clog_re_real _ principal_log_re _ (by norm_num))
    (clog_re_real _ principal_log_re _ (by norm_num)) hJ hJ2 hI hI2 (by norm_num)
  have e1 : |(32805 / 65536 : ℝ) * (32805 / 65536 + 22491 / 65536)
        + 22491 / 65536 * (32805 / 65536) + 22491 / 65536 * (22491 / 65536) - 1|
      / |(32805 / 65536 : ℝ) * (32805 / 65536 + 22491 / 65536)
        + 22491 / 65536 * (32805 / 65536) + 22491 / 65536 * (22491 / 65536)|
      = 295 / 729 := by
    rw [abs_of_neg (by norm_num), abs_of_pos (by norm_num)]
    norm_num
  rw [e1] at h1 h2
  refine ⟨e, he, h1, h2, fun h => ?_, fun h => ?_⟩
  · have := tendsto_nhds_unique h h1
    norm_num at this
  · have := tendsto_nhds_unique h h2
    norm_num at this

/-- C16 as amended (end-to-end convergence on the reference scene).  Let the buffer size
satisfy `1/2 ≤ D ≤ 2` (the body lies `1/2` from the shared cell edge, the cell radius is 2) and
let neither body be within `D` of the outer domain boundary along `x`.  Then for every branch
`clog` of the complex logarithm (real part `log |z|`) the driver `main` returns for every order
`P ≥ 2`, and the reported relative errors of the potential and of the force both tend to 0 as
`P` grows. -/
theorem main_converges (clog : complex_t ℝ → complex_t ℝ) (D R0 : ℝ) (X0 : ℝ × ℝ)
    (hclog : ∀ z : complex_t ℝ, z ≠ 0 →
      (clog z).re = Real.log (Real.sqrt (norm (z.re, z.im))))
    (hD1 : 1 / 2 ≤ D) (hD2 : D ≤ 2)
    (hJ : ¬ (R0 - |13 / 2 - X0.1| < D)) (hI : ¬ (R0 - |-13 / 2 - X0.1| < D)) :
    ∃ e : ℕ → ℝ × ℝ,
      (∀ P, 2 ≤ P → main Real.sqrt Real.log clog ⟨P, D, R0, X0⟩ = some (e P)) ∧
      Filter.Tendsto (fun P => (e P).1) Filter.atTop (nhds 0) ∧
      Filter.Tendsto (fun P => (e P).2) Filter.atTop (nhds 0) := by
  have hD : 0 < D := by linarith
  have hD0 : D ≠ 0 := ne_of_gt hD
  have hw : ∀ (bx cx d : ℝ), ¬ (R0 - |bx - X0.1| < D) → 2 - |bx - cx| = d → -D ≤ d → d ≤ D →
      weight (⟨0, D, R0, X0⟩ : Globals ℝ) ⟨0, (bx, 0), 1, 0, (0, 0)⟩
        ⟨[], [], (cx, 0), 2, [], []⟩
        = some ((2 + 3 * (d / D) - d / D * (d / D) * (d / D)) / 4) :=
    fun bx cx d h1 h2 h3 h4 => weight_scene ⟨0, D, R0, X0⟩ ⟨0, (bx, 0), 1, 0, (0, 0)⟩
      ⟨[], [], (cx, 0), 2, [], []⟩ d hD h1 h2 h3 h4 (by
        show D ≤ 2 - |(0 : ℝ) - 0|
        rw [sub_self, abs_zero, sub_zero]
        exact hD2)
  obtain ⟨e, he, h1, h2⟩ := main_tendsto clog ⟨0, D, R0, X0⟩
    ((2 + 3 * (1 / 2 / D) - 1 / 2 / D * (1 / 2 / D) * (1 / 2 / D)) / 4)
    ((2 + 3 * (-1 / 2 / D) - -1 / 2 / D * (-1 / 2 / D) * (-1 / 2 / D)) / 4)
    ((2 + 3 * (1 / 2 / D) - 1 / 2 / D * (1 / 2 / D) * (1 / 2 / D)) / 4)
    ((2 + 3 * (-1 / 2 / D) - -1 / 2 / D * (-1 / 2 / D) * (-1 / 2 / D)) / 4)
    (clog_re_real clog hclog _ (by norm_num))
    (clog_re_real clog hclog _ (by norm_num))
    (clog_re_real clog hclog _ (by norm_num))
    (hw (13 / 2) 8 (1 / 2) hJ (by rw [abs_of_neg (by norm_num)]; norm_num) (by linarith) hD1)
    (hw (13 / 2) 4 (-1 / 2) hJ (by rw [abs_of_pos (by norm_num)]; norm_num) (by linarith)
      (by linarith))
    (hw (-13 / 2) (-8) (1 / 2) hI (by rw [abs_of_pos (by norm_num)]; norm_num) (by linarith)
      hD1)
    (hw (-13 / 2) (-4) (-1 / 2) hI (by rw [abs_of_neg (by norm_num)]; norm_num) (by linarith)
      (by linarith))
    (by
      have : (2 + 3 * (1 / 2 / D) - 1 / 2 / D * (1 / 2 / D) * (1 / 2 / D)) / 4
          * ((2 + 3 * (1 / 2 / D) - 1 / 2 / D * (1 / 2 / D) * (1 / 2 / D)) / 4
            + (2 + 3 * (-1 / 2 / D) - -1 / 2 / D * (-1 / 2 / D) * (-1 / 2 / D)) / 4)
          + (2 + 3 * (-1 / 2 / D) - -1 / 2 / D * (-1 / 2 / D) * (-1 / 2 / D)) / 4
            * ((2 + 3 * (1 / 2 / D) - 1 / 2 / D * (1 / 2 / D) * (1 / 2 / D)) / 4)
          + (2 + 3 * (-1 / 2 / D) - -1 / 2 / D * (-1 / 2 / D) * (-1 / 2 / D)) / 4
            * ((2 + 3 * (-1 / 2 / D) - -1 / 2 / D * (-1 / 2 / D) * (-1 / 2 / D)) / 4)
          = 1 := by ring
      rw [this]
      exact one_ne_zero)
  have e1 : (2 + 3 * (1 / 2 / D) - 1 / 2 / D * (1 / 2 / D) * (1 / 2 / D)) / 4
          * ((2 + 3 * (1 / 2 / D) - 1 / 2 / D * (1 / 2 / D) * (1 / 2 / D)) / 4
            + (2 + 3 * (-1 / 2 / D) - -1 / 2 / D * (-1 / 2 / D) * (-1 / 2 / D)) / 4)
          + (2 + 3 * (-1 / 2 / D) - -1 / 2 / D * (-1 / 2 / D) * (-1 / 2 / D)) / 4
            * ((2 + 3 * (1 / 2 / D) - 1 / 2 / D * (1 / 2 / D) * (1 / 2 / D)) / 4)
          + (2 + 3 * (-1 / 2 / D) - -1 / 2 / D * (-1 / 2 / D) * (-1 / 2 / D)) / 4
            * ((2 + 3 * (-1 / 2 / D) - -1 / 2 / D * (-1 / 2 / D) * (-1 / 2 / D)) / 4)
          = 1 := by ring
  rw [e1, sub_self, abs_zero, zero_div] at h1 h2
  exact ⟨e, he, h1, h2⟩

/-- C16, instance of the amended statement: buffer size 1 in a domain of radius 16 about the
origin, with the principal branch of the logarithm. -/
theorem main_converges_witness :
    ((1 : ℝ) / 2 ≤ 1 ∧ (1 : ℝ) ≤ 2 ∧ ¬ ((16 : ℝ) - |13 / 2 - 0| < 1)
      ∧ ¬ ((16 : ℝ) - |-13 / 2 - 0| < 1)) ∧
    ∃ e : ℕ → ℝ × ℝ,
      (∀ P, 2 ≤ P → main Real.sqrt Real.log
        (fun z : complex_t ℝ => (⟨(Complex.log (toComplex z)).re,
          (Complex.log (toComplex z)).im⟩ : complex_t ℝ)) ⟨P, 1, 16, (0, 0)⟩ = some (e P)) ∧
      Filter.Tendsto (fun P => (e P).1) Filter.atTop (nhds 0) ∧
      Filter.Tendsto (fun P => (e P).2) Filter.atTop (nhds 0) :=
  have h1 : ¬ ((16 : ℝ) - |13 / 2 - 0| < 1) := by
    rw [abs_of_pos (by norm_num)]; norm_num
  have h2 : ¬ ((16 : ℝ) - |-13 / 2 - 0| < 1) := by
    rw [abs_of_neg (by norm_num)]; norm_num
  ⟨⟨by norm_num, by norm_num, h1, h2⟩,
    main_converges _ 1 16 (0, 0) principal_log_re (by norm_num) (by norm_num) h1 h2⟩

/-! ### C17 -/

/-- C17 (coefficient indexing at order 1).  At `P = 1`, with the local array of `Ci` and the
multipole array of `Cj` of length 1 (any entries `l0`, `m0`), `M2L` accesses index 1: it reads
`Cj.M[1]`, so the checked kernel fails; and `L2P` fails on every body whose weight is defined,
because it reads `Ci.L[1]`. -/
theorem order_one_index_out_of_range (clog : complex_t K → complex_t K) (D R0 : K)
    (X0 : K × K) (Ci Cj : Cell K) (l0 m0 : complex_t K) :
    vget ({ Cj with M := [m0] } : Cell K).M 1 = none ∧
    vget ({ Ci with L := [l0] } : Cell K).L 1 = none ∧
    M2L clog ⟨1, D, R0, X0⟩ { Ci with L := [l0] } { Cj with M := [m0] } = none ∧
    (∀ B w, weight ⟨1, D, R0, X0⟩ B { Ci with L := [l0] } = some w →
      L2P_body ⟨1, D, R0, X0⟩ { Ci with L := [l0] } B = none) := by
  refine ⟨rfl, rfl, ?_, ?_⟩
  · simp [M2L, vget, vadd]
  · intro B w hw
    simp [L2P_body, hw, vget]

/-! ### C18 -/

/-- C18, counterexample.  One body with potential 2 and force `(2,0)` from the expansion
kernels, potential 1 and force `(1,0)` from the direct sum: the driver reports `1/2` for both
errors, while normalising by the direct result gives `sqrt((2-1)^2 / 1^2) = 1`. -/
theorem main_verify_counterexample :
    main_verify Real.sqrt [⟨0, (0, 0), 1, 2, (2, 0)⟩] [⟨0, (0, 0), 1, 1, (1, 0)⟩]
      = some ((1 : ℝ) / 2, (1 : ℝ) / 2) ∧
    Real.sqrt (((2 : ℝ) - 1) * (2 - 1) / (1 * 1)) = 1 ∧
    Real.sqrt ((((2 : ℝ) - 1) * (2 - 1) + (0 - 0) * (0 - 0)) / (1 * 1 + 0 * 0)) = 1 ∧
    (1 : ℝ) / 2 ≠ 1 := by
  have h4 : Real.sqrt ((1 : ℝ) / 4) = 1 / 2 := by
    rw [show (1 : ℝ) / 4 = (1 / 2) ^ 2 by norm_num, Real.sqrt_sq (by norm_num)]
  refine ⟨?_, by norm_num, by norm_num, by norm_num⟩
  simp only [main_verify, Option.bind_eq_bind, Option.pure_def]
  rw [main_verify_loop [⟨0, (0, 0), 1, 2, (2, 0)⟩] [⟨0, (0, 0), 1, 1, (1, 0)⟩] (le_refl _),
    Option.some_bind]
  norm_num [h4]

/-- C18 as amended (reported error norm).  For body lists `bodies` (result of the expansion
kernels) and `bodies2` (direct result) with `bodies2` at least as long as `bodies`, the driver
reports `sqrt(Σ_b (p_b - p2_b)^2 / Σ_b p_b^2)` and
`sqrt(Σ_b |F_b - F2_b|^2 / Σ_b |F_b|^2)`: both ratios are normalised by the entries of
`bodies`, the list being verified. -/
theorem main_verify_reported (sqrt : K → K) (bodies bodies2 : List (Body K))
    (h : bodies.length ≤ bodies2.length) :
    main_verify sqrt bodies bodies2 = some
      (sqrt ((List.zipWith (fun B B2 => (B.p - B2.p) * (B.p - B2.p)) bodies bodies2).sum
          / (bodies.map fun B => B.p * B.p).sum),
       sqrt ((List.zipWith (fun B B2 => (B.F.1 - B2.F.1) * (B.F.1 - B2.F.1)
            + (B.F.2 - B2.F.2) * (B.F.2 - B2.F.2)) bodies bodies2).sum
          / (bodies.map fun B => B.F.1 * B.F.1 + B.F.2 * B.F.2).sum)) := by
  simp only [main_verify, Option.bind_eq_bind, Option.pure_def]
  rw [main_verify_loop bodies bodies2 h, Option.some_bind]

/-- C18, instance of the amended statement: two bodies per list, with exact square roots
replaced by the identity. -/
theorem main_verify_reported_witness :
    main_verify (fun x : ℚ => x)
        [⟨0, (0, 0), 1, 2, (2, 0)⟩, ⟨1, (1, 0), 1, 1, (0, 1)⟩]
        [⟨0, (0, 0), 1, 1, (1, 0)⟩, ⟨1, (1, 0), 1, 1, (0, 3)⟩]
      = some ((1 : ℚ) / 5, 1) := by
  rw [main_verify_reported (fun x : ℚ => x) _ _ (by decide)]
  decide!

/-! ### C19 -/

/-- C19 (partition of unity across a shared cell edge).  For `0 < D ≤ R`, two cells of radius
`R` with the same `y` centre and `x` centres `2R` apart, and a body whose `x`-distance to the
shared edge is at most `D`, whose `y`-distance inside the cells is at least `D` and which is
not within `D` of the domain boundary along `x`: both weights are returned and add up to 1. -/
theorem weight_partition_of_unity (G : Globals K) (B : Body K) (C1 C2 : Cell K)
    (hD : 0 < G.D) (hDR : G.D ≤ C1.R) (hR : C2.R = C1.R)
    (hy : C2.X.2 = C1.X.2) (hx : C2.X.1 = C1.X.1 + 2 * C1.R)
    (hedge : |B.X.1 - (C1.X.1 + C1.R)| ≤ G.D)
    (hin : G.D ≤ C1.R - |B.X.2 - C1.X.2|)
    (hdom : ¬ (G.R0 - |B.X.1 - G.X0.1| < G.D)) :
    ∃ w1 w2, weight G B C1 = some w1 ∧ weight G B C2 = some w2 ∧ w1 + w2 = 1 := by
  have hD0 : G.D ≠ 0 := ne_of_gt hD
  obtain ⟨he1, he2⟩ := abs_le.1 hedge
  have a1 : |B.X.1 - C1.X.1| = B.X.1 - C1.X.1 := abs_of_nonneg (by linarith)
  have a2 : |B.X.1 - C2.X.1| = -(B.X.1 - C2.X.1) := abs_of_nonpos (by rw [hx]; linarith)
  have m1 : -(B.X.1 - (C1.X.1 + C1.R)) = (if G.R0 - |B.X.1 - G.X0.1| < G.D then G.D
      else min (C1.R - |B.X.1 - C1.X.1|) G.D) := by
    rw [if_neg hdom, a1, min_eq_left (by linarith)]
    ring
  have m2 : B.X.1 - (C1.X.1 + C1.R) = (if G.R0 - |B.X.1 - G.X0.1| < G.D then G.D
      else min (C2.R - |B.X.1 - C2.X.1|) G.D) := by
    rw [if_neg hdom, a2, hR, hx, min_eq_left (by linarith)]
    ring
  have n1 : G.D = (if G.R0 - |B.X.2 - G.X0.2| < G.D then G.D
      else min (C1.R - |B.X.2 - C1.X.2|) G.D) := by
    rw [min_eq_right hin, ite_self]
  have n2 : G.D = (if G.R0 - |B.X.2 - G.X0.2| < G.D then G.D
      else min (C2.R - |B.X.2 - C2.X.2|) G.D) := by
    rw [hR, hy, min_eq_right hin, ite_self]
  have hn : -G.D ≤ G.D := by linarith
  refine ⟨(2 + 3 * (-(B.X.1 - (C1.X.1 + C1.R)) / G.D)
        - -(B.X.1 - (C1.X.1 + C1.R)) / G.D * (-(B.X.1 - (C1.X.1 + C1.R)) / G.D)
          * (-(B.X.1 - (C1.X.1 + C1.R)) / G.D)) / 4
      * ((2 + 3 * (G.D / G.D) - G.D / G.D * (G.D / G.D) * (G.D / G.D)) / 4),
    (2 + 3 * ((B.X.1 - (C1.X.1 + C1.R)) / G.D)
        - (B.X.1 - (C1.X.1 + C1.R)) / G.D * ((B.X.1 - (C1.X.1 + C1.R)) / G.D)
          * ((B.X.1 - (C1.X.1 + C1.R)) / G.D)) / 4
      * ((2 + 3 * (G.D / G.D) - G.D / G.D * (G.D / G.D) * (G.D / G.D)) / 4), ?_, ?_, ?_⟩
  · rw [weight_eq G B C1 _ _ m1 n1, if_pos (And.intro (by linarith) hn)]
  · rw [weight_eq G B C2 _ _ m2 n2, if_pos (And.intro (by linarith) hn)]
  · rw [div_self hD0, neg_div]
    have e : (2 + 3 * (1 : K) - 1 * 1 * 1) / 4 = 1 := by norm_num
    rw [e]
    exact blend_add_neg ((B.X.1 - (C1.X.1 + C1.R)) / G.D)

/-- C19, instance: the source body of `kernel.cxx`, half a unit from the edge `x = 6` shared
by the cells `CJ2` and `CJ`, with buffer 1: the weights are `5/32` and `27/32`. -/
theorem weight_partition_of_unity_witness :
    weight exG exBj exCJ2 = some (5/32) ∧ weight exG exBj exCJ = some (27/32) ∧
    ∃ w1 w2, weight exG exBj exCJ2 = some w1 ∧ weight exG exBj exCJ = some w2 ∧ w1 + w2 = 1 :=
  ⟨by decide!, by decide!,
    weight_partition_of_unity exG exBj exCJ2 exCJ (by decide!) (by decide!) rfl rfl
      (by decide!) (by decide!) (by decide!) (by decide!)⟩

/-! ### C20 -/

/-- C20 (L2L is an exact re-centring).  For a parent `Cj` with local array of length `P` and
children with zero local arrays of length `P`, `L2L` returns the parent with new children
`cs`; each new child `Ci1` keeps the centre, radius and bodies of the old child `Ci`, has a
local array of length `P`, and with `Z` the child centre minus the parent centre:
`Σ_{l<P} L_child[l] W^l / l! = Σ_{n<P} L_parent[n] (W+Z)^n / n!` for every complex `W`; and for
a body with the same weight in the child and in the parent, `L2P` through the child and
through the parent give the same potential and force (for `P ≥ 2` both return). -/
theorem L2L_recentring (G : Globals K) (Cj : Cell K) (hL : Cj.L.length = G.P)
    (hc : ∀ Ci ∈ Cj.CHILD, Ci.L = List.replicate G.P 0) :
    ∃ cs, L2L G Cj = some { Cj with CHILD := cs } ∧
      List.Forall₂ (fun Ci Ci1 =>
        Ci1.X = Ci.X ∧ Ci1.R = Ci.R ∧ Ci1.BODY = Ci.BODY ∧ Ci1.L.length = G.P ∧
        (∀ W : complex_t K,
          ∑ l in Finset.range G.P, Ci1.L.getD l 0 * W ^ l / (l.factorial : complex_t K)
            = ∑ n in Finset.range G.P, Cj.L.getD n 0
                * (W + ⟨Ci.X.1 - Cj.X.1, Ci.X.2 - Cj.X.2⟩) ^ n / (n.factorial : complex_t K)) ∧
        (∀ (B : Body K) (w : K), weight G B Ci1 = some w → weight G B Cj = some w →
          (L2P_body G Ci1 B).map (fun B1 => (B1.p, B1.F))
            = (L2P_body G Cj B).map (fun B1 => (B1.p, B1.F)) ∧
          (2 ≤ G.P → (L2P_body G Ci1 B).isSome ∧ (L2P_body G Cj B).isSome))) Cj.CHILD cs := by
  have hlen : ∀ Ci ∈ Cj.CHILD, Ci.L.length = G.P := by
    intro Ci hCi
    rw [hc Ci hCi, List.length_replicate]
  refine ⟨_, L2L_spec G Cj hL hlen, ?_⟩
  rw [List.forall₂_map_right_iff, List.forall₂_same]
  intro Ci hCi
  have hpoly := L2L_child_poly G Cj Ci
  refine ⟨rfl, rfl, rfl, by simp, ?_, ?_⟩
  · intro W
    have := hpoly W 0 (hc Ci hCi)
    simpa using this
  · intro B w hw1 hw2
    by_cases hP : 2 ≤ G.P
    · have r1 := L2P_body_spec G _ B w hP (by simp) hw1
      have r2 := L2P_body_spec G Cj B w hP hL hw2
      refine ⟨?_, fun _ => ⟨by rw [r1]; rfl, by rw [r2]; rfl⟩⟩
      rw [r1, r2]
      simp only [Option.map_some', Option.some.injEq, Prod.mk.injEq]
      have hZ := mk_sub_add B.X Ci.X Cj.X
      have p0 := hpoly ⟨B.X.1 - Ci.X.1, B.X.2 - Ci.X.2⟩ 0 (hc Ci hCi)
      have p1 := hpoly ⟨B.X.1 - Ci.X.1, B.X.2 - Ci.X.2⟩ 1 (hc Ci hCi)
      simp only [Nat.sub_zero, add_zero, ← hZ] at p0 p1
      simp only [p0, p1, and_self]
    · have n1 : L2P_body G Cj B = none := L2P_body_none G Cj B (by omega)
      have n2 := L2P_body_none G ({ Ci with L := ((List.range G.P).map fun l =>
        Ci.L.getD l 0 + ∑ k in Finset.range (G.P - l), Cj.L.getD (l + k) 0
          * (⟨Ci.X.1 - Cj.X.1, Ci.X.2 - Cj.X.2⟩ : complex_t K) ^ k
          / (k.factorial : complex_t K)) } : Cell K) B
        (by simp only [List.length_map, List.length_range]; omega)
      exact ⟨by rw [n1, n2], fun h => absurd h hP⟩

/-- C20, instance: the parent at `(6,0)` with local array `[1, i, 2]` over a child at `(8,2)`
with zero local array, at order 3. -/
theorem L2L_recentring_witness :
    (∀ Ci ∈ exCP3.CHILD, Ci.L = List.replicate exG.P 0) ∧
    ∃ cs, L2L exG exCP3 = some { exCP3 with CHILD := cs } ∧
      List.Forall₂ (fun Ci Ci1 =>
        Ci1.X = Ci.X ∧ Ci1.R = Ci.R ∧ Ci1.BODY = Ci.BODY ∧ Ci1.L.length = exG.P ∧
        (∀ W : complex_t ℚ,
          ∑ l in Finset.range exG.P, Ci1.L.getD l 0 * W ^ l / (l.factorial : complex_t ℚ)
            = ∑ n in Finset.range exG.P, exCP3.L.getD n 0
                * (W + ⟨Ci.X.1 - exCP3.X.1, Ci.X.2 - exCP3.X.2⟩) ^ n
                / (n.factorial : complex_t ℚ)) ∧
        (∀ (B : Body ℚ) (w : ℚ), weight exG B Ci1 = some w → weight exG B exCP3 = some w →
          (L2P_body exG Ci1 B).map (fun B1 => (B1.p, B1.F))
            = (L2P_body exG exCP3 B).map (fun B1 => (B1.p, B1.F)) ∧
          (2 ≤ exG.P → (L2P_body exG Ci1 B).isSome ∧ (L2P_body exG exCP3 B).isSome)))
        exCP3.CHILD cs :=
  ⟨by decide!, L2L_recentring exG exCP3 rfl (by decide!)⟩

end claims

end exafmm
